import Mathlib

/-!
Verification development for the ssh-scanner repository (main.go).

Go byte slices (`net.IP`, `net.IPMask`, Go strings) are modelled as `List Nat`
with every element below 256 (predicate `wf`).  Loops of the source are
translated as fuel-indexed structural recursions so that every definition is
executable by the kernel.
-/

namespace SSHScan

/-- Wellformedness of a modelled Go byte slice: every byte fits in 8 bits. -/
def wf (l : List Nat) : Prop := ∀ b ∈ l, b < 256

instance (l : List Nat) : Decidable (wf l) := List.decidableBAll _ l

/-- Value of a byte string read as a big-endian integer (the order in which
`inc` of main.go propagates its carry, least-significant byte last). -/
def toVal : List Nat → Nat
  | [] => 0
  | b :: l => b * 256 ^ l.length + toVal l

/-- Value of a byte string read little-endian (head is least significant);
used as the computation-friendly mirror of `toVal` on reversed lists. -/
def valRev : List Nat → Nat
  | [] => 0
  | b :: l => b + 256 * valRev l

/-- Little-endian byte decomposition of a value into `n` bytes. -/
def bytesRevOfVal : Nat → Nat → List Nat
  | 0, _ => []
  | n + 1, v => v % 256 :: bytesRevOfVal n (v / 256)

/-- The `n`-byte big-endian address whose value is `v % 256^n`. -/
def addrOfVal (n v : Nat) : List Nat := (bytesRevOfVal n v).reverse

/-- Model of `inc` from main.go acting on the reversed byte list: Go walks the
slice from its last byte leftwards, incrementing each byte (mod 256) and
stopping at the first byte that did not wrap to zero. -/
def incRev : List Nat → List Nat
  | [] => []
  | b :: l => if (b + 1) % 256 = 0 then 0 :: incRev l else (b + 1) % 256 :: l

/-- Model of `inc` (main.go lines 140-147): big-endian increment with carry,
with the carry out of the most significant byte silently discarded.  The Go
function mutates its argument in place; the model returns the new contents. -/
def inc (ip : List Nat) : List Nat := (incRev ip.reverse).reverse

theorem toVal_eq_valRev (l : List Nat) : toVal l = valRev l.reverse := by
  induction l with
  | nil => rfl
  | cons b l ih =>
    have h : ∀ (m : List Nat) (a : Nat),
        valRev (m ++ [a]) = valRev m + a * 256 ^ m.length := by
      intro m
      induction m with
      | nil => intro a; simp [valRev]
      | cons c m ihm =>
        intro a
        simp only [List.cons_append, valRev, List.length_cons, List.append_eq]
        rw [ihm]
        ring
    simp only [toVal, List.reverse_cons, h, ih, List.length_reverse]
    ring

theorem valRev_lt (l : List Nat) (h : wf l) : valRev l < 256 ^ l.length := by
  induction l with
  | nil => simp [valRev]
  | cons b l ih =>
    have hb : b < 256 := h b (List.mem_cons_self _ _)
    have hl : valRev l < 256 ^ l.length := ih (fun x hx => h x (List.mem_cons_of_mem _ hx))
    simp only [valRev, List.length_cons, pow_succ]
    calc b + 256 * valRev l ≤ 255 + 256 * valRev l := by omega
    _ < 256 ^ l.length * 256 := by omega

theorem incRev_length (l : List Nat) : (incRev l).length = l.length := by
  induction l with
  | nil => rfl
  | cons b l ih =>
    simp only [incRev]
    split <;> simp [ih]

theorem incRev_wf (l : List Nat) (h : wf l) : wf (incRev l) := by
  induction l with
  | nil => exact h
  | cons b l ih =>
    have hl := ih (fun x hx => h x (List.mem_cons_of_mem _ hx))
    simp only [incRev]
    split
    · intro x hx
      rcases List.mem_cons.1 hx with rfl | hx
      · omega
      · exact hl x hx
    · intro x hx
      rcases List.mem_cons.1 hx with rfl | hx
      · exact Nat.mod_lt _ (by omega)
      · exact h x (List.mem_cons_of_mem _ hx)

theorem valRev_incRev (l : List Nat) (h : wf l) :
    valRev (incRev l) = (valRev l + 1) % 256 ^ l.length := by
  induction l with
  | nil => simp [incRev, valRev]
  | cons b l ih =>
    have hb : b < 256 := h b (List.mem_cons_self _ _)
    have hwl : wf l := fun x hx => h x (List.mem_cons_of_mem _ hx)
    have hl := ih hwl
    have hvl : valRev l < 256 ^ l.length := valRev_lt l hwl
    simp only [incRev]
    by_cases hb255 : (b + 1) % 256 = 0
    · have hb' : b = 255 := by omega
      simp only [if_pos hb255, valRev, hl, hb', List.length_cons, pow_succ]
      rw [mul_comm (256 ^ l.length) 256]
      rw [show 255 + 256 * valRev l + 1 = 256 * (valRev l + 1) by ring]
      rw [Nat.mul_mod_mul_left]
      omega
    · have hb' : b < 255 := by omega
      have hmod : (b + 1) % 256 = b + 1 := Nat.mod_eq_of_lt (by omega)
      simp only [if_neg hb255, valRev, hmod, List.length_cons, pow_succ]
      have hlt : b + 256 * valRev l + 1 < 256 ^ l.length * 256 := by omega
      rw [Nat.mod_eq_of_lt hlt]
      ring

theorem bytesRevOfVal_length (n v : Nat) : (bytesRevOfVal n v).length = n := by
  induction n generalizing v with
  | zero => rfl
  | succ n ih => simp [bytesRevOfVal, ih]

theorem bytesRevOfVal_wf (n v : Nat) : wf (bytesRevOfVal n v) := by
  induction n generalizing v with
  | zero => intro x hx; simp [bytesRevOfVal] at hx
  | succ n ih =>
    intro x hx
    simp only [bytesRevOfVal, List.mem_cons] at hx
    rcases hx with rfl | hx
    · exact Nat.mod_lt _ (by omega)
    · exact ih (v / 256) x hx

theorem valRev_bytesRevOfVal (n v : Nat) :
    valRev (bytesRevOfVal n v) = v % 256 ^ n := by
  induction n generalizing v with
  | zero => simp [bytesRevOfVal, valRev, Nat.mod_one]
  | succ n ih =>
    simp only [bytesRevOfVal, valRev, ih, pow_succ]
    rw [mul_comm (256 ^ n) 256, Nat.mod_mul]

theorem bytesRevOfVal_valRev (l : List Nat) (h : wf l) :
    bytesRevOfVal l.length (valRev l) = l := by
  induction l with
  | nil => rfl
  | cons b l ih =>
    have hb : b < 256 := h b (List.mem_cons_self _ _)
    have hwl : wf l := fun x hx => h x (List.mem_cons_of_mem _ hx)
    simp only [List.length_cons, bytesRevOfVal, valRev]
    have h1 : (b + 256 * valRev l) % 256 = b := by omega
    have h2 : (b + 256 * valRev l) / 256 = valRev l := by omega
    rw [h1, h2, ih hwl]

theorem valRev_inj {l1 l2 : List Nat} (h1 : wf l1) (h2 : wf l2)
    (hlen : l1.length = l2.length) (hval : valRev l1 = valRev l2) : l1 = l2 := by
  have e1 := bytesRevOfVal_valRev l1 h1
  have e2 := bytesRevOfVal_valRev l2 h2
  rw [← e1, ← e2, hlen, hval]

theorem addrOfVal_length (n v : Nat) : (addrOfVal n v).length = n := by
  simp [addrOfVal, bytesRevOfVal_length]

theorem addrOfVal_wf (n v : Nat) : wf (addrOfVal n v) := by
  intro x hx
  exact bytesRevOfVal_wf n v x (List.mem_reverse.1 hx)

theorem toVal_addrOfVal (n v : Nat) : toVal (addrOfVal n v) = v % 256 ^ n := by
  rw [toVal_eq_valRev, addrOfVal, List.reverse_reverse, valRev_bytesRevOfVal]

theorem addrOfVal_toVal (ip : List Nat) (h : wf ip) :
    addrOfVal ip.length (toVal ip) = ip := by
  have hwr : wf ip.reverse := fun x hx => h x (List.mem_reverse.1 hx)
  rw [toVal_eq_valRev, addrOfVal, ← List.length_reverse,
    bytesRevOfVal_valRev ip.reverse hwr, List.reverse_reverse]

theorem addrOfVal_mod (n v : Nat) : addrOfVal n (v % 256 ^ n) = addrOfVal n v := by
  apply congrArg List.reverse
  apply valRev_inj (bytesRevOfVal_wf _ _) (bytesRevOfVal_wf _ _)
  · rw [bytesRevOfVal_length, bytesRevOfVal_length]
  · rw [valRev_bytesRevOfVal, valRev_bytesRevOfVal, Nat.mod_mod_of_dvd _ dvd_rfl]

theorem inc_length (ip : List Nat) : (inc ip).length = ip.length := by
  simp [inc, incRev_length]

theorem inc_wf (ip : List Nat) (h : wf ip) : wf (inc ip) := by
  intro x hx
  exact incRev_wf ip.reverse (fun b hb => h b (List.mem_reverse.1 hb)) x
    (List.mem_reverse.1 hx)

theorem toVal_inc (ip : List Nat) (h : wf ip) :
    toVal (inc ip) = (toVal ip + 1) % 256 ^ ip.length := by
  have hwr : wf ip.reverse := fun x hx => h x (List.mem_reverse.1 hx)
  rw [toVal_eq_valRev, inc, List.reverse_reverse, valRev_incRev ip.reverse hwr,
    List.length_reverse, toVal_eq_valRev]

theorem toVal_inj {l1 l2 : List Nat} (h1 : wf l1) (h2 : wf l2)
    (hlen : l1.length = l2.length) (hval : toVal l1 = toVal l2) : l1 = l2 := by
  have hr : l1.reverse = l2.reverse := by
    apply valRev_inj (fun x hx => h1 x (List.mem_reverse.1 hx))
      (fun x hx => h2 x (List.mem_reverse.1 hx))
    · simpa using hlen
    · rw [← toVal_eq_valRev, ← toVal_eq_valRev, hval]
  simpa using congrArg List.reverse hr

theorem inc_addrOfVal (n v : Nat) : inc (addrOfVal n v) = addrOfVal n (v + 1) := by
  apply toVal_inj (inc_wf _ (addrOfVal_wf n v)) (addrOfVal_wf n (v + 1))
  · rw [inc_length, addrOfVal_length, addrOfVal_length]
  · rw [toVal_inc _ (addrOfVal_wf n v), addrOfVal_length, toVal_addrOfVal,
      toVal_addrOfVal, Nat.mod_add_mod]

theorem toVal_lt (l : List Nat) (h : wf l) : toVal l < 256 ^ l.length := by
  rw [toVal_eq_valRev, ← List.length_reverse]
  exact valRev_lt l.reverse (fun x hx => h x (List.mem_reverse.1 hx))

/-! Masks, `To4`, `Mask`, `IPNet.Contains` (net package helpers used by
main.go), and the `generateIPs` loop. -/

/-- The 12-byte prefix marking an IPv4 address stored in 16-byte form. -/
def v4InV6Pfx : List Nat := [0, 0, 0, 0, 0, 0, 0, 0, 0, 0, 255, 255]

/-- Model of `net.IP.To4`. -/
def to4 (ip : List Nat) : Option (List Nat) :=
  if ip.length = 4 then some ip
  else if ip.length = 16 ∧ ip.take 12 = v4InV6Pfx then some (ip.drop 12)
  else none

/-- Byte-wise AND of two byte strings (the loop body of `net.IP.Mask`). -/
def zipAND (a b : List Nat) : List Nat := List.zipWith (fun x y => x &&& y) a b

/-- Model of `net.IP.Mask`: width normalisation followed by byte-wise AND,
`none` standing for Go's nil result on a width mismatch. -/
def goMask (ip mask : List Nat) : Option (List Nat) :=
  let mask1 := if mask.length = 16 ∧ ip.length = 4 ∧ (mask.take 12).all (fun b => b == 255)
    then mask.drop 12 else mask
  let ip1 := if mask1.length = 4 ∧ ip.length = 16 ∧ ip.take 12 = v4InV6Pfx
    then ip.drop 12 else ip
  if ip1.length = mask1.length then some (zipAND ip1 mask1) else none

/-- Model of `net.IPNet`: a base address and a mask, both byte strings. -/
structure IPNet where
  ip : List Nat
  mask : List Nat
deriving DecidableEq

/-- Model of net's `networkNumberAndMask`: 4-byte view of a 4-in-6 network
address, and the matching tail of a 16-byte mask; `none` for Go's nil pair. -/
def nnAndMask (n : IPNet) : Option (List Nat × List Nat) :=
  let ipv := match to4 n.ip with
    | some ip4 => some ip4
    | none => if n.ip.length = 16 then some n.ip else none
  match ipv with
  | none => none
  | some ip =>
    if n.mask.length = 4 then (if ip.length = 4 then some (ip, n.mask) else none)
    else if n.mask.length = 16 then
      (if ip.length = 4 then some (ip, n.mask.drop 12) else some (ip, n.mask))
    else none

/-- Model of `net.IPNet.Contains`: compare the masked candidate byte string
with the masked network number, byte for byte.  A nil `nn`/`m` pair is
modelled as the empty pair, matching Go's length comparison against nil. -/
def containsIP (n : IPNet) (x : List Nat) : Bool :=
  let nm := match nnAndMask n with | some p => p | none => ([], [])
  let x1 := match to4 x with | some x4 => x4 | none => x
  if x1.length = nm.1.length then decide (zipAND nm.1 nm.2 = zipAND x1 nm.2)
  else false

/-- Model of Go's `copy(dst, src)` into a fresh zeroed slice of length `n`. -/
def goCopy (n : Nat) (src : List Nat) : List Nat :=
  src.take n ++ List.replicate (n - src.length) 0

/-- The starting address of the `generateIPs` loop (main.go lines 122-130):
normalise the base address with `To4`, then take `ip.Mask(ipNet.Mask)` into a
fresh slice of the base address's length. -/
def genStart (ip : List Nat) (net : IPNet) : List Nat :=
  let ip1 := match to4 ip with | some ip4 => ip4 | none => ip
  goCopy ip1.length (match goMask ip1 net.mask with | some m => m | none => [])

/-- The `generateIPs` loop (main.go lines 133-135), observed for `fuel`
iterations: emitted addresses so far, and whether the loop has exited (Go
closes the channel) within that budget. -/
def genLoop (net : IPNet) : List Nat → Nat → List (List Nat) × Bool
  | _, 0 => ([], false)
  | cur, fuel + 1 =>
    if containsIP net cur then
      let r := genLoop net (inc cur) fuel
      (cur :: r.1, r.2)
    else ([], true)

/-- Model of `generateIPs` (main.go lines 117-138).  The channel (buffered at
`workers*2`) only schedules delivery; the emitted sequence of addresses is the
loop's.  Addresses are emitted as byte strings; the Go code sends their
`String()` forms. -/
def generateIPs (ip : List Nat) (net : IPNet) (fuel : Nat) : List (List Nat) × Bool :=
  genLoop net (genStart ip net) fuel

/-- Byte list of `net.CIDRMask(ones, 8*l)`: leading full bytes, one partial
byte `^(0xff >> n)`, then zero bytes. -/
def cidrMaskBytes : Nat → Nat → List Nat
  | 0, _ => []
  | l + 1, n => (if 8 ≤ n then 255 else 255 - 255 / 2 ^ n) :: cidrMaskBytes l (n - 8)

/-- Model of `net.CIDRMask`, nil (`none`) outside the supported widths. -/
def CIDRMask (ones bits : Nat) : Option (List Nat) :=
  if (bits = 32 ∨ bits = 128) ∧ ones ≤ bits then some (cidrMaskBytes (bits / 8) ones)
  else none

theorem cidrMaskBytes_length (l n : Nat) : (cidrMaskBytes l n).length = l := by
  induction l generalizing n with
  | zero => rfl
  | succ l ih => simp [cidrMaskBytes, ih]

theorem cidrMaskBytes_wf (l n : Nat) : wf (cidrMaskBytes l n) := by
  induction l generalizing n with
  | zero => intro x hx; simp [cidrMaskBytes] at hx
  | succ l ih =>
    intro x hx
    simp only [cidrMaskBytes, List.mem_cons] at hx
    rcases hx with rfl | hx
    · split
      · omega
      · exact lt_of_le_of_lt (Nat.sub_le _ _) (by omega)
    · exact ih (n - 8) x hx

theorem testBit_cat {k u : Nat} (a i : Nat) (hu : u < 2 ^ k) :
    Nat.testBit (a * 2 ^ k + u) i =
      (if i < k then Nat.testBit u i else Nat.testBit a (i - k)) := by
  by_cases h : i < k
  · have hsplit : a * 2 ^ k + u = u + (a * 2 ^ (k - i)) * 2 ^ i := by
      rw [mul_assoc, ← pow_add, show k - i + i = k by omega]
      omega
    have h2 : a * 2 ^ (k - i) % 2 = 0 := by
      have he : 2 ^ (k - i) = 2 * 2 ^ (k - i - 1) := by
        rw [← pow_succ']
        congr 1
        omega
      rw [he, ← mul_assoc, mul_comm a 2, mul_assoc]
      omega
    have key : (a * 2 ^ k + u) / 2 ^ i % 2 = u / 2 ^ i % 2 := by
      rw [hsplit, Nat.add_mul_div_right _ _ (Nat.pos_pow_of_pos i (by omega))]
      omega
    simp only [if_pos h]
    rw [Nat.testBit_to_div_mod, Nat.testBit_to_div_mod, key]
  · have hpow : (2 : Nat) ^ i = 2 ^ k * 2 ^ (i - k) := by
      rw [← pow_add]
      congr 1
      omega
    have hdiv : (a * 2 ^ k + u) / 2 ^ k = a := by
      rw [add_comm, Nat.add_mul_div_right _ _ (Nat.pos_pow_of_pos k (by omega)),
        Nat.div_eq_of_lt hu, zero_add]
    have key : (a * 2 ^ k + u) / 2 ^ i = a / 2 ^ (i - k) := by
      rw [hpow, ← Nat.div_div_eq_div_mul, hdiv]
    simp only [if_neg h]
    rw [Nat.testBit_to_div_mod, Nat.testBit_to_div_mod, key]

theorem and_cat {k u v : Nat} (a b : Nat) (hu : u < 2 ^ k) (hv : v < 2 ^ k) :
    (a * 2 ^ k + u) &&& (b * 2 ^ k + v) = (a &&& b) * 2 ^ k + (u &&& v) := by
  have huv : u &&& v < 2 ^ k := lt_of_le_of_lt Nat.and_le_left hu
  apply Nat.eq_of_testBit_eq
  intro i
  rw [Nat.testBit_land, testBit_cat a i hu, testBit_cat b i hv,
    testBit_cat (a &&& b) i huv]
  by_cases h : i < k
  · simp [if_pos h, Nat.testBit_land]
  · simp [if_neg h, Nat.testBit_land]

theorem zipAND_length (x y : List Nat) : (zipAND x y).length = min x.length y.length := by
  simp [zipAND]

theorem zipAND_wf (x y : List Nat) (h : wf x) : wf (zipAND x y) := by
  induction x generalizing y with
  | nil => intro b hb; simp [zipAND] at hb
  | cons a x ih =>
    cases y with
    | nil => intro b hb; simp [zipAND] at hb
    | cons c y =>
      intro b hb
      simp only [zipAND, List.zipWith_cons_cons, List.mem_cons] at hb
      rcases hb with rfl | hb
      · exact lt_of_le_of_lt Nat.and_le_left (h a (List.mem_cons_self _ _))
      · exact ih y (fun z hz => h z (List.mem_cons_of_mem _ hz)) b hb

theorem toVal_zipAND (x : List Nat) : ∀ y : List Nat, wf x → wf y →
    x.length = y.length → toVal (zipAND x y) = toVal x &&& toVal y := by
  induction x with
  | nil =>
    intro y _ _ hlen
    have : y = [] := List.length_eq_zero.1 hlen.symm
    subst this
    simp [zipAND, toVal, Nat.zero_and]
  | cons a x ih =>
    intro y hwx hwy hlen
    cases y with
    | nil => simp at hlen
    | cons b y =>
      have hwx' : wf x := fun z hz => hwx z (List.mem_cons_of_mem _ hz)
      have hwy' : wf y := fun z hz => hwy z (List.mem_cons_of_mem _ hz)
      have hlen' : x.length = y.length := by simpa using hlen
      have h256 : (256 : Nat) ^ x.length = 2 ^ (8 * x.length) := by
        rw [show (256 : Nat) = 2 ^ 8 from rfl, ← pow_mul]
      simp only [zipAND, List.zipWith_cons_cons, toVal]
      rw [show List.zipWith (fun x y => x &&& y) x y = zipAND x y from rfl]
      rw [zipAND_length, hlen', min_self, ← hlen', ih y hwx' hwy' hlen']
      rw [h256, and_cat a b (h256 ▸ toVal_lt x hwx') (h256 ▸ hlen' ▸ toVal_lt y hwy')]

theorem toVal_cidrMaskBytes (l p : Nat) (hp : p ≤ 8 * l) :
    toVal (cidrMaskBytes l p) = 2 ^ (8 * l) - 2 ^ (8 * l - p) := by
  induction l generalizing p with
  | zero =>
    have : p = 0 := by omega
    simp [this, cidrMaskBytes, toVal]
  | succ l ih =>
    simp only [cidrMaskBytes, toVal, cidrMaskBytes_length]
    by_cases h8 : 8 ≤ p
    · have hp' : p - 8 ≤ 8 * l := by omega
      rw [if_pos h8, ih (p - 8) hp']
      have he : 8 * (l + 1) - p = 8 * l - (p - 8) := by omega
      have hle : 2 ^ (8 * l - (p - 8)) ≤ 2 ^ (8 * l) :=
        Nat.pow_le_pow_right (by omega) (by omega)
      have hpow : (2 : Nat) ^ (8 * (l + 1)) = 256 * 2 ^ (8 * l) := by
        rw [show 8 * (l + 1) = 8 + 8 * l by omega, pow_add]
        rfl
      rw [he, hpow]
      have h256 : (256 : Nat) ^ l = 2 ^ (8 * l) := by
        rw [show (256 : Nat) = 2 ^ 8 from rfl, ← pow_mul]
      rw [h256]
      omega
    · have hp0 : p - 8 = 0 := by omega
      have hdiv : 255 / 2 ^ p = 2 ^ (8 - p) - 1 := by
        interval_cases p <;> decide
      have h256 : (256 : Nat) ^ l = 2 ^ (8 * l) := by
        rw [show (256 : Nat) = 2 ^ 8 from rfl, ← pow_mul]
      have hpow : (2 : Nat) ^ (8 * (l + 1)) = 256 * 2 ^ (8 * l) := by
        rw [show 8 * (l + 1) = 8 + 8 * l by omega, pow_add]
        rfl
      have hpow2 : (2 : Nat) ^ (8 * (l + 1) - p) = 2 ^ (8 - p) * 2 ^ (8 * l) := by
        rw [← pow_add]
        congr 1
        omega
      have hple : (2 : Nat) ^ (8 - p) ≤ 2 ^ 8 := Nat.pow_le_pow_right (by omega) (by omega)
      have hpos : (0 : Nat) < 2 ^ (8 - p) := Nat.pos_pow_of_pos _ (by omega)
      have h255 : 255 - (2 ^ (8 - p) - 1) = 256 - 2 ^ (8 - p) := by omega
      rw [if_neg h8, hp0, ih 0 (by omega), hdiv, h255, Nat.sub_zero, h256, hpow,
        hpow2, Nat.sub_mul]
      have hmul : (2 : Nat) ^ (8 - p) * 2 ^ (8 * l) ≤ 256 * 2 ^ (8 * l) :=
        Nat.mul_le_mul_right _ (by omega)
      omega

theorem and_mask_align {B p v : Nat} (hv : v < 2 ^ B) (hp : p ≤ B) :
    v &&& (2 ^ B - 2 ^ (B - p)) = 2 ^ (B - p) * (v / 2 ^ (B - p)) := by
  have hM : 2 ^ B - 2 ^ (B - p) = (2 ^ p - 1) * 2 ^ (B - p) + 0 := by
    rw [Nat.sub_mul, one_mul, ← pow_add, show p + (B - p) = B by omega, add_zero]
  have hmodlt : v % 2 ^ (B - p) < 2 ^ (B - p) :=
    Nat.mod_lt _ (Nat.pos_pow_of_pos _ (by omega))
  have hzlt : 0 < 2 ^ (B - p) := Nat.pos_pow_of_pos _ (by omega)
  have hdivlt : v / 2 ^ (B - p) < 2 ^ p := by
    apply Nat.div_lt_of_lt_mul
    rw [← pow_add, show B - p + p = B by omega]
    exact hv
  conv_lhs => rw [hM, show v = (v / 2 ^ (B - p)) * 2 ^ (B - p) + v % 2 ^ (B - p) from
    (Nat.div_add_mod' v _).symm]
  rw [and_cat (v / 2 ^ (B - p)) (2 ^ p - 1) hmodlt hzlt, Nat.and_zero,
    Nat.and_pow_two_sub_one_eq_mod, Nat.mod_eq_of_lt hdivlt, add_zero, mul_comm]

theorem containsIP_4 (b m x : List Nat) (hb : b.length = 4) (hm : m.length = 4)
    (hx : x.length = 4) :
    containsIP ⟨b, m⟩ x = decide (zipAND b m = zipAND x m) := by
  simp [containsIP, nnAndMask, to4, hb, hm, hx]

theorem containsIP_4_val (b m x : List Nat) (hb : b.length = 4) (hm : m.length = 4)
    (hx : x.length = 4) (hwb : wf b) (hwm : wf m) (hwx : wf x) :
    containsIP ⟨b, m⟩ x = decide (toVal b &&& toVal m = toVal x &&& toVal m) := by
  rw [containsIP_4 b m x hb hm hx]
  apply decide_eq_decide.2
  constructor
  · intro h
    rw [← toVal_zipAND b m hwb hwm (hb.trans hm.symm),
      ← toVal_zipAND x m hwx hwm (hx.trans hm.symm), h]
  · intro h
    apply toVal_inj (zipAND_wf _ _ hwb) (zipAND_wf _ _ hwx)
    · rw [zipAND_length, zipAND_length, hb, hx]
    · rw [toVal_zipAND b m hwb hwm (hb.trans hm.symm),
        toVal_zipAND x m hwx hwm (hx.trans hm.symm)]
      exact h

theorem pow_256_4 : (256 : Nat) ^ 4 = 2 ^ 32 := by norm_num

/-- One completed run of the `generateIPs` loop over a 4-byte CIDR range with
prefix length `1 ≤ p ≤ 32`, starting `j` addresses into the block: the loop
emits the remaining `2^(32-p) - j` consecutive addresses and exits. -/
theorem genLoop_cidrRun (p : Nat) (hp1 : 1 ≤ p) (hp : p ≤ 32) (b : List Nat)
    (hb : b.length = 4) (hwb : wf b) (N M v0 : Nat)
    (hN : N = 2 ^ (32 - p)) (hM : M = toVal (cidrMaskBytes 4 p))
    (hv0 : v0 = toVal b &&& M) :
    ∀ fuel j, j ≤ N → N - j < fuel →
      genLoop ⟨b, cidrMaskBytes 4 p⟩ (addrOfVal 4 (v0 + j)) fuel
        = ((List.range (N - j)).map (fun t => addrOfVal 4 (v0 + j + t)), true) := by
  have hNpos : 0 < N := hN ▸ Nat.pos_pow_of_pos _ (by omega)
  have hb32 : toVal b < 2 ^ 32 := by
    have h := toVal_lt b hwb
    rw [hb, pow_256_4] at h
    exact h
  have hMval : M = 2 ^ 32 - 2 ^ (32 - p) := by
    rw [hM, toVal_cidrMaskBytes 4 p (by omega)]
  have hv0align : v0 = N * (toVal b / N) := by
    rw [hv0, hMval, hN]
    exact and_mask_align hb32 hp
  have hqlt : toVal b / N < 2 ^ p := by
    apply Nat.div_lt_of_lt_mul
    rw [hN, ← pow_add, show 32 - p + p = 32 by omega]
    exact hb32
  have hNp32 : N * 2 ^ p = 2 ^ 32 := by
    rw [hN, ← pow_add, show 32 - p + p = 32 by omega]
  have hv0N : v0 + N ≤ 2 ^ 32 := by
    have h2 : N * (toVal b / N + 1) ≤ N * 2 ^ p := Nat.mul_le_mul_left _ hqlt
    have h4 : N * (toVal b / N + 1) = N * (toVal b / N) + N := by ring
    rw [hv0align]
    omega
  have hNlt : N < 2 ^ 32 := by
    rw [hN]
    exact Nat.pow_lt_pow_right (by omega) (by omega)
  have hcont : ∀ w : Nat, w < 2 ^ 32 →
      (containsIP ⟨b, cidrMaskBytes 4 p⟩ (addrOfVal 4 w) = true ↔ w &&& M = v0) := by
    intro w hw
    rw [containsIP_4_val b _ (addrOfVal 4 w) hb (cidrMaskBytes_length 4 p)
      (addrOfVal_length 4 w) hwb (cidrMaskBytes_wf 4 p) (addrOfVal_wf 4 w)]
    rw [toVal_addrOfVal, pow_256_4, Nat.mod_eq_of_lt hw, ← hM, ← hv0,
      decide_eq_true_iff]
    exact ⟨fun h => h.symm, fun h => h.symm⟩
  have handW : ∀ w : Nat, w < 2 ^ 32 → w &&& M = N * (w / N) := by
    intro w hw
    rw [hMval, hN]
    exact and_mask_align hw hp
  intro fuel
  induction fuel with
  | zero => intro j hj hfuel; omega
  | succ fuel ih =>
    intro j hj hfuel
    by_cases hjN : j < N
    · have hwlt : v0 + j < 2 ^ 32 := by omega
      have hcw : (v0 + j) &&& M = v0 := by
        rw [handW _ hwlt]
        conv_lhs => rw [hv0align]
        rw [Nat.mul_add_div hNpos, Nat.div_eq_of_lt hjN, add_zero, ← hv0align]
      have hctrue : containsIP ⟨b, cidrMaskBytes 4 p⟩ (addrOfVal 4 (v0 + j)) = true :=
        (hcont (v0 + j) hwlt).2 hcw
      simp only [genLoop, hctrue, if_true, inc_addrOfVal]
      rw [show v0 + j + 1 = v0 + (j + 1) by omega]
      rw [ih (j + 1) (by omega) (by omega)]
      have hr : N - j = (N - (j + 1)) + 1 := by omega
      rw [hr, List.range_succ_eq_map, List.map_cons, List.map_map]
      refine congrArg (fun l => (_ :: l, true)) ?_
      apply List.map_congr_left
      intro t ht
      simp only [Function.comp]
      congr 1
      omega
    · have hj' : j = N := by omega
      rw [hj']
      have hmodlt : (v0 + N) % 2 ^ 32 < 2 ^ 32 := Nat.mod_lt _ (by positivity)
      have hcfalse : containsIP ⟨b, cidrMaskBytes 4 p⟩ (addrOfVal 4 (v0 + N)) = false := by
        have haddr : addrOfVal 4 (v0 + N) = addrOfVal 4 ((v0 + N) % 2 ^ 32) := by
          rw [← pow_256_4]
          exact (addrOfVal_mod 4 (v0 + N)).symm
        rw [haddr, Bool.eq_false_iff]
        intro hcc
        have hand := (hcont _ hmodlt).1 hcc
        rcases Nat.lt_or_ge (v0 + N) (2 ^ 32) with hlt | hge
        · rw [Nat.mod_eq_of_lt hlt, handW _ hlt] at hand
          rw [hv0align] at hand
          have hdd : (N * (toVal b / N) + N) / N = toVal b / N + 1 := by
            rw [show N * (toVal b / N) + N = N * (toVal b / N + 1) by ring]
            exact Nat.mul_div_cancel_left _ hNpos
          rw [hdd] at hand
          have := Nat.eq_of_mul_eq_mul_left hNpos hand
          omega
        · have heq : v0 + N = 2 ^ 32 := by omega
          rw [heq, Nat.mod_self, Nat.zero_and] at hand
          omega
      simp only [genLoop, hcfalse, Bool.false_eq_true, if_false]
      rw [Nat.sub_self, List.range_zero, List.map_nil]

theorem goMask_44 (ip m : List Nat) (hip : ip.length = 4) (hm : m.length = 4) :
    goMask ip m = some (zipAND ip m) := by
  simp only [goMask]
  have c1 : ¬(m.length = 16 ∧ ip.length = 4 ∧
      (m.take 12).all (fun x => x == 255) = true) :=
    fun h => absurd (h.1.symm.trans hm) (by decide)
  rw [if_neg c1]
  have c2 : ¬(m.length = 4 ∧ ip.length = 16 ∧ ip.take 12 = v4InV6Pfx) :=
    fun h => absurd (h.2.1.symm.trans hip) (by decide)
  rw [if_neg c2, if_pos (hip.trans hm.symm)]

theorem genStart_44 (ip m b : List Nat) (hip : ip.length = 4) (hm : m.length = 4) :
    genStart ip ⟨b, m⟩ = zipAND ip m := by
  have hz : (zipAND ip m).length = 4 := by rw [zipAND_length, hip, hm, min_self]
  have hto4 : to4 ip = some ip := by simp [to4, hip]
  unfold genStart
  simp only [hto4, goMask_44 ip m hip hm, goCopy, hip, hz]
  norm_num
  omega

/-- Completed enumeration of a 4-byte CIDR range with prefix `1 ≤ p ≤ 32`:
`generateIPs` exits after emitting the `2^(32-p)` consecutive addresses of the
block, in ascending order of their big-endian values. -/
theorem generateIPs_cidr (p : Nat) (hp1 : 1 ≤ p) (hp : p ≤ 32) (ip : List Nat)
    (hip : ip.length = 4) (hwip : wf ip) (fuel : Nat) (hfuel : 2 ^ (32 - p) < fuel) :
    generateIPs ip ⟨zipAND ip (cidrMaskBytes 4 p), cidrMaskBytes 4 p⟩ fuel
      = ((List.range (2 ^ (32 - p))).map
          (fun t => addrOfVal 4 ((toVal ip &&& toVal (cidrMaskBytes 4 p)) + t)), true) := by
  have hm : (cidrMaskBytes 4 p).length = 4 := cidrMaskBytes_length 4 p
  have hblen : (zipAND ip (cidrMaskBytes 4 p)).length = 4 := by
    rw [zipAND_length, hip, hm, min_self]
  have hbwf : wf (zipAND ip (cidrMaskBytes 4 p)) := zipAND_wf _ _ hwip
  have hbval : toVal (zipAND ip (cidrMaskBytes 4 p))
      = toVal ip &&& toVal (cidrMaskBytes 4 p) :=
    toVal_zipAND ip (cidrMaskBytes 4 p) hwip (cidrMaskBytes_wf 4 p) (hip.trans hm.symm)
  have hv0b : toVal (zipAND ip (cidrMaskBytes 4 p)) &&& toVal (cidrMaskBytes 4 p)
      = toVal ip &&& toVal (cidrMaskBytes 4 p) := by
    rw [hbval, Nat.and_assoc, Nat.and_self]
  have hstart : addrOfVal 4
        ((toVal (zipAND ip (cidrMaskBytes 4 p)) &&& toVal (cidrMaskBytes 4 p)) + 0)
      = zipAND ip (cidrMaskBytes 4 p) := by
    have h := addrOfVal_toVal _ hbwf
    rw [hblen] at h
    rw [Nat.add_zero, hv0b, ← hbval, h]
  have hrun := genLoop_cidrRun p hp1 hp (zipAND ip (cidrMaskBytes 4 p)) hblen hbwf
    (2 ^ (32 - p)) (toVal (cidrMaskBytes 4 p))
    (toVal (zipAND ip (cidrMaskBytes 4 p)) &&& toVal (cidrMaskBytes 4 p)) rfl rfl rfl
    fuel 0 (Nat.zero_le _) (by simpa using hfuel)
  rw [hstart, Nat.sub_zero] at hrun
  unfold generateIPs
  rw [genStart_44 ip (cidrMaskBytes 4 p) _ hip hm, hrun]
  refine congrArg (fun l => (l, true)) ?_
  apply List.map_congr_left
  intro t ht
  rw [hv0b, Nat.add_zero]

theorem containsIP_net0 (cur : List Nat) (hcur : cur.length = 4) :
    containsIP ⟨[0, 0, 0, 0], [0, 0, 0, 0]⟩ cur = true := by
  rcases cur with _ | ⟨a, _ | ⟨b, _ | ⟨c, _ | ⟨d, rest⟩⟩⟩⟩ <;> simp only [List.length_nil,
    List.length_cons] at hcur
  · omega
  · omega
  · omega
  · omega
  · have hrest : rest = [] := List.length_eq_zero.1 (by omega)
    subst hrest
    simp [containsIP, nnAndMask, to4, v4InV6Pfx, zipAND, Nat.and_zero]

/-- With the all-zero mask of a `/0` range, every loop step's `Contains` test
succeeds, so `generateIPs` keeps emitting forever: within any fuel budget it
emits one address per step and never exits. -/
theorem genLoop_net0 (fuel : Nat) : ∀ j,
    genLoop ⟨[0, 0, 0, 0], [0, 0, 0, 0]⟩ (addrOfVal 4 j) fuel
      = ((List.range fuel).map (fun k => addrOfVal 4 (j + k)), false) := by
  induction fuel with
  | zero => intro j; simp [genLoop]
  | succ fuel ih =>
    intro j
    have hct := containsIP_net0 (addrOfVal 4 j) (addrOfVal_length 4 j)
    simp only [genLoop, hct, if_true, inc_addrOfVal]
    rw [ih (j + 1), List.range_succ_eq_map, List.map_cons, List.map_map]
    have htail : List.map (fun k => addrOfVal 4 (j + 1 + k)) (List.range fuel)
        = List.map ((fun k => addrOfVal 4 (j + k)) ∘ Nat.succ) (List.range fuel) := by
      apply List.map_congr_left
      intro t ht
      simp only [Function.comp]
      congr 1
      omega
    rw [htail, Nat.add_zero]

/-! Scan coordinator (main.go `scan`, lines 149-248) as a small-step
interleaving state machine.  Addresses have an abstract type `α`; the prober
outcome (whether `tryConnectSSH` returns nil for an address, a timeout
counting as failure) is an oracle `probe : α → Bool`.  Goroutines are
unordered, so the set of in-flight workers is a multiset. -/

/-- Program counter of one worker goroutine (main.go lines 203-229), naming
the next atomic action the worker will take. -/
inductive WPc
  | start      -- executing tryConnectSSH (line 208)
  | gotOk      -- probe succeeded; next: okNum.Add(1) (line 209)
  | didOk      -- next: the printMutex success-line block (lines 212-218)
  | printed    -- next: the outputMutex file write, if a file is open (220-224)
  | gotFail    -- probe failed; next: failNum.Add(1) (line 226)
  | wrote      -- next: processedNum.Add(1) (line 228)
  | proc       -- next: release the semaphore slot (deferred, line 205)
  | rel        -- next: wg.Done() and exit (deferred, line 204)
deriving DecidableEq

/-- One dispatched worker goroutine: its address and program counter. -/
structure Worker (α : Type) where
  addr : α
  pc : WPc
deriving DecidableEq

/-- State of one scan run: the addresses not yet received from the channel,
the in-flight workers, the three atomic counters, the semaphore occupancy,
the output-file lines, and the stdout success lines. -/
structure SState (α : Type) where
  pending : List α
  active : Multiset (Worker α)
  okN : Nat
  failN : Nat
  procN : Nat
  sem : Nat
  fileL : List α
  printL : List α
deriving DecidableEq

/-- Scan start: nothing dispatched, counters zero, the output file freshly
created and truncated (`os.Create`, line 162). -/
def initState {α : Type} (input : List α) : SState α :=
  { pending := input, active := 0, okN := 0, failN := 0, procN := 0, sem := 0,
    fileL := [], printL := [] }

/-- One atomic step of the scan: either the dispatch loop takes in the next
address (guarded by the semaphore), or some in-flight worker performs its next
action. -/
inductive Step {α : Type} (workers : Nat) (outCfg : Bool) (probe : α → Bool) :
    SState α → SState α → Prop
  | dispatch (s : SState α) (a : α) (rest : List α)
      (hp : s.pending = a :: rest) (hsem : s.sem < workers) :
      Step workers outCfg probe s
        { s with
          pending := rest
          active := (⟨a, WPc.start⟩ ::ₘ s.active)
          sem := s.sem + 1 }
  | probeReturn (s : SState α) (w : Worker α) (rest : Multiset (Worker α))
      (ha : s.active = w ::ₘ rest) (hpc : w.pc = WPc.start) :
      Step workers outCfg probe s
        { s with active :=
            (Worker.mk w.addr (if probe w.addr then WPc.gotOk else WPc.gotFail) ::ₘ rest) }
  | recordOk (s : SState α) (w : Worker α) (rest : Multiset (Worker α))
      (ha : s.active = w ::ₘ rest) (hpc : w.pc = WPc.gotOk) :
      Step workers outCfg probe s
        { s with
          okN := s.okN + 1
          active := (Worker.mk w.addr WPc.didOk ::ₘ rest) }
  | printOk (s : SState α) (w : Worker α) (rest : Multiset (Worker α))
      (ha : s.active = w ::ₘ rest) (hpc : w.pc = WPc.didOk) :
      Step workers outCfg probe s
        { s with
          printL := s.printL ++ [w.addr]
          active := (Worker.mk w.addr WPc.printed ::ₘ rest) }
  | writeOk (s : SState α) (w : Worker α) (rest : Multiset (Worker α))
      (ha : s.active = w ::ₘ rest) (hpc : w.pc = WPc.printed) :
      Step workers outCfg probe s
        { s with
          fileL := if outCfg then s.fileL ++ [w.addr] else s.fileL
          active := (Worker.mk w.addr WPc.wrote ::ₘ rest) }
  | recordFail (s : SState α) (w : Worker α) (rest : Multiset (Worker α))
      (ha : s.active = w ::ₘ rest) (hpc : w.pc = WPc.gotFail) :
      Step workers outCfg probe s
        { s with
          failN := s.failN + 1
          active := (Worker.mk w.addr WPc.wrote ::ₘ rest) }
  | recordProc (s : SState α) (w : Worker α) (rest : Multiset (Worker α))
      (ha : s.active = w ::ₘ rest) (hpc : w.pc = WPc.wrote) :
      Step workers outCfg probe s
        { s with
          procN := s.procN + 1
          active := (Worker.mk w.addr WPc.proc ::ₘ rest) }
  | release (s : SState α) (w : Worker α) (rest : Multiset (Worker α))
      (ha : s.active = w ::ₘ rest) (hpc : w.pc = WPc.proc) :
      Step workers outCfg probe s
        { s with
          sem := s.sem - 1
          active := (Worker.mk w.addr WPc.rel ::ₘ rest) }
  | exitWorker (s : SState α) (w : Worker α) (rest : Multiset (Worker α))
      (ha : s.active = w ::ₘ rest) (hpc : w.pc = WPc.rel) :
      Step workers outCfg probe s { s with active := rest }

/-- Reachability of scan states by interleaved atomic steps. -/
inductive Reach {α : Type} (workers : Nat) (outCfg : Bool) (probe : α → Bool)
    (init : SState α) : SState α → Prop
  | refl : Reach workers outCfg probe init init
  | tail {s t : SState α} : Reach workers outCfg probe init s →
      Step workers outCfg probe s t → Reach workers outCfg probe init t

/-- Scan completion (quiescence): the channel is drained and every dispatched
goroutine has exited, which is when `wg.Wait()` (line 232) returns and the
final summary is printed. -/
def Final {α : Type} (s : SState α) : Prop := s.pending = [] ∧ s.active = 0

/-- Worker has not yet performed its ok/fail counter increment. -/
def recPending (pc : WPc) : Prop :=
  pc = WPc.start ∨ pc = WPc.gotOk ∨ pc = WPc.gotFail

instance : DecidablePred recPending := fun pc => by unfold recPending; infer_instance

/-- Worker has not yet performed its processedNum increment. -/
def procPending (pc : WPc) : Prop := pc ≠ WPc.proc ∧ pc ≠ WPc.rel

instance : DecidablePred procPending := fun pc => by unfold procPending; infer_instance

/-- Program counters only reachable on the success branch of the probe. -/
def okSide (pc : WPc) : Prop :=
  pc = WPc.gotOk ∨ pc = WPc.didOk ∨ pc = WPc.printed

instance : DecidablePred okSide := fun pc => by unfold okSide; infer_instance

/-- Success-path worker that has not yet emitted its stdout success line. -/
def prePrint (pc : WPc) : Prop :=
  pc = WPc.start ∨ pc = WPc.gotOk ∨ pc = WPc.didOk

instance : DecidablePred prePrint := fun pc => by unfold prePrint; infer_instance

/-- Success-path worker that has not yet written its output-file line. -/
def preWrite (pc : WPc) : Prop :=
  pc = WPc.start ∨ pc = WPc.gotOk ∨ pc = WPc.didOk ∨ pc = WPc.printed

instance : DecidablePred preWrite := fun pc => by unfold preWrite; infer_instance

/-- Inductive invariant of the scan machine, relative to the list `done` of
addresses already taken from the channel. -/
structure Inv {α : Type} (workers : Nat) (outCfg : Bool) (probe : α → Bool)
    (done : List α) (s : SState α) : Prop where
  counts : s.okN + s.failN + Multiset.countP (fun w => recPending w.pc) s.active
    = done.length
  procs : s.procN + Multiset.countP (fun w => procPending w.pc) s.active
    = done.length
  semEq : s.sem = Multiset.countP (fun w => w.pc ≠ WPc.rel) s.active
  semLe : s.sem ≤ workers
  okPath : ∀ w ∈ s.active, okSide w.pc → probe w.addr = true
  failPath : ∀ w ∈ s.active, w.pc = WPc.gotFail → probe w.addr = false
  fileP : outCfg = true →
    Multiset.filter (fun a => probe a = true) (↑done : Multiset α)
      = (↑s.fileL : Multiset α)
        + Multiset.map (fun w => w.addr)
            (Multiset.filter (fun w => probe w.addr = true ∧ preWrite w.pc) s.active)
  printP : Multiset.filter (fun a => probe a = true) (↑done : Multiset α)
      = (↑s.printL : Multiset α)
        + Multiset.map (fun w => w.addr)
            (Multiset.filter (fun w => probe w.addr = true ∧ prePrint w.pc) s.active)

end SSHScan

namespace SSHScan

theorem inv_init {α : Type} (workers : Nat) (outCfg : Bool) (probe : α → Bool)
    (input : List α) : Inv workers outCfg probe [] (initState input) := by
  constructor <;> simp [initState]

theorem coe_append_singleton {α : Type} (done : List α) (a : α) :
    ((↑(done ++ [a]) : Multiset α)) = a ::ₘ (↑done : Multiset α) := by
  simp

theorem inv_dispatch {α : Type} {workers : Nat} {outCfg : Bool} {probe : α → Bool}
    {done : List α} {s : SState α} (hInv : Inv workers outCfg probe done s)
    (a : α) (rest : List α) (hp : s.pending = a :: rest) (hsem : s.sem < workers) :
    Inv workers outCfg probe (done ++ [a])
      { s with
        pending := rest
        active := (⟨a, WPc.start⟩ ::ₘ s.active)
        sem := s.sem + 1 } := by
  obtain ⟨c1, c2, c3, c4, c5, c6, c7, c8⟩ := hInv
  constructor
  · simp only [Multiset.countP_cons, List.length_append, List.length_cons,
      List.length_nil]
    rw [if_pos (show recPending WPc.start by decide)]
    omega
  · simp only [Multiset.countP_cons, List.length_append, List.length_cons,
      List.length_nil]
    rw [if_pos (show procPending WPc.start by decide)]
    omega
  · simp only [Multiset.countP_cons]
    rw [if_pos (show WPc.start ≠ WPc.rel by decide)]
    omega
  · simpa using hsem
  · intro w hw hok
    rcases Multiset.mem_cons.1 hw with rfl | hw
    · exact absurd hok (show ¬okSide WPc.start by decide)
    · exact c5 w hw hok
  · intro w hw hfail
    rcases Multiset.mem_cons.1 hw with rfl | hw
    · exact absurd hfail (show WPc.start ≠ WPc.gotFail by decide)
    · exact c6 w hw hfail
  · intro hc
    have h := c7 hc
    simp only [coe_append_singleton, Multiset.filter_cons, h, Multiset.map_add]
    by_cases hpa : probe a = true
    · rw [if_pos hpa, if_pos (show probe (Worker.mk a WPc.start).addr = true ∧
        preWrite WPc.start from ⟨hpa, Or.inl rfl⟩)]
      simp only [Multiset.map_singleton]
      abel
    · rw [if_neg hpa, if_neg (show ¬(probe (Worker.mk a WPc.start).addr = true ∧
        preWrite WPc.start) from fun hcc => hpa hcc.1)]
      simp only [Multiset.map_zero]
      abel
  · have h := c8
    simp only [coe_append_singleton, Multiset.filter_cons, h, Multiset.map_add]
    by_cases hpa : probe a = true
    · rw [if_pos hpa, if_pos (show probe (Worker.mk a WPc.start).addr = true ∧
        prePrint WPc.start from ⟨hpa, Or.inl rfl⟩)]
      simp only [Multiset.map_singleton]
      abel
    · rw [if_neg hpa, if_neg (show ¬(probe (Worker.mk a WPc.start).addr = true ∧
        prePrint WPc.start) from fun hcc => hpa hcc.1)]
      simp only [Multiset.map_zero]
      abel

end SSHScan

namespace SSHScan

theorem inv_probeReturn {α : Type} {workers : Nat} {outCfg : Bool} {probe : α → Bool}
    {done : List α} {s : SState α} (hInv : Inv workers outCfg probe done s)
    (w : Worker α) (rest : Multiset (Worker α))
    (ha : s.active = w ::ₘ rest) (hpc : w.pc = WPc.start) :
    Inv workers outCfg probe done
      { s with active :=
          (Worker.mk w.addr (if probe w.addr then WPc.gotOk else WPc.gotFail) ::ₘ rest) } := by
  obtain ⟨c1, c2, c3, c4, c5, c6, c7, c8⟩ := hInv
  rw [ha, Multiset.countP_cons] at c1 c2 c3
  rw [hpc] at c1 c2 c3
  rw [if_pos (show recPending WPc.start by decide)] at c1
  rw [if_pos (show procPending WPc.start by decide)] at c2
  rw [if_pos (show WPc.start ≠ WPc.rel by decide)] at c3
  have hmem : w ∈ s.active := ha ▸ Multiset.mem_cons_self w rest
  by_cases hpv : probe w.addr = true
  · rw [show Worker.mk w.addr (if probe w.addr then WPc.gotOk else WPc.gotFail)
      = Worker.mk w.addr WPc.gotOk by rw [if_pos hpv]]
    constructor
    · simp only [Multiset.countP_cons]
      rw [if_pos (show recPending WPc.gotOk by decide)]
      omega
    · simp only [Multiset.countP_cons]
      rw [if_pos (show procPending WPc.gotOk by decide)]
      omega
    · simp only [Multiset.countP_cons]
      rw [if_pos (show WPc.gotOk ≠ WPc.rel by decide)]
      omega
    · exact c4
    · intro w2 hw2 hok
      rcases Multiset.mem_cons.1 hw2 with rfl | hw2
      · exact hpv
      · exact c5 w2 (ha ▸ Multiset.mem_cons_of_mem hw2) hok
    · intro w2 hw2 hfail
      rcases Multiset.mem_cons.1 hw2 with rfl | hw2
      · simp at hfail
      · exact c6 w2 (ha ▸ Multiset.mem_cons_of_mem hw2) hfail
    · intro hc
      have h := c7 hc
      rw [ha, Multiset.filter_cons] at h
      rw [if_pos ⟨hpv, show preWrite w.pc by rw [hpc]; exact Or.inl rfl⟩] at h
      simp only []
      rw [Multiset.filter_cons]
      rw [if_pos (show probe w.addr = true ∧ preWrite WPc.gotOk
        from ⟨hpv, Or.inr (Or.inl rfl)⟩)]
      rw [Multiset.map_add, Multiset.map_singleton] at h ⊢
      exact h
    · have h := c8
      rw [ha, Multiset.filter_cons] at h
      rw [if_pos ⟨hpv, show prePrint w.pc by rw [hpc]; exact Or.inl rfl⟩] at h
      simp only []
      rw [Multiset.filter_cons]
      rw [if_pos (show probe w.addr = true ∧ prePrint WPc.gotOk
        from ⟨hpv, Or.inr (Or.inl rfl)⟩)]
      rw [Multiset.map_add, Multiset.map_singleton] at h ⊢
      exact h
  · rw [show Worker.mk w.addr (if probe w.addr then WPc.gotOk else WPc.gotFail)
      = Worker.mk w.addr WPc.gotFail by rw [if_neg hpv]]
    constructor
    · simp only [Multiset.countP_cons]
      rw [if_pos (show recPending WPc.gotFail by decide)]
      omega
    · simp only [Multiset.countP_cons]
      rw [if_pos (show procPending WPc.gotFail by decide)]
      omega
    · simp only [Multiset.countP_cons]
      rw [if_pos (show WPc.gotFail ≠ WPc.rel by decide)]
      omega
    · exact c4
    · intro w2 hw2 hok
      rcases Multiset.mem_cons.1 hw2 with rfl | hw2
      · exact absurd hok (show ¬okSide WPc.gotFail by decide)
      · exact c5 w2 (ha ▸ Multiset.mem_cons_of_mem hw2) hok
    · intro w2 hw2 hfail
      rcases Multiset.mem_cons.1 hw2 with rfl | hw2
      · exact Bool.eq_false_iff.2 (fun hh => hpv hh)
      · exact c6 w2 (ha ▸ Multiset.mem_cons_of_mem hw2) hfail
    · intro hc
      have h := c7 hc
      rw [ha, Multiset.filter_cons] at h
      rw [if_neg (fun hcc => hpv hcc.1)] at h
      simp only []
      rw [Multiset.filter_cons]
      rw [if_neg (fun hcc => hpv hcc.1)]
      exact h
    · have h := c8
      rw [ha, Multiset.filter_cons] at h
      rw [if_neg (fun hcc => hpv hcc.1)] at h
      simp only []
      rw [Multiset.filter_cons]
      rw [if_neg (fun hcc => hpv hcc.1)]
      exact h

end SSHScan

namespace SSHScan

theorem inv_recordOk {α : Type} {workers : Nat} {outCfg : Bool} {probe : α → Bool}
    {done : List α} {s : SState α} (hInv : Inv workers outCfg probe done s)
    (w : Worker α) (rest : Multiset (Worker α))
    (ha : s.active = w ::ₘ rest) (hpc : w.pc = WPc.gotOk) :
    Inv workers outCfg probe done
      { s with
        okN := s.okN + 1
        active := (Worker.mk w.addr WPc.didOk ::ₘ rest) } := by
  obtain ⟨wa, wpc⟩ := w
  simp only [] at hpc ha
  subst hpc
  obtain ⟨c1, c2, c3, c4, c5, c6, c7, c8⟩ := hInv
  rw [ha, Multiset.countP_cons] at c1 c2 c3
  rw [if_pos (show recPending WPc.gotOk by decide)] at c1
  rw [if_pos (show procPending WPc.gotOk by decide)] at c2
  rw [if_pos (show WPc.gotOk ≠ WPc.rel by decide)] at c3
  have hmem : Worker.mk wa WPc.gotOk ∈ s.active := ha ▸ Multiset.mem_cons_self _ rest
  have hpv : probe wa = true := c5 _ hmem (Or.inl rfl)
  constructor
  · simp only [Multiset.countP_cons]
    rw [if_neg (show ¬recPending WPc.didOk by decide)]
    omega
  · simp only [Multiset.countP_cons]
    rw [if_pos (show procPending WPc.didOk by decide)]
    omega
  · simp only [Multiset.countP_cons]
    rw [if_pos (show WPc.didOk ≠ WPc.rel by decide)]
    omega
  · exact c4
  · intro w2 hw2 hok
    rcases Multiset.mem_cons.1 hw2 with rfl | hw2
    · exact hpv
    · exact c5 w2 (ha ▸ Multiset.mem_cons_of_mem hw2) hok
  · intro w2 hw2 hfail
    rcases Multiset.mem_cons.1 hw2 with rfl | hw2
    · exact absurd hfail (show WPc.didOk ≠ WPc.gotFail by decide)
    · exact c6 w2 (ha ▸ Multiset.mem_cons_of_mem hw2) hfail
  · intro hc
    have h := c7 hc
    rw [ha, Multiset.filter_cons] at h
    rw [if_pos (show probe wa = true ∧ preWrite WPc.gotOk from ⟨hpv, Or.inr (Or.inl rfl)⟩)] at h
    simp only [Multiset.filter_cons]
    rw [if_pos (show probe wa = true ∧ preWrite WPc.didOk
      from ⟨hpv, Or.inr (Or.inr (Or.inl rfl))⟩)]
    rw [Multiset.map_add, Multiset.map_singleton] at h ⊢
    exact h
  · have h := c8
    rw [ha, Multiset.filter_cons] at h
    rw [if_pos (show probe wa = true ∧ prePrint WPc.gotOk from ⟨hpv, Or.inr (Or.inl rfl)⟩)] at h
    simp only [Multiset.filter_cons]
    rw [if_pos (show probe wa = true ∧ prePrint WPc.didOk
      from ⟨hpv, Or.inr (Or.inr rfl)⟩)]
    rw [Multiset.map_add, Multiset.map_singleton] at h ⊢
    exact h

theorem inv_printOk {α : Type} {workers : Nat} {outCfg : Bool} {probe : α → Bool}
    {done : List α} {s : SState α} (hInv : Inv workers outCfg probe done s)
    (w : Worker α) (rest : Multiset (Worker α))
    (ha : s.active = w ::ₘ rest) (hpc : w.pc = WPc.didOk) :
    Inv workers outCfg probe done
      { s with
        printL := s.printL ++ [w.addr]
        active := (Worker.mk w.addr WPc.printed ::ₘ rest) } := by
  obtain ⟨wa, wpc⟩ := w
  simp only [] at hpc ha
  subst hpc
  obtain ⟨c1, c2, c3, c4, c5, c6, c7, c8⟩ := hInv
  rw [ha, Multiset.countP_cons] at c1 c2 c3
  rw [if_neg (show ¬recPending WPc.didOk by decide)] at c1
  rw [if_pos (show procPending WPc.didOk by decide)] at c2
  rw [if_pos (show WPc.didOk ≠ WPc.rel by decide)] at c3
  have hmem : Worker.mk wa WPc.didOk ∈ s.active := ha ▸ Multiset.mem_cons_self _ rest
  have hpv : probe wa = true := c5 _ hmem (Or.inr (Or.inl rfl))
  constructor
  · simp only [Multiset.countP_cons]
    rw [if_neg (show ¬recPending WPc.printed by decide)]
    omega
  · simp only [Multiset.countP_cons]
    rw [if_pos (show procPending WPc.printed by decide)]
    omega
  · simp only [Multiset.countP_cons]
    rw [if_pos (show WPc.printed ≠ WPc.rel by decide)]
    omega
  · exact c4
  · intro w2 hw2 hok
    rcases Multiset.mem_cons.1 hw2 with rfl | hw2
    · exact hpv
    · exact c5 w2 (ha ▸ Multiset.mem_cons_of_mem hw2) hok
  · intro w2 hw2 hfail
    rcases Multiset.mem_cons.1 hw2 with rfl | hw2
    · exact absurd hfail (show WPc.printed ≠ WPc.gotFail by decide)
    · exact c6 w2 (ha ▸ Multiset.mem_cons_of_mem hw2) hfail
  · intro hc
    have h := c7 hc
    rw [ha, Multiset.filter_cons] at h
    rw [if_pos (show probe wa = true ∧ preWrite WPc.didOk
      from ⟨hpv, Or.inr (Or.inr (Or.inl rfl))⟩)] at h
    simp only [Multiset.filter_cons]
    rw [if_pos (show probe wa = true ∧ preWrite WPc.printed
      from ⟨hpv, Or.inr (Or.inr (Or.inr rfl))⟩)]
    rw [Multiset.map_add, Multiset.map_singleton] at h ⊢
    exact h
  · have h := c8
    rw [ha, Multiset.filter_cons] at h
    rw [if_pos (show probe wa = true ∧ prePrint WPc.didOk
      from ⟨hpv, Or.inr (Or.inr rfl)⟩)] at h
    simp only [Multiset.filter_cons]
    rw [if_neg (show ¬(probe wa = true ∧ prePrint WPc.printed)
      from fun hcc => absurd hcc.2 (by decide))]
    rw [Multiset.map_add, Multiset.map_singleton] at h
    rw [h, coe_append_singleton]
    simp only [zero_add, ← Multiset.singleton_add]
    abel

end SSHScan

namespace SSHScan

theorem inv_writeOk {α : Type} {workers : Nat} {outCfg : Bool} {probe : α → Bool}
    {done : List α} {s : SState α} (hInv : Inv workers outCfg probe done s)
    (w : Worker α) (rest : Multiset (Worker α))
    (ha : s.active = w ::ₘ rest) (hpc : w.pc = WPc.printed) :
    Inv workers outCfg probe done
      { s with
        fileL := if outCfg then s.fileL ++ [w.addr] else s.fileL
        active := (Worker.mk w.addr WPc.wrote ::ₘ rest) } := by
  obtain ⟨wa, wpc⟩ := w
  simp only [] at hpc ha
  subst hpc
  obtain ⟨c1, c2, c3, c4, c5, c6, c7, c8⟩ := hInv
  rw [ha, Multiset.countP_cons] at c1 c2 c3
  rw [if_neg (show ¬recPending WPc.printed by decide)] at c1
  rw [if_pos (show procPending WPc.printed by decide)] at c2
  rw [if_pos (show WPc.printed ≠ WPc.rel by decide)] at c3
  have hmem : Worker.mk wa WPc.printed ∈ s.active := ha ▸ Multiset.mem_cons_self _ rest
  have hpv : probe wa = true := c5 _ hmem (Or.inr (Or.inr rfl))
  constructor
  · simp only [Multiset.countP_cons]
    rw [if_neg (show ¬recPending WPc.wrote by decide)]
    omega
  · simp only [Multiset.countP_cons]
    rw [if_pos (show procPending WPc.wrote by decide)]
    omega
  · simp only [Multiset.countP_cons]
    rw [if_pos (show WPc.wrote ≠ WPc.rel by decide)]
    omega
  · exact c4
  · intro w2 hw2 hok
    rcases Multiset.mem_cons.1 hw2 with rfl | hw2
    · exact absurd hok (show ¬okSide WPc.wrote by decide)
    · exact c5 w2 (ha ▸ Multiset.mem_cons_of_mem hw2) hok
  · intro w2 hw2 hfail
    rcases Multiset.mem_cons.1 hw2 with rfl | hw2
    · exact absurd hfail (show WPc.wrote ≠ WPc.gotFail by decide)
    · exact c6 w2 (ha ▸ Multiset.mem_cons_of_mem hw2) hfail
  · intro hc
    have h := c7 hc
    rw [ha, Multiset.filter_cons] at h
    rw [if_pos (show probe wa = true ∧ preWrite WPc.printed
      from ⟨hpv, Or.inr (Or.inr (Or.inr rfl))⟩)] at h
    simp only [Multiset.filter_cons, hc, if_true]
    rw [if_neg (show ¬(probe wa = true ∧ preWrite WPc.wrote)
      from fun hcc => absurd hcc.2 (by decide))]
    rw [Multiset.map_add, Multiset.map_singleton] at h
    rw [h, coe_append_singleton]
    simp only [zero_add, ← Multiset.singleton_add]
    abel
  · have h := c8
    rw [ha, Multiset.filter_cons] at h
    rw [if_neg (show ¬(probe wa = true ∧ prePrint WPc.printed)
      from fun hcc => absurd hcc.2 (by decide))] at h
    simp only [Multiset.filter_cons]
    rw [if_neg (show ¬(probe wa = true ∧ prePrint WPc.wrote)
      from fun hcc => absurd hcc.2 (by decide))]
    exact h

theorem inv_recordFail {α : Type} {workers : Nat} {outCfg : Bool} {probe : α → Bool}
    {done : List α} {s : SState α} (hInv : Inv workers outCfg probe done s)
    (w : Worker α) (rest : Multiset (Worker α))
    (ha : s.active = w ::ₘ rest) (hpc : w.pc = WPc.gotFail) :
    Inv workers outCfg probe done
      { s with
        failN := s.failN + 1
        active := (Worker.mk w.addr WPc.wrote ::ₘ rest) } := by
  obtain ⟨wa, wpc⟩ := w
  simp only [] at hpc ha
  subst hpc
  obtain ⟨c1, c2, c3, c4, c5, c6, c7, c8⟩ := hInv
  rw [ha, Multiset.countP_cons] at c1 c2 c3
  rw [if_pos (show recPending WPc.gotFail by decide)] at c1
  rw [if_pos (show procPending WPc.gotFail by decide)] at c2
  rw [if_pos (show WPc.gotFail ≠ WPc.rel by decide)] at c3
  have hmem : Worker.mk wa WPc.gotFail ∈ s.active := ha ▸ Multiset.mem_cons_self _ rest
  have hpv : probe wa = false := c6 _ hmem rfl
  have hpv' : ¬(probe wa = true) := by rw [hpv]; decide
  constructor
  · simp only [Multiset.countP_cons]
    rw [if_neg (show ¬recPending WPc.wrote by decide)]
    omega
  · simp only [Multiset.countP_cons]
    rw [if_pos (show procPending WPc.wrote by decide)]
    omega
  · simp only [Multiset.countP_cons]
    rw [if_pos (show WPc.wrote ≠ WPc.rel by decide)]
    omega
  · exact c4
  · intro w2 hw2 hok
    rcases Multiset.mem_cons.1 hw2 with rfl | hw2
    · exact absurd hok (show ¬okSide WPc.wrote by decide)
    · exact c5 w2 (ha ▸ Multiset.mem_cons_of_mem hw2) hok
  · intro w2 hw2 hfail
    rcases Multiset.mem_cons.1 hw2 with rfl | hw2
    · exact absurd hfail (show WPc.wrote ≠ WPc.gotFail by decide)
    · exact c6 w2 (ha ▸ Multiset.mem_cons_of_mem hw2) hfail
  · intro hc
    have h := c7 hc
    rw [ha, Multiset.filter_cons] at h
    rw [if_neg (fun hcc => hpv' hcc.1)] at h
    simp only [Multiset.filter_cons]
    rw [if_neg (fun hcc => hpv' hcc.1)]
    exact h
  · have h := c8
    rw [ha, Multiset.filter_cons] at h
    rw [if_neg (fun hcc => hpv' hcc.1)] at h
    simp only [Multiset.filter_cons]
    rw [if_neg (fun hcc => hpv' hcc.1)]
    exact h

theorem inv_recordProc {α : Type} {workers : Nat} {outCfg : Bool} {probe : α → Bool}
    {done : List α} {s : SState α} (hInv : Inv workers outCfg probe done s)
    (w : Worker α) (rest : Multiset (Worker α))
    (ha : s.active = w ::ₘ rest) (hpc : w.pc = WPc.wrote) :
    Inv workers outCfg probe done
      { s with
        procN := s.procN + 1
        active := (Worker.mk w.addr WPc.proc ::ₘ rest) } := by
  obtain ⟨wa, wpc⟩ := w
  simp only [] at hpc ha
  subst hpc
  obtain ⟨c1, c2, c3, c4, c5, c6, c7, c8⟩ := hInv
  rw [ha, Multiset.countP_cons] at c1 c2 c3
  rw [if_neg (show ¬recPending WPc.wrote by decide)] at c1
  rw [if_pos (show procPending WPc.wrote by decide)] at c2
  rw [if_pos (show WPc.wrote ≠ WPc.rel by decide)] at c3
  constructor
  · simp only [Multiset.countP_cons]
    rw [if_neg (show ¬recPending WPc.proc by decide)]
    omega
  · simp only [Multiset.countP_cons]
    rw [if_neg (show ¬procPending WPc.proc by decide)]
    omega
  · simp only [Multiset.countP_cons]
    rw [if_pos (show WPc.proc ≠ WPc.rel by decide)]
    omega
  · exact c4
  · intro w2 hw2 hok
    rcases Multiset.mem_cons.1 hw2 with rfl | hw2
    · exact absurd hok (show ¬okSide WPc.proc by decide)
    · exact c5 w2 (ha ▸ Multiset.mem_cons_of_mem hw2) hok
  · intro w2 hw2 hfail
    rcases Multiset.mem_cons.1 hw2 with rfl | hw2
    · exact absurd hfail (show WPc.proc ≠ WPc.gotFail by decide)
    · exact c6 w2 (ha ▸ Multiset.mem_cons_of_mem hw2) hfail
  · intro hc
    have h := c7 hc
    rw [ha, Multiset.filter_cons] at h
    rw [if_neg (show ¬(probe wa = true ∧ preWrite WPc.wrote)
      from fun hcc => absurd hcc.2 (by decide))] at h
    simp only [Multiset.filter_cons]
    rw [if_neg (show ¬(probe wa = true ∧ preWrite WPc.proc)
      from fun hcc => absurd hcc.2 (by decide))]
    exact h
  · have h := c8
    rw [ha, Multiset.filter_cons] at h
    rw [if_neg (show ¬(probe wa = true ∧ prePrint WPc.wrote)
      from fun hcc => absurd hcc.2 (by decide))] at h
    simp only [Multiset.filter_cons]
    rw [if_neg (show ¬(probe wa = true ∧ prePrint WPc.proc)
      from fun hcc => absurd hcc.2 (by decide))]
    exact h

theorem inv_release {α : Type} {workers : Nat} {outCfg : Bool} {probe : α → Bool}
    {done : List α} {s : SState α} (hInv : Inv workers outCfg probe done s)
    (w : Worker α) (rest : Multiset (Worker α))
    (ha : s.active = w ::ₘ rest) (hpc : w.pc = WPc.proc) :
    Inv workers outCfg probe done
      { s with
        sem := s.sem - 1
        active := (Worker.mk w.addr WPc.rel ::ₘ rest) } := by
  obtain ⟨wa, wpc⟩ := w
  simp only [] at hpc ha
  subst hpc
  obtain ⟨c1, c2, c3, c4, c5, c6, c7, c8⟩ := hInv
  rw [ha, Multiset.countP_cons] at c1 c2 c3
  rw [if_neg (show ¬recPending WPc.proc by decide)] at c1
  rw [if_neg (show ¬procPending WPc.proc by decide)] at c2
  rw [if_pos (show WPc.proc ≠ WPc.rel by decide)] at c3
  constructor
  · simp only [Multiset.countP_cons]
    rw [if_neg (show ¬recPending WPc.rel by decide)]
    omega
  · simp only [Multiset.countP_cons]
    rw [if_neg (show ¬procPending WPc.rel by decide)]
    omega
  · simp only [Multiset.countP_cons]
    rw [if_neg (show ¬(WPc.rel ≠ WPc.rel) by decide)]
    omega
  · dsimp only
    omega
  · intro w2 hw2 hok
    rcases Multiset.mem_cons.1 hw2 with rfl | hw2
    · exact absurd hok (show ¬okSide WPc.rel by decide)
    · exact c5 w2 (ha ▸ Multiset.mem_cons_of_mem hw2) hok
  · intro w2 hw2 hfail
    rcases Multiset.mem_cons.1 hw2 with rfl | hw2
    · exact absurd hfail (show WPc.rel ≠ WPc.gotFail by decide)
    · exact c6 w2 (ha ▸ Multiset.mem_cons_of_mem hw2) hfail
  · intro hc
    have h := c7 hc
    rw [ha, Multiset.filter_cons] at h
    rw [if_neg (show ¬(probe wa = true ∧ preWrite WPc.proc)
      from fun hcc => absurd hcc.2 (by decide))] at h
    simp only [Multiset.filter_cons]
    rw [if_neg (show ¬(probe wa = true ∧ preWrite WPc.rel)
      from fun hcc => absurd hcc.2 (by decide))]
    exact h
  · have h := c8
    rw [ha, Multiset.filter_cons] at h
    rw [if_neg (show ¬(probe wa = true ∧ prePrint WPc.proc)
      from fun hcc => absurd hcc.2 (by decide))] at h
    simp only [Multiset.filter_cons]
    rw [if_neg (show ¬(probe wa = true ∧ prePrint WPc.rel)
      from fun hcc => absurd hcc.2 (by decide))]
    exact h

theorem inv_exitWorker {α : Type} {workers : Nat} {outCfg : Bool} {probe : α → Bool}
    {done : List α} {s : SState α} (hInv : Inv workers outCfg probe done s)
    (w : Worker α) (rest : Multiset (Worker α))
    (ha : s.active = w ::ₘ rest) (hpc : w.pc = WPc.rel) :
    Inv workers outCfg probe done { s with active := rest } := by
  obtain ⟨wa, wpc⟩ := w
  simp only [] at hpc ha
  subst hpc
  obtain ⟨c1, c2, c3, c4, c5, c6, c7, c8⟩ := hInv
  rw [ha, Multiset.countP_cons] at c1 c2 c3
  rw [if_neg (show ¬recPending WPc.rel by decide)] at c1
  rw [if_neg (show ¬procPending WPc.rel by decide)] at c2
  rw [if_neg (show ¬(WPc.rel ≠ WPc.rel) by decide)] at c3
  constructor
  · dsimp only
    omega
  · dsimp only
    omega
  · dsimp only
    omega
  · exact c4
  · intro w2 hw2 hok
    exact c5 w2 (ha ▸ Multiset.mem_cons_of_mem hw2) hok
  · intro w2 hw2 hfail
    exact c6 w2 (ha ▸ Multiset.mem_cons_of_mem hw2) hfail
  · intro hc
    have h := c7 hc
    rw [ha, Multiset.filter_cons] at h
    rw [if_neg (show ¬(probe wa = true ∧ preWrite WPc.rel)
      from fun hcc => absurd hcc.2 (by decide))] at h
    rw [zero_add] at h
    exact h
  · have h := c8
    rw [ha, Multiset.filter_cons] at h
    rw [if_neg (show ¬(probe wa = true ∧ prePrint WPc.rel)
      from fun hcc => absurd hcc.2 (by decide))] at h
    rw [zero_add] at h
    exact h

end SSHScan

namespace SSHScan

theorem inv_step {α : Type} {workers : Nat} {outCfg : Bool} {probe : α → Bool}
    {done : List α} {s t : SState α} (hstep : Step workers outCfg probe s t)
    (hInv : Inv workers outCfg probe done s) :
    ∃ done2 : List α, done ++ s.pending = done2 ++ t.pending ∧
      Inv workers outCfg probe done2 t := by
  cases hstep with
  | dispatch a rest hp hsem =>
    exact ⟨done ++ [a], by simp [hp], inv_dispatch hInv a rest hp hsem⟩
  | probeReturn w rest ha hpc =>
    exact ⟨done, rfl, inv_probeReturn hInv w rest ha hpc⟩
  | recordOk w rest ha hpc =>
    exact ⟨done, rfl, inv_recordOk hInv w rest ha hpc⟩
  | printOk w rest ha hpc =>
    exact ⟨done, rfl, inv_printOk hInv w rest ha hpc⟩
  | writeOk w rest ha hpc =>
    exact ⟨done, rfl, inv_writeOk hInv w rest ha hpc⟩
  | recordFail w rest ha hpc =>
    exact ⟨done, rfl, inv_recordFail hInv w rest ha hpc⟩
  | recordProc w rest ha hpc =>
    exact ⟨done, rfl, inv_recordProc hInv w rest ha hpc⟩
  | release w rest ha hpc =>
    exact ⟨done, rfl, inv_release hInv w rest ha hpc⟩
  | exitWorker w rest ha hpc =>
    exact ⟨done, rfl, inv_exitWorker hInv w rest ha hpc⟩

theorem reach_inv {α : Type} {workers : Nat} {outCfg : Bool} {probe : α → Bool}
    {input : List α} {s : SState α}
    (h : Reach workers outCfg probe (initState input) s) :
    ∃ done : List α, input = done ++ s.pending ∧ Inv workers outCfg probe done s := by
  induction h with
  | refl => exact ⟨[], by simp [initState], inv_init workers outCfg probe input⟩
  | tail hr hstep ih =>
    obtain ⟨done, hsplit, hInv⟩ := ih
    obtain ⟨done2, heq, hInv2⟩ := inv_step hstep hInv
    exact ⟨done2, hsplit.trans heq, hInv2⟩

theorem final_state_facts {α : Type} {workers : Nat} {outCfg : Bool} {probe : α → Bool}
    {input : List α} {s : SState α}
    (h : Reach workers outCfg probe (initState input) s) (hfin : Final s) :
    s.okN + s.failN = input.length ∧ s.procN = input.length ∧ s.sem = 0 ∧
      (outCfg = true →
        (↑s.fileL : Multiset α) = Multiset.filter (fun a => probe a = true) ↑input) ∧
      (↑s.printL : Multiset α) = Multiset.filter (fun a => probe a = true) ↑input := by
  obtain ⟨done, hsplit, hInv⟩ := reach_inv h
  obtain ⟨hpend, hact⟩ := hfin
  rw [hpend, List.append_nil] at hsplit
  subst hsplit
  obtain ⟨c1, c2, c3, c4, c5, c6, c7, c8⟩ := hInv
  rw [hact] at c1 c2 c3
  simp only [Multiset.countP_zero] at c1 c2 c3
  refine ⟨by omega, by omega, by omega, ?_, ?_⟩
  · intro hc
    have h7 := c7 hc
    rw [hact] at h7
    simp only [Multiset.filter_zero, Multiset.map_zero, add_zero] at h7
    exact h7.symm
  · have h8 := c8
    rw [hact] at h8
    simp only [Multiset.filter_zero, Multiset.map_zero, add_zero] at h8
    exact h8.symm

theorem reach_sem_bound {α : Type} {workers : Nat} {outCfg : Bool} {probe : α → Bool}
    {input : List α} {s : SState α}
    (h : Reach workers outCfg probe (initState input) s) :
    s.sem ≤ workers ∧
      s.sem = Multiset.countP (fun w => w.pc ≠ WPc.rel) s.active := by
  obtain ⟨done, hsplit, hInv⟩ := reach_inv h
  exact ⟨hInv.semLe, hInv.semEq⟩

end SSHScan

namespace SSHScan

/-! Go string handling.  Go strings are byte strings; they are modelled as
`List Nat` of byte values.  The parsers below follow the Go standard library
(strconv.Atoi; net/netip's parseIPv4/parseIPv6 used by net.ParseIP and
net.ParseCIDR in current Go), which main.go calls in `parseInput` and
`generateIPs`. -/

/-- Byte string of an ASCII Lean string literal. -/
def s2b (s : String) : List Nat := s.toList.map Char.toNat

/-- All bytes are decimal digits. -/
def allDigits (l : List Nat) : Bool := l.all (fun c => 48 ≤ c && c ≤ 57)

/-- Numeric value of a decimal digit string (big-endian fold). -/
def digitsToNat (l : List Nat) : Nat := l.foldl (fun a c => a * 10 + (c - 48)) 0

/-- Success of `strconv.Atoi` (ParseInt, base 10, 64-bit): an optional sign,
at least one digit, nothing else, value within int64 range.  main.go uses
only whether Atoi succeeded; the shorthand rewrite interpolates the original
string, not the parsed value. -/
def atoiOk (s : List Nat) : Bool :=
  match s with
  | [] => false
  | c :: rest =>
    let body := if c = 43 ∨ c = 45 then rest else s
    decide (body ≠ []) && allDigits body &&
      decide (digitsToNat body ≤ 9223372036854775807 + (if c = 45 then 1 else 0))

/-- Model of net's `dtoi`: parse a decimal prefix, saturating at 0xFFFFFF;
returns (value, bytes consumed, ok). -/
def dtoiAux : List Nat → Nat → Nat → Nat × Nat × Bool
  | [], n, i => if i = 0 then (0, 0, false) else (n, i, true)
  | c :: rest, n, i =>
    if 48 ≤ c ∧ c ≤ 57 then
      let n2 := n * 10 + (c - 48)
      if 16777215 ≤ n2 then (16777215, i, false)
      else dtoiAux rest n2 (i + 1)
    else if i = 0 then (0, 0, false) else (n, i, true)

def dtoi (s : List Nat) : Nat × Nat × Bool := dtoiAux s 0 0

/-- Model of netip's `parseIPv4Fields` loop state: remaining bytes, fields
filled, current field value and its digit count. -/
def parseIPv4Aux : List Nat → Nat → List Nat → Nat → Nat → Option (List Nat)
  | [], pos, fields, pval, _ =>
    if pos = 3 then some (fields ++ [pval]) else none
  | c :: rest, pos, fields, pval, digLen =>
    if 48 ≤ c ∧ c ≤ 57 then
      if digLen = 1 ∧ pval = 0 then none
      else
        let pval2 := pval * 10 + (c - 48)
        if 255 < pval2 then none
        else parseIPv4Aux rest pos fields pval2 (digLen + 1)
    else if c = 46 then
      if digLen = 0 then none
      else if rest = [] then none
      else if pos = 3 then none
      else parseIPv4Aux rest (pos + 1) (fields ++ [pval]) 0 0
    else none

/-- Model of netip's `parseIPv4`: four dotted decimal fields, 0-255 each, no
leading zeros. -/
def parseIPv4 (s : List Nat) : Option (List Nat) := parseIPv4Aux s 0 [] 0 0

/-- Value of a hex digit byte. -/
def hexDigit (c : Nat) : Option Nat :=
  if 48 ≤ c ∧ c ≤ 57 then some (c - 48)
  else if 97 ≤ c ∧ c ≤ 102 then some (c - 87)
  else if 65 ≤ c ∧ c ≤ 70 then some (c - 55)
  else none

/-- Count of leading hex-digit bytes. -/
def leadHex : List Nat → Nat
  | [] => 0
  | c :: rest =>
    match hexDigit c with
    | some _ => leadHex rest + 1
    | none => 0

def hexAccAux : List Nat → Nat → Nat
  | [], acc => acc
  | c :: rest, acc =>
    match hexDigit c with
    | some d => hexAccAux rest (acc * 16 + d)
    | none => acc

/-- Accumulated value of the leading hex digits. -/
def hexAcc (s : List Nat) : Nat := hexAccAux s 0

/-- End-of-loop processing of netip's `parseIPv6`: reject trailing bytes,
expand the `::` (inserting the missing zero bytes at the remembered offset),
reject a `::` that expands to nothing. -/
def parseIPv6Post (ip : List Nat) (i : Nat) (ell : Option Nat) (s : List Nat) :
    Option (List Nat) :=
  if s ≠ [] then none
  else if i < 16 then
    match ell with
    | none => none
    | some e => some (ip.take e ++ List.replicate (16 - i) 0 ++ ip.drop e)
  else
    match ell with
    | some _ => none
    | none => some ip

/-- Main loop of netip's `parseIPv6`, with fuel (each iteration consumes at
least one byte, so `s.length + 1` fuel always suffices): consume one hex
group of 1-4 digits, then either an embedded dotted IPv4 tail, the end of the
string, a single `:` separator, or the (single) `::` marker.  The group limit
acc ≤ 0xFFFF holds automatically for at most 4 hex digits, matching the
unreachable overflow check in Go. -/
def parseIPv6Loop : Nat → List Nat → Nat → Option Nat → List Nat → Option (List Nat)
  | 0, _, _, _, _ => none
  | fuel + 1, s, i, ell, ip =>
    if i < 16 then
      let off := leadHex s
      let acc := hexAcc s
      if off = 0 then none
      else if 4 < off then none
      else if s.drop off ≠ [] ∧ (s.drop off).headD 0 = 46 then
        if ell = none ∧ i ≠ 12 then none
        else if 16 < i + 4 then none
        else
          match parseIPv4 s with
          | none => none
          | some b4 => parseIPv6Post (ip ++ b4) (i + 4) ell []
      else
        let ip2 := ip ++ [acc / 256, acc % 256]
        let i2 := i + 2
        let s2 := s.drop off
        if s2 = [] then parseIPv6Post ip2 i2 ell []
        else if s2.headD 0 ≠ 58 then none
        else if s2.length = 1 then none
        else
          let s3 := s2.drop 1
          if s3.headD 0 = 58 then
            if ell ≠ none then none
            else
              let s4 := s3.drop 1
              if s4 = [] then parseIPv6Post ip2 i2 (some i2) []
              else parseIPv6Loop fuel s4 i2 (some i2) ip2
          else parseIPv6Loop fuel s3 i2 ell ip2
    else parseIPv6Post ip i ell s

/-- Model of netip's `parseIPv6`.  A zone suffix (`%`) is modelled as a
failure: both net call sites used by main.go (`ParseIP` via `parseIP`, and
`ParseCIDR`) reject any address carrying a zone, so the composite behaviour
is identical. -/
def parseIPv6 (s : List Nat) : Option (List Nat) :=
  if s.contains 37 then none
  else if 2 ≤ s.length ∧ s.headD 0 = 58 ∧ (s.drop 1).headD 0 = 58 then
    let s2 := s.drop 2
    if s2 = [] then some (List.replicate 16 0)
    else parseIPv6Loop (s2.length + 1) s2 0 (some 0) []
  else parseIPv6Loop (s.length + 1) s 0 none []

/-- netip's Addr: a parsed address remembers whether it came from the 4-byte
or the 16-byte parser. -/
inductive Addr
  | v4 (b : List Nat)
  | v6 (b : List Nat)
deriving DecidableEq

/-- First dispatching byte of netip.ParseAddr's scan. -/
def firstSpecial : List Nat → Option Nat
  | [] => none
  | c :: rest => if c = 46 ∨ c = 58 ∨ c = 37 then some c else firstSpecial rest

/-- Model of netip.ParseAddr: the first `.`/`:`/`%` byte picks the parser; a
leading `%` or no special byte at all is an error. -/
def parseAddr (s : List Nat) : Option Addr :=
  match firstSpecial s with
  | some 46 => (parseIPv4 s).map Addr.v4
  | some 58 => (parseIPv6 s).map Addr.v6
  | _ => none

def bitLen : Addr → Nat
  | Addr.v4 _ => 32
  | Addr.v6 _ => 128

/-- The address bytes at the parsed width (netip's AsSlice). -/
def addrSlice : Addr → List Nat
  | Addr.v4 b => b
  | Addr.v6 b => b

/-- The 16-byte form (netip's As16): 4-byte addresses become v4-mapped. -/
def as16 : Addr → List Nat
  | Addr.v4 b => v4InV6Pfx ++ b
  | Addr.v6 b => b

/-- Model of net.ParseIP: parse, reject zones, return the 16-byte form. -/
def parseIP (s : List Nat) : Option (List Nat) := (parseAddr s).map as16

/-- Index of the first occurrence of byte c. -/
def idxOf (c : Nat) : List Nat → Option Nat
  | [] => none
  | b :: rest => if b = c then some 0 else (idxOf c rest).map (fun k => k + 1)

/-- Model of net.ParseCIDR: split at the first `/`, parse the address part,
parse the whole mask part as a decimal not exceeding the address bit length,
build the mask and the masked network.  The returned address is the parsed
address at its natural width (the claims below never depend on that width,
which differs across Go versions between 4-byte and 16-byte v4-mapped for
dotted addresses). -/
def parseCIDR (s : List Nat) : Option (List Nat × IPNet) :=
  match idxOf 47 s with
  | none => none
  | some i =>
    let addr := s.take i
    let maskS := s.drop (i + 1)
    match parseAddr addr with
    | none => none
    | some a =>
      let r := dtoi maskS
      if r.2.2 = true ∧ r.2.1 = maskS.length ∧ r.1 ≤ bitLen a then
        let m := cidrMaskBytes (bitLen a / 8) r.1
        (goMask (addrSlice a) m).map (fun nw => (addrSlice a, IPNet.mk nw m))
      else none

/-- Model of `parseInput` (main.go lines 97-115): integer shorthand rewrite,
then CIDR parse, then bare-address parse with a `/32` suffix appended. -/
def parseInput (input : List Nat) : Option (List Nat × IPNet) :=
  let input2 := if atoiOk input then s2b "192.168." ++ input ++ s2b ".0/24" else input
  match parseCIDR input2 with
  | some r => some r
  | none =>
    match parseIP input2 with
    | some ip => (parseCIDR (input2 ++ s2b "/32")).map (fun r => (ip, r.2))
    | none => none

end SSHScan

namespace SSHScan

/-! Printing: net's `uitoa`, `appendHex`, `IP.String`, `IPMask.String` and
`IPNet.String`, used for the enumerator's emitted strings and for the
canonical (CIDR) form of a parsed range. -/

/-- net's uitoa loop with fuel (the value shrinks by a factor 10 per step, so
`v + 1` fuel always suffices): fill the digit buffer from the back. -/
def uitoaAux : Nat → Nat → List Nat → List Nat
  | 0, _, acc => acc
  | fuel + 1, v, acc =>
    if v < 10 then (v + 48) :: acc
    else uitoaAux fuel (v / 10) ((v % 10 + 48) :: acc)

/-- Decimal digit string of `v` (net's uitoa): no leading zeros, "0" for 0. -/
def uitoa (v : Nat) : List Nat := uitoaAux (v + 1) v []

/-- Lowercase hex digit byte. -/
def hexChar (d : Nat) : Nat := if d < 10 then d + 48 else d + 87

/-- net's appendHex loop with fuel (the value shrinks by a factor 16 per
step, so `v + 1` fuel always suffices). -/
def appendHexAux : Nat → Nat → List Nat → List Nat
  | 0, _, acc => acc
  | fuel + 1, v, acc =>
    if v < 16 then hexChar v :: acc
    else appendHexAux fuel (v / 16) (hexChar (v % 16) :: acc)

/-- Hex digit string of `v` (net's appendHex): no leading zeros, "0" for 0. -/
def appendHex (v : Nat) : List Nat := appendHexAux (v + 1) v []

/-- Dotted-quad form of a 4-byte address (the To4 branch of IP.String). -/
def dottedV4 : List Nat → List Nat
  | [a, b, c, d] => uitoa a ++ 46 :: uitoa b ++ 46 :: uitoa c ++ 46 :: uitoa d
  | _ => []

/-- 16-bit group of `p` at (even) byte offset `i`. -/
def group16 (p : List Nat) (i : Nat) : Nat := p.getD i 0 * 256 + p.getD (i + 1) 0

/-- Inner scan of IP.String's zero-run search: the end of the run of zero
16-bit groups from byte offset `j` (at most 8 iterations). -/
def zrunF : Nat → List Nat → Nat → Nat
  | 0, _, j => j
  | fuel + 1, p, j =>
    if j < 16 ∧ p.getD j 0 = 0 ∧ p.getD (j + 1) 0 = 0 then zrunF fuel p (j + 2)
    else j

def zrun (p : List Nat) (j : Nat) : Nat := zrunF 8 p j

/-- Outer scan of IP.String's zero-run search: leftmost longest run, byte
offsets, `-1` markers as in Go. -/
def bestRunF : Nat → List Nat → Nat → Int → Int → Int × Int
  | 0, _, _, e0, e1 => (e0, e1)
  | fuel + 1, p, i, e0, e1 =>
    if i < 16 then
      let j := zrun p i
      if i < j ∧ e1 - e0 < (j : Int) - (i : Int) then bestRunF fuel p (j + 2) i j
      else bestRunF fuel p (i + 2) e0 e1
    else (e0, e1)

/-- The run chosen by IP.String, discarded when it covers only one group. -/
def bestRun (p : List Nat) : Int × Int :=
  let r := bestRunF 9 p 0 (-1) (-1)
  if r.2 - r.1 ≤ 2 then (-1, -1) else r

/-- Assembly loop of the IPv6 branch of IP.String: hex groups separated by
`:`, with the chosen zero run compressed to `::` (at most 8 iterations). -/
def v6AssembleF : Nat → List Nat → Int → Int → Nat → List Nat
  | 0, _, _, _, _ => []
  | fuel + 1, p, e0, e1, i =>
    if i < 16 then
      if (i : Int) = e0 then
        if 16 ≤ e1 then [58, 58]
        else 58 :: 58 :: (appendHex (group16 p e1.toNat)
          ++ v6AssembleF fuel p e0 e1 (e1.toNat + 2))
      else
        (if 0 < i then [58] else []) ++ appendHex (group16 p i)
          ++ v6AssembleF fuel p e0 e1 (i + 2)
    else []

/-- The IPv6 text of a 16-byte address (IP.String's v6 branch). -/
def v6String (p : List Nat) : List Nat :=
  v6AssembleF 9 p (bestRun p).1 (bestRun p).2 0

/-- Two fixed hex digits of one byte. -/
def hexByte (b : Nat) : List Nat := [hexChar (b / 16 % 16), hexChar (b % 16)]

/-- net's hexString: every byte as two hex digits. -/
def hexString (l : List Nat) : List Nat := l.foldr (fun b acc => hexByte b ++ acc) []

/-- Model of net.IP.String. -/
def ipString (p : List Nat) : List Nat :=
  if p = [] then s2b "<nil>"
  else
    match to4 p with
    | some p4 => dottedV4 p4
    | none => if p.length ≠ 16 then 63 :: hexString p else v6String p

/-- Count of leading one bits of a byte, and the shifted remainder. -/
def leadOnesF : Nat → Nat → Nat × Nat
  | 0, v => (0, v)
  | fuel + 1, v =>
    if v &&& 128 ≠ 0 then
      let r := leadOnesF fuel (v * 2 % 256)
      (r.1 + 1, r.2)
    else (0, v)

def smlAux : List Nat → Nat → Int
  | [], n => (n : Int)
  | v :: rest, n =>
    if v = 255 then smlAux rest (n + 8)
    else
      let r := leadOnesF 8 v
      if r.2 ≠ 0 then -1
      else if rest.all (fun b => b == 0) then ((n + r.1 : Nat) : Int) else -1

/-- Model of net's simpleMaskLength: the prefix length of a canonical mask,
`-1` otherwise. -/
def simpleMaskLength (m : List Nat) : Int := smlAux m 0

/-- Model of net.IPMask.String. -/
def maskHexString (m : List Nat) : List Nat :=
  if m = [] then s2b "<nil>" else hexString m

/-- Model of net.IPNet.String: the canonical CIDR string of a range. -/
def ipNetString (n : IPNet) : List Nat :=
  match nnAndMask n with
  | none => s2b "<nil>"
  | some (nn, m) =>
    let l := simpleMaskLength m
    if l = -1 then ipString nn ++ 47 :: maskHexString m
    else ipString nn ++ 47 :: uitoa l.toNat

end SSHScan

namespace SSHScan

/-! Model of `main` (main.go lines 72-95) around the scan: the process exit
status, and whether the scan dispatch loop ran.  `parseConfig` (flag parsing)
is CLI glue; the target string, the output-file configuration, the
file-creation outcome and the prober are parameters.  The scan consumes the
`String()` forms of the enumerated addresses. -/

/-- One completed execution of `main` on target string `input`: `code` is the
process exit status; the final scan state is `none` when the run stopped
before the dispatch loop.  An invalid target exits with status 1 (line 78); a
failed `os.Create` only returns from `scan` (line 166) with nothing
dispatched and all counters zero, after which `main` falls off the end and
the process exits with status 0. -/
inductive MainExec (outCfg createFails : Bool) (workers : Nat)
    (probe : List Nat → Bool) (input : List Nat) :
    Nat → Option (SState (List Nat)) → Prop
  | parseErr : parseInput input = none →
      MainExec outCfg createFails workers probe input 1 none
  | fileErr (r : List Nat × IPNet) : parseInput input = some r →
      outCfg = true → createFails = true →
      MainExec outCfg createFails workers probe input 0 none
  | completed (ip : List Nat) (net : IPNet) (emitted : List (List Nat))
      (fuel : Nat) (s : SState (List Nat)) :
      parseInput input = some (ip, net) →
      ¬(outCfg = true ∧ createFails = true) →
      generateIPs ip net fuel = (emitted, true) →
      Reach workers outCfg probe (initState (emitted.map ipString)) s →
      Final s →
      MainExec outCfg createFails workers probe input 0 (some s)

end SSHScan

namespace SSHScan

def prT : Nat → Bool := fun _ => true

theorem cex_trace : Reach 2 true prT (initState [0, 1])
    ⟨[], 0, 2, 0, 2, 0, [1, 0], [0, 1]⟩ := by
  have h1 : Reach 2 true prT (initState [0, 1])
      ⟨[1], ⟨0, WPc.start⟩ ::ₘ 0, 0, 0, 0, 1, [], []⟩ :=
    Reach.tail Reach.refl (Step.dispatch _ 0 [1] rfl (by decide))
  have h2 : Reach 2 true prT (initState [0, 1])
      ⟨[], ⟨1, WPc.start⟩ ::ₘ ⟨0, WPc.start⟩ ::ₘ 0, 0, 0, 0, 2, [], []⟩ :=
    Reach.tail h1 (Step.dispatch _ 1 [] rfl (by decide))
  have h3 : Reach 2 true prT (initState [0, 1])
      ⟨[], ⟨0, WPc.gotOk⟩ ::ₘ ⟨1, WPc.start⟩ ::ₘ 0, 0, 0, 0, 2, [], []⟩ :=
    Reach.tail h2 (Step.probeReturn _ ⟨0, WPc.start⟩ (⟨1, WPc.start⟩ ::ₘ 0)
      (by decide) rfl)
  have h4 : Reach 2 true prT (initState [0, 1])
      ⟨[], ⟨0, WPc.didOk⟩ ::ₘ ⟨1, WPc.start⟩ ::ₘ 0, 1, 0, 0, 2, [], []⟩ :=
    Reach.tail h3 (Step.recordOk _ ⟨0, WPc.gotOk⟩ (⟨1, WPc.start⟩ ::ₘ 0) rfl rfl)
  have h5 : Reach 2 true prT (initState [0, 1])
      ⟨[], ⟨0, WPc.printed⟩ ::ₘ ⟨1, WPc.start⟩ ::ₘ 0, 1, 0, 0, 2, [], [0]⟩ :=
    Reach.tail h4 (Step.printOk _ ⟨0, WPc.didOk⟩ (⟨1, WPc.start⟩ ::ₘ 0) rfl rfl)
  have h6 : Reach 2 true prT (initState [0, 1])
      ⟨[], ⟨1, WPc.gotOk⟩ ::ₘ ⟨0, WPc.printed⟩ ::ₘ 0, 1, 0, 0, 2, [], [0]⟩ :=
    Reach.tail h5 (Step.probeReturn _ ⟨1, WPc.start⟩ (⟨0, WPc.printed⟩ ::ₘ 0)
      (by decide) rfl)
  have h7 : Reach 2 true prT (initState [0, 1])
      ⟨[], ⟨1, WPc.didOk⟩ ::ₘ ⟨0, WPc.printed⟩ ::ₘ 0, 2, 0, 0, 2, [], [0]⟩ :=
    Reach.tail h6 (Step.recordOk _ ⟨1, WPc.gotOk⟩ (⟨0, WPc.printed⟩ ::ₘ 0) rfl rfl)
  have h8 : Reach 2 true prT (initState [0, 1])
      ⟨[], ⟨1, WPc.printed⟩ ::ₘ ⟨0, WPc.printed⟩ ::ₘ 0, 2, 0, 0, 2, [], [0, 1]⟩ :=
    Reach.tail h7 (Step.printOk _ ⟨1, WPc.didOk⟩ (⟨0, WPc.printed⟩ ::ₘ 0) rfl rfl)
  have h9 : Reach 2 true prT (initState [0, 1])
      ⟨[], ⟨1, WPc.wrote⟩ ::ₘ ⟨0, WPc.printed⟩ ::ₘ 0, 2, 0, 0, 2, [1], [0, 1]⟩ :=
    Reach.tail h8 (Step.writeOk _ ⟨1, WPc.printed⟩ (⟨0, WPc.printed⟩ ::ₘ 0) rfl rfl)
  have h10 : Reach 2 true prT (initState [0, 1])
      ⟨[], ⟨0, WPc.wrote⟩ ::ₘ ⟨1, WPc.wrote⟩ ::ₘ 0, 2, 0, 0, 2, [1, 0], [0, 1]⟩ :=
    Reach.tail h9 (Step.writeOk _ ⟨0, WPc.printed⟩ (⟨1, WPc.wrote⟩ ::ₘ 0)
      (by decide) rfl)
  have h11 : Reach 2 true prT (initState [0, 1])
      ⟨[], ⟨0, WPc.proc⟩ ::ₘ ⟨1, WPc.wrote⟩ ::ₘ 0, 2, 0, 1, 2, [1, 0], [0, 1]⟩ :=
    Reach.tail h10 (Step.recordProc _ ⟨0, WPc.wrote⟩ (⟨1, WPc.wrote⟩ ::ₘ 0) rfl rfl)
  have h12 : Reach 2 true prT (initState [0, 1])
      ⟨[], ⟨1, WPc.proc⟩ ::ₘ ⟨0, WPc.proc⟩ ::ₘ 0, 2, 0, 2, 2, [1, 0], [0, 1]⟩ :=
    Reach.tail h11 (Step.recordProc _ ⟨1, WPc.wrote⟩ (⟨0, WPc.proc⟩ ::ₘ 0)
      (by decide) rfl)
  have h13 : Reach 2 true prT (initState [0, 1])
      ⟨[], ⟨0, WPc.rel⟩ ::ₘ ⟨1, WPc.proc⟩ ::ₘ 0, 2, 0, 2, 1, [1, 0], [0, 1]⟩ :=
    Reach.tail h12 (Step.release _ ⟨0, WPc.proc⟩ (⟨1, WPc.proc⟩ ::ₘ 0)
      (by decide) rfl)
  have h14 : Reach 2 true prT (initState [0, 1])
      ⟨[], ⟨1, WPc.rel⟩ ::ₘ ⟨0, WPc.rel⟩ ::ₘ 0, 2, 0, 2, 0, [1, 0], [0, 1]⟩ :=
    Reach.tail h13 (Step.release _ ⟨1, WPc.proc⟩ (⟨0, WPc.rel⟩ ::ₘ 0)
      (by decide) rfl)
  have h15 : Reach 2 true prT (initState [0, 1])
      ⟨[], ⟨1, WPc.rel⟩ ::ₘ 0, 2, 0, 2, 0, [1, 0], [0, 1]⟩ :=
    Reach.tail h14 (Step.exitWorker _ ⟨0, WPc.rel⟩ (⟨1, WPc.rel⟩ ::ₘ 0)
      (by decide) rfl)
  exact Reach.tail h15 (Step.exitWorker _ ⟨1, WPc.rel⟩ 0 rfl rfl)

theorem valRev_replicate_255 (n : Nat) : valRev (List.replicate n 255) = 256 ^ n - 1 := by
  induction n with
  | zero => simp [valRev]
  | succ n ih =>
    simp only [List.replicate_succ, valRev, ih, pow_succ]
    have : (1 : Nat) ≤ 256 ^ n := Nat.one_le_pow _ _ (by omega)
    omega

theorem valRev_replicate_zero (n : Nat) : valRev (List.replicate n 0) = 0 := by
  induction n with
  | zero => rfl
  | succ n ih => simpa [List.replicate_succ, valRev] using ih

theorem aligned_and_add {B p q t : Nat} (hp : p ≤ B) (hq : q < 2 ^ p)
    (ht : t < 2 ^ (B - p)) :
    (2 ^ (B - p) * q + t) &&& (2 ^ B - 2 ^ (B - p)) = 2 ^ (B - p) * q := by
  have hNpos : 0 < 2 ^ (B - p) := Nat.pos_pow_of_pos _ (by omega)
  have hBp : (2 : Nat) ^ (B - p) * 2 ^ p = 2 ^ B := by
    rw [← pow_add, show B - p + p = B by omega]
  have hmul : 2 ^ (B - p) * (q + 1) ≤ 2 ^ (B - p) * 2 ^ p := Nat.mul_le_mul_left _ hq
  have hdist : 2 ^ (B - p) * (q + 1) = 2 ^ (B - p) * q + 2 ^ (B - p) := by ring
  have hlt : 2 ^ (B - p) * q + t < 2 ^ B := by omega
  rw [and_mask_align hlt hp, Nat.mul_add_div hNpos, Nat.div_eq_of_lt ht, add_zero]

theorem inc_allFF (n : Nat) : inc (List.replicate n 255) = List.replicate n 0 := by
  have hwf : wf (List.replicate n 255) := by
    intro b hb
    rw [List.eq_of_mem_replicate hb]
    omega
  have hwf0 : wf (List.replicate n 0) := by
    intro b hb
    rw [List.eq_of_mem_replicate hb]
    omega
  apply toVal_inj (inc_wf _ hwf) hwf0
  · rw [inc_length, List.length_replicate, List.length_replicate]
  · rw [toVal_inc _ hwf, List.length_replicate]
    have h1 : toVal (List.replicate n 255) = 256 ^ n - 1 := by
      rw [toVal_eq_valRev, List.reverse_replicate, valRev_replicate_255]
    have h2 : toVal (List.replicate n 0) = 0 := by
      rw [toVal_eq_valRev, List.reverse_replicate]
      exact valRev_replicate_zero n
    rw [h1, h2]
    have : (1 : Nat) ≤ 256 ^ n := Nat.one_le_pow _ _ (by omega)
    rw [Nat.sub_add_cancel this, Nat.mod_self]

/-- The first address beyond a 4-byte CIDR block stays within 2^32. -/
theorem v0_add_block_le (p : Nat) (hp1 : 1 ≤ p) (hp : p ≤ 32) (b : List Nat)
    (hb : b.length = 4) (hwb : wf b) :
    (toVal b &&& toVal (cidrMaskBytes 4 p)) + 2 ^ (32 - p) ≤ 2 ^ 32 := by
  have hb32 : toVal b < 2 ^ 32 := by
    have h := toVal_lt b hwb
    rw [hb, pow_256_4] at h
    exact h
  have hMval : toVal (cidrMaskBytes 4 p) = 2 ^ 32 - 2 ^ (32 - p) := by
    rw [toVal_cidrMaskBytes 4 p (by omega)]
  have hal : toVal b &&& toVal (cidrMaskBytes 4 p)
      = 2 ^ (32 - p) * (toVal b / 2 ^ (32 - p)) := by
    rw [hMval]
    exact and_mask_align hb32 hp
  have hqlt : toVal b / 2 ^ (32 - p) < 2 ^ p := by
    apply Nat.div_lt_of_lt_mul
    rw [← pow_add, show 32 - p + p = 32 by omega]
    exact hb32
  have hNp32 : 2 ^ (32 - p) * 2 ^ p = 2 ^ 32 := by
    rw [← pow_add, show 32 - p + p = 32 by omega]
  have h2 : 2 ^ (32 - p) * (toVal b / 2 ^ (32 - p) + 1) ≤ 2 ^ (32 - p) * 2 ^ p :=
    Nat.mul_le_mul_left _ hqlt
  have h4 : 2 ^ (32 - p) * (toVal b / 2 ^ (32 - p) + 1)
      = 2 ^ (32 - p) * (toVal b / 2 ^ (32 - p)) + 2 ^ (32 - p) := by ring
  omega

/-- Every address of a 4-byte CIDR block passes the range's `Contains`. -/
theorem containsIP_cidr_block (p : Nat) (hp1 : 1 ≤ p) (hp : p ≤ 32) (b : List Nat)
    (hb : b.length = 4) (hwb : wf b) (t : Nat) (ht : t < 2 ^ (32 - p)) :
    containsIP ⟨b, cidrMaskBytes 4 p⟩
      (addrOfVal 4 ((toVal b &&& toVal (cidrMaskBytes 4 p)) + t)) = true := by
  have hb32 : toVal b < 2 ^ 32 := by
    have h := toVal_lt b hwb
    rw [hb, pow_256_4] at h
    exact h
  have hMval : toVal (cidrMaskBytes 4 p) = 2 ^ 32 - 2 ^ (32 - p) := by
    rw [toVal_cidrMaskBytes 4 p (by omega)]
  have hal : toVal b &&& toVal (cidrMaskBytes 4 p)
      = 2 ^ (32 - p) * (toVal b / 2 ^ (32 - p)) := by
    rw [hMval]
    exact and_mask_align hb32 hp
  have hle := v0_add_block_le p hp1 hp b hb hwb
  have hwlt : (toVal b &&& toVal (cidrMaskBytes 4 p)) + t < 2 ^ 32 := by omega
  rw [containsIP_4_val b _ _ hb (cidrMaskBytes_length 4 p) (addrOfVal_length 4 _)
    hwb (cidrMaskBytes_wf 4 p) (addrOfVal_wf 4 _)]
  rw [toVal_addrOfVal, pow_256_4, Nat.mod_eq_of_lt hwlt]
  have hNpos : 0 < 2 ^ (32 - p) := Nat.pos_pow_of_pos _ (by omega)
  have hqlt : toVal b / 2 ^ (32 - p) < 2 ^ p := by
    apply Nat.div_lt_of_lt_mul
    rw [← pow_add, show 32 - p + p = 32 by omega]
    exact hb32
  have handw := aligned_and_add (B := 32) hp hqlt ht
  rw [← hMval, ← hal] at handw
  rw [handw]
  simp

end SSHScan


namespace SSHScan

/-- Prober oracle that fails every address. -/
def prF : Nat → Bool := fun _ => false

/-- Prober oracle on address strings that succeeds everywhere. -/
def prLT : List Nat → Bool := fun _ => true

/-- C1: for every completed scan, the success count plus the failure count
equals the processed count, and that count equals the number of addresses the
enumerator emitted, for every concurrency limit. -/
theorem C1_conservation {α : Type} {workers : Nat} {outCfg : Bool}
    {probe : α → Bool} {input : List α} {s : SState α}
    (h : Reach workers outCfg probe (initState input) s) (hfin : Final s) :
    s.okN + s.failN = s.procN ∧ s.procN = input.length := by
  obtain ⟨h1, h2, _, _, _⟩ := final_state_facts h hfin
  exact ⟨by omega, h2⟩

/-- Witness for C1 on a completed one-address scan whose probe fails. -/
theorem C1_conservation_witness :
    (0 : Nat) + 1 = 1 ∧ (1 : Nat) = ([7] : List Nat).length := by
  have h1 : Reach 1 false prF (initState [7])
      ⟨[], ⟨7, WPc.start⟩ ::ₘ 0, 0, 0, 0, 1, [], []⟩ :=
    Reach.tail Reach.refl (Step.dispatch _ 7 [] rfl (by decide))
  have h2 : Reach 1 false prF (initState [7])
      ⟨[], ⟨7, WPc.gotFail⟩ ::ₘ 0, 0, 0, 0, 1, [], []⟩ :=
    Reach.tail h1 (Step.probeReturn _ ⟨7, WPc.start⟩ 0 rfl rfl)
  have h3 : Reach 1 false prF (initState [7])
      ⟨[], ⟨7, WPc.wrote⟩ ::ₘ 0, 0, 1, 0, 1, [], []⟩ :=
    Reach.tail h2 (Step.recordFail _ ⟨7, WPc.gotFail⟩ 0 rfl rfl)
  have h4 : Reach 1 false prF (initState [7])
      ⟨[], ⟨7, WPc.proc⟩ ::ₘ 0, 0, 1, 1, 1, [], []⟩ :=
    Reach.tail h3 (Step.recordProc _ ⟨7, WPc.wrote⟩ 0 rfl rfl)
  have h5 : Reach 1 false prF (initState [7])
      ⟨[], ⟨7, WPc.rel⟩ ::ₘ 0, 0, 1, 1, 0, [], []⟩ :=
    Reach.tail h4 (Step.release _ ⟨7, WPc.proc⟩ 0 rfl rfl)
  have h6 : Reach 1 false prF (initState [7]) ⟨[], 0, 0, 1, 1, 0, [], []⟩ :=
    Reach.tail h5 (Step.exitWorker _ ⟨7, WPc.rel⟩ 0 rfl rfl)
  exact C1_conservation h6 ⟨rfl, rfl⟩

/-- C2 counterexample: the valid CIDR input "0.0.0.0/0" (4-byte address,
prefix 0) parses, but the enumerator never exits its loop: after 2^32 + 1
iterations it has emitted 2^32 + 1 addresses — more than the claimed
2^(32-0) = 2^32 — and the loop-exit flag is still false. -/
theorem C2_cex :
    parseInput (s2b "0.0.0.0/0")
      = some ([0, 0, 0, 0], ⟨[0, 0, 0, 0], [0, 0, 0, 0]⟩) ∧
    (generateIPs [0, 0, 0, 0] ⟨[0, 0, 0, 0], [0, 0, 0, 0]⟩ (2 ^ 32 + 1)).2
      = false ∧
    (generateIPs [0, 0, 0, 0] ⟨[0, 0, 0, 0], [0, 0, 0, 0]⟩ (2 ^ 32 + 1)).1.length
      = 2 ^ 32 + 1 := by
  have hst : genStart [0, 0, 0, 0] ⟨[0, 0, 0, 0], [0, 0, 0, 0]⟩ = addrOfVal 4 0 := by
    decide
  have h := genLoop_net0 (2 ^ 32 + 1) 0
  refine ⟨by decide, ?_, ?_⟩
  · rw [generateIPs, hst, h]
  · rw [generateIPs, hst, h]
    simp

/-- C2 amended: for a 4-byte CIDR range with prefix length 1 ≤ p ≤ 32, the
enumerator terminates after emitting exactly 2^(32-p) addresses (given any
fuel beyond that); the /0 case never terminates. -/
theorem C2_amended_count (p : Nat) (hp1 : 1 ≤ p) (hp : p ≤ 32) (ip : List Nat)
    (hip : ip.length = 4) (hwip : wf ip) (fuel : Nat) (hfuel : 2 ^ (32 - p) < fuel) :
    (generateIPs ip ⟨zipAND ip (cidrMaskBytes 4 p), cidrMaskBytes 4 p⟩ fuel).1.length
      = 2 ^ (32 - p) ∧
    (generateIPs ip ⟨zipAND ip (cidrMaskBytes 4 p), cidrMaskBytes 4 p⟩ fuel).2
      = true := by
  rw [generateIPs_cidr p hp1 hp ip hip hwip fuel hfuel]
  simp

/-- Witness for the amended C2 at the /30 range of 192.168.1.0. -/
theorem C2_amended_count_witness :
    (generateIPs [192, 168, 1, 0]
        ⟨zipAND [192, 168, 1, 0] (cidrMaskBytes 4 30), cidrMaskBytes 4 30⟩ 5).1.length
      = 2 ^ (32 - 30) ∧
    (generateIPs [192, 168, 1, 0]
        ⟨zipAND [192, 168, 1, 0] (cidrMaskBytes 4 30), cidrMaskBytes 4 30⟩ 5).2
      = true :=
  C2_amended_count 30 (by decide) (by decide) [192, 168, 1, 0] (by decide)
    (by decide) 5 (by decide)

/-- C3 counterexample: on the /0 range the enumerator wraps around after
2^32 steps, so its emitted sequence has duplicates (the all-zero address
recurs), refuting "no duplicates, strictly ascending" for every range. -/
theorem C3_cex :
    ¬ (generateIPs [0, 0, 0, 0] ⟨[0, 0, 0, 0], [0, 0, 0, 0]⟩ (2 ^ 32 + 1)).1.Nodup := by
  have hst : genStart [0, 0, 0, 0] ⟨[0, 0, 0, 0], [0, 0, 0, 0]⟩ = addrOfVal 4 0 := by
    decide
  rw [generateIPs, hst, genLoop_net0]
  intro h
  dsimp only at h
  have hinj := List.inj_on_of_nodup_map h
  have h0 : (0 : Nat) ∈ List.range (2 ^ 32 + 1) :=
    List.mem_range.2 (Nat.succ_pos _)
  have h1 : (2 ^ 32 : Nat) ∈ List.range (2 ^ 32 + 1) :=
    List.mem_range.2 (Nat.lt_succ_self _)
  have heq : addrOfVal 4 (0 + 0) = addrOfVal 4 (0 + 2 ^ 32) := by
    have hm := addrOfVal_mod 4 (2 ^ 32)
    rw [pow_256_4, Nat.mod_self] at hm
    simpa using hm
  exact absurd (hinj h0 h1 heq) (by norm_num)

/-- C3 amended: for a 4-byte CIDR range with prefix length 1 ≤ p ≤ 32, the
emitted sequence is strictly ascending in big-endian value, duplicate-free,
entirely inside the range, and gap-free (the t-th emission is the network
base plus t). -/
theorem C3_amended_order (p : Nat) (hp1 : 1 ≤ p) (hp : p ≤ 32) (ip : List Nat)
    (hip : ip.length = 4) (hwip : wf ip) (fuel : Nat) (hfuel : 2 ^ (32 - p) < fuel) :
    List.Pairwise (fun a b => toVal a < toVal b)
      (generateIPs ip ⟨zipAND ip (cidrMaskBytes 4 p), cidrMaskBytes 4 p⟩ fuel).1 ∧
    (generateIPs ip ⟨zipAND ip (cidrMaskBytes 4 p), cidrMaskBytes 4 p⟩ fuel).1.Nodup ∧
    (∀ x ∈ (generateIPs ip ⟨zipAND ip (cidrMaskBytes 4 p), cidrMaskBytes 4 p⟩ fuel).1,
      containsIP ⟨zipAND ip (cidrMaskBytes 4 p), cidrMaskBytes 4 p⟩ x = true) ∧
    (generateIPs ip ⟨zipAND ip (cidrMaskBytes 4 p), cidrMaskBytes 4 p⟩ fuel).1
      = (List.range (2 ^ (32 - p))).map
          (fun t => addrOfVal 4 ((toVal ip &&& toVal (cidrMaskBytes 4 p)) + t)) := by
  have hchar := generateIPs_cidr p hp1 hp ip hip hwip fuel hfuel
  have h1 : (generateIPs ip ⟨zipAND ip (cidrMaskBytes 4 p), cidrMaskBytes 4 p⟩ fuel).1
      = (List.range (2 ^ (32 - p))).map
          (fun t => addrOfVal 4 ((toVal ip &&& toVal (cidrMaskBytes 4 p)) + t)) := by
    rw [hchar]
  have hm : (cidrMaskBytes 4 p).length = 4 := cidrMaskBytes_length 4 p
  have hblen : (zipAND ip (cidrMaskBytes 4 p)).length = 4 := by
    rw [zipAND_length, hip, hm, min_self]
  have hbwf : wf (zipAND ip (cidrMaskBytes 4 p)) := zipAND_wf _ _ hwip
  have hbval : toVal (zipAND ip (cidrMaskBytes 4 p))
      = toVal ip &&& toVal (cidrMaskBytes 4 p) :=
    toVal_zipAND ip (cidrMaskBytes 4 p) hwip (cidrMaskBytes_wf 4 p) (hip.trans hm.symm)
  have hv0b : toVal (zipAND ip (cidrMaskBytes 4 p)) &&& toVal (cidrMaskBytes 4 p)
      = toVal ip &&& toVal (cidrMaskBytes 4 p) := by
    rw [hbval, Nat.and_assoc, Nat.and_self]
  have hle := v0_add_block_le p hp1 hp ip hip hwip
  have hpw : List.Pairwise (fun a b => toVal a < toVal b)
      (generateIPs ip ⟨zipAND ip (cidrMaskBytes 4 p), cidrMaskBytes 4 p⟩ fuel).1 := by
    rw [h1, List.pairwise_map]
    refine List.Pairwise.imp_of_mem ?_ (List.pairwise_lt_range _)
    intro a b ha hb hab
    rw [List.mem_range] at ha hb
    rw [toVal_addrOfVal, toVal_addrOfVal, pow_256_4,
      Nat.mod_eq_of_lt (by omega), Nat.mod_eq_of_lt (by omega)]
    omega
  refine ⟨hpw, hpw.imp ?_, ?_, h1⟩
  · intro a b hlt heq
    rw [heq] at hlt
    exact lt_irrefl _ hlt
  · intro x hx
    rw [h1, List.mem_map] at hx
    obtain ⟨t, ht, rfl⟩ := hx
    rw [List.mem_range] at ht
    have hb := containsIP_cidr_block p hp1 hp (zipAND ip (cidrMaskBytes 4 p))
      hblen hbwf t ht
    rw [hv0b] at hb
    exact hb

/-- Witness for the amended C3 at the /31 range of 10.0.0.0. -/
theorem C3_amended_order_witness :
    List.Pairwise (fun a b => toVal a < toVal b)
      (generateIPs [10, 0, 0, 0]
        ⟨zipAND [10, 0, 0, 0] (cidrMaskBytes 4 31), cidrMaskBytes 4 31⟩ 3).1 ∧
    (generateIPs [10, 0, 0, 0]
        ⟨zipAND [10, 0, 0, 0] (cidrMaskBytes 4 31), cidrMaskBytes 4 31⟩ 3).1.Nodup ∧
    (∀ x ∈ (generateIPs [10, 0, 0, 0]
        ⟨zipAND [10, 0, 0, 0] (cidrMaskBytes 4 31), cidrMaskBytes 4 31⟩ 3).1,
      containsIP ⟨zipAND [10, 0, 0, 0] (cidrMaskBytes 4 31), cidrMaskBytes 4 31⟩ x
        = true) ∧
    (generateIPs [10, 0, 0, 0]
        ⟨zipAND [10, 0, 0, 0] (cidrMaskBytes 4 31), cidrMaskBytes 4 31⟩ 3).1
      = (List.range (2 ^ (32 - 31))).map
          (fun t => addrOfVal 4
            ((toVal [10, 0, 0, 0] &&& toVal (cidrMaskBytes 4 31)) + t)) :=
  C3_amended_order 31 (by decide) (by decide) [10, 0, 0, 0] (by decide) (by decide)
    3 (by decide)

set_option maxRecDepth 8000 in
/-- C4: the shorthand "3" parses to the 192.168.3.0/24 range, which
enumerates exactly 256 addresses with no exclusions; the bare address
"10.0.0.1" parses to a range that enumerates exactly that one address; the
string "invalid" is rejected. -/
theorem C4_examples :
    parseInput (s2b "3")
      = some ([192, 168, 3, 0], ⟨[192, 168, 3, 0], [255, 255, 255, 0]⟩) ∧
    (generateIPs [192, 168, 3, 0] ⟨[192, 168, 3, 0], [255, 255, 255, 0]⟩ 257).1.length
      = 256 ∧
    (generateIPs [192, 168, 3, 0] ⟨[192, 168, 3, 0], [255, 255, 255, 0]⟩ 257).2
      = true ∧
    parseInput (s2b "10.0.0.1")
      = some (v4InV6Pfx ++ [10, 0, 0, 1], ⟨[10, 0, 0, 1], [255, 255, 255, 255]⟩) ∧
    (generateIPs (v4InV6Pfx ++ [10, 0, 0, 1]) ⟨[10, 0, 0, 1], [255, 255, 255, 255]⟩ 2)
      = ([[10, 0, 0, 1]], true) ∧
    parseInput (s2b "invalid") = none := by
  exact ⟨by decide, by decide, by decide, by decide, by decide, by decide⟩

/-- C7 counterexample: with an output path configured and `os.Create`
failing, a run on the valid target "10.0.0.1" completes with exit status 0
(and the only executions on this input exit 0): `scan` merely returns early,
so the run does not terminate with a non-zero failure signal. -/
theorem C7_cex :
    MainExec true true 1 prLT (s2b "10.0.0.1") 0 none ∧
    ∀ code st, MainExec true true 1 prLT (s2b "10.0.0.1") code st → code = 0 := by
  constructor
  · exact MainExec.fileErr
      (v4InV6Pfx ++ [10, 0, 0, 1], ⟨[10, 0, 0, 1], [255, 255, 255, 255]⟩)
      (by decide) rfl rfl
  · intro code st h
    cases h with
    | parseErr hp => exact absurd hp (by decide)
    | fileErr r hr ho hc => rfl
    | completed ip net emitted fuel s hp hnot hgen hr hf =>
      exact absurd ⟨rfl, rfl⟩ hnot

/-- C7 amended: an invalid target terminates the run with exit status 1 and
no scan; a failed output-file creation aborts the run before any probe is
dispatched (no scan state exists), but the process still exits with status 0
rather than a failure status. -/
theorem C7_amended_exit (outCfg createFails : Bool) (workers : Nat)
    (probe : List Nat → Bool) (input : List Nat) (code : Nat)
    (st : Option (SState (List Nat)))
    (hex : MainExec outCfg createFails workers probe input code st) :
    (parseInput input = none → code = 1 ∧ st = none) ∧
    (outCfg = true → createFails = true → st = none ∧
      (parseInput input ≠ none → code = 0)) := by
  cases hex with
  | parseErr hp =>
    exact ⟨fun _ => ⟨rfl, rfl⟩, fun _ _ => ⟨rfl, fun hne => absurd hp hne⟩⟩
  | fileErr r hr ho hc =>
    refine ⟨fun hn => ?_, fun _ _ => ⟨rfl, fun _ => rfl⟩⟩
    rw [hr] at hn
    exact absurd hn (by simp)
  | completed ip net emitted fuel s hp hnot hgen hr hf =>
    refine ⟨fun hn => ?_, fun ho hc => absurd ⟨ho, hc⟩ hnot⟩
    rw [hp] at hn
    exact absurd hn (by simp)

/-- Witness for the amended C7 on the rejected target "invalid". -/
theorem C7_amended_exit_witness :
    (parseInput (s2b "invalid") = none →
      (1 : Nat) = 1 ∧ (none : Option (SState (List Nat))) = none) ∧
    (true = true → true = true →
      (none : Option (SState (List Nat))) = none ∧
        (parseInput (s2b "invalid") ≠ none → (1 : Nat) = 0)) :=
  C7_amended_exit true true 1 prLT (s2b "invalid") 1 none
    (MainExec.parseErr (by decide))

/-- C8: in every reachable scan state the semaphore occupancy equals the
number of dispatched workers that have not yet released their slot, never
exceeds the configured worker count, and is zero at completion (every slot
released). -/
theorem C8_concurrency_bound {α : Type} {workers : Nat} {outCfg : Bool}
    {probe : α → Bool} {input : List α} {s : SState α}
    (h : Reach workers outCfg probe (initState input) s) :
    s.sem = Multiset.countP (fun w => w.pc ≠ WPc.rel) s.active ∧
    s.sem ≤ workers ∧ (Final s → s.sem = 0) := by
  obtain ⟨h1, h2⟩ := reach_sem_bound h
  refine ⟨h2, h1, fun hfin => ?_⟩
  rw [h2, hfin.2]
  simp

/-- Witness for C8 right after one dispatch on a one-worker scan. -/
theorem C8_concurrency_bound_witness :
    (1 : Nat) = Multiset.countP (fun w => w.pc ≠ WPc.rel)
      (⟨5, WPc.start⟩ ::ₘ (0 : Multiset (Worker Nat))) ∧
    (1 : Nat) ≤ 1 ∧
    (Final (⟨[], ⟨5, WPc.start⟩ ::ₘ 0, 0, 0, 0, 1, [], []⟩ : SState Nat) →
      (1 : Nat) = 0) := by
  have htr : Reach 1 false prT (initState [5])
      ⟨[], ⟨5, WPc.start⟩ ::ₘ 0, 0, 0, 0, 1, [], []⟩ :=
    Reach.tail Reach.refl (Step.dispatch _ 5 [] rfl (by decide))
  exact C8_concurrency_bound htr

/-- C9 counterexample: a completed two-address scan (both probes succeed,
two workers) in which the output file holds the two successes in the order
[1, 0] while they were announced (discovered) in the order [0, 1]: the file
is not in discovery order. -/
theorem C9_cex :
    Reach 2 true prT (initState [0, 1]) ⟨[], 0, 2, 0, 2, 0, [1, 0], [0, 1]⟩ ∧
    Final (⟨[], 0, 2, 0, 2, 0, [1, 0], [0, 1]⟩ : SState Nat) ∧
    (⟨[], 0, 2, 0, 2, 0, [1, 0], [0, 1]⟩ : SState Nat).printL = [0, 1] ∧
    (⟨[], 0, 2, 0, 2, 0, [1, 0], [0, 1]⟩ : SState Nat).fileL = [1, 0] ∧
    ([1, 0] : List Nat) ≠ [0, 1] :=
  ⟨cex_trace, ⟨rfl, rfl⟩, rfl, rfl, by decide⟩

/-- C9 amended: when an output path is configured, at completion the file
holds exactly the addresses whose probes succeeded — as a multiset, each
exactly once when the input has no duplicates — but their order may differ
from the announcement (discovery) order. -/
theorem C9_amended_file {α : Type} {workers : Nat} {probe : α → Bool}
    {input : List α} {s : SState α}
    (h : Reach workers true probe (initState input) s) (hfin : Final s) :
    (↑s.fileL : Multiset α) = Multiset.filter (fun a => probe a = true) ↑input ∧
    (input.Nodup → s.fileL.Nodup) := by
  obtain ⟨_, _, _, h4, _⟩ := final_state_facts h hfin
  have hfile := h4 rfl
  refine ⟨hfile, fun hnd => ?_⟩
  have hnd2 : (↑s.fileL : Multiset α).Nodup := by
    rw [hfile]
    exact Multiset.Nodup.filter _ (by exact_mod_cast hnd)
  exact_mod_cast hnd2

/-- Witness for the amended C9 on the completed two-address scan above. -/
theorem C9_amended_file_witness :
    (↑([1, 0] : List Nat) : Multiset Nat)
      = Multiset.filter (fun a => prT a = true) ↑([0, 1] : List Nat) ∧
    (([0, 1] : List Nat).Nodup → ([1, 0] : List Nat).Nodup) :=
  C9_amended_file cex_trace ⟨rfl, rfl⟩

/-- C10: `inc` is the in-place big-endian successor modulo 2^(8n) on an
n-byte address: it sends the address of value v to the address of value
(v + 1) mod 2^(8n), and the all-0xFF address wraps to all zeros. -/
theorem C10_inc_mod (ip : List Nat) (h : wf ip) :
    inc ip = addrOfVal ip.length ((toVal ip + 1) % 2 ^ (8 * ip.length)) ∧
    (ip = List.replicate ip.length 255 → inc ip = List.replicate ip.length 0) := by
  constructor
  · have h256 : (2 : Nat) ^ (8 * ip.length) = 256 ^ ip.length := by
      rw [pow_mul]
      norm_num
    rw [h256, ← toVal_inc ip h]
    have ha := addrOfVal_toVal (inc ip) (inc_wf ip h)
    rw [inc_length] at ha
    exact ha.symm
  · intro hrep
    conv_lhs => rw [hrep]
    exact inc_allFF ip.length

/-- Witness for C10 at the two-byte all-0xFF address. -/
theorem C10_inc_mod_witness :
    inc [255, 255] = addrOfVal ([255, 255] : List Nat).length
      ((toVal [255, 255] + 1) % 2 ^ (8 * ([255, 255] : List Nat).length)) ∧
    (([255, 255] : List Nat) = List.replicate ([255, 255] : List Nat).length 255 →
      inc [255, 255] = List.replicate ([255, 255] : List Nat).length 0) :=
  C10_inc_mod [255, 255] (by decide)

end SSHScan

namespace SSHScan

/-! Shape facts about the parsers, used to evaluate `parseInput` on bare
addresses (the `input + "/32"` path) and on printed CIDR strings. -/

theorem idxOf_eq_none (c : Nat) (s : List Nat) (h : c ∉ s) : idxOf c s = none := by
  induction s with
  | nil => rfl
  | cons b rest ih =>
    simp only [List.mem_cons, not_or] at h
    rw [idxOf, if_neg (fun hb => h.1 hb.symm), ih h.2]
    rfl

theorem idxOf_append_self (c : Nat) (s r : List Nat) (h : c ∉ s) :
    idxOf c (s ++ c :: r) = some s.length := by
  induction s with
  | nil => simp [idxOf]
  | cons b rest ih =>
    simp only [List.mem_cons, not_or] at h
    rw [List.cons_append, idxOf, if_neg (fun hb => h.1 hb.symm), ih h.2]
    rfl

theorem drop_append_len (s t : List Nat) (n : Nat) :
    (s ++ t).drop (s.length + n) = t.drop n := by
  induction s with
  | nil => simp
  | cons b rest ih => simpa [List.length_cons, Nat.succ_add] using ih

theorem parseIPv4Aux_no47 (s : List Nat) : ∀ (pos : Nat) (fields : List Nat)
    (pval digLen : Nat) (r : List Nat),
    parseIPv4Aux s pos fields pval digLen = some r → 47 ∉ s := by
  induction s with
  | nil => intro _ _ _ _ _ _; exact List.not_mem_nil 47
  | cons c rest ih =>
    intro pos fields pval digLen r h
    rw [parseIPv4Aux] at h
    simp only [List.mem_cons, not_or]
    by_cases hd : 48 ≤ c ∧ c ≤ 57
    · rw [if_pos hd] at h
      refine ⟨by omega, ?_⟩
      by_cases h1 : digLen = 1 ∧ pval = 0
      · rw [if_pos h1] at h
        exact absurd h (by simp)
      · rw [if_neg h1] at h
        by_cases h2 : 255 < pval * 10 + (c - 48)
        · rw [if_pos h2] at h
          exact absurd h (by simp)
        · rw [if_neg h2] at h
          exact ih _ _ _ _ _ h
    · rw [if_neg hd] at h
      by_cases hdot : c = 46
      · rw [if_pos hdot] at h
        refine ⟨by omega, ?_⟩
        by_cases h1 : digLen = 0
        · rw [if_pos h1] at h
          exact absurd h (by simp)
        · rw [if_neg h1] at h
          by_cases h2 : rest = []
          · rw [if_pos h2] at h
            exact absurd h (by simp)
          · rw [if_neg h2] at h
            by_cases h3 : pos = 3
            · rw [if_pos h3] at h
              exact absurd h (by simp)
            · rw [if_neg h3] at h
              exact ih _ _ _ _ _ h
      · rw [if_neg hdot] at h
        exact absurd h (by simp)

theorem parseIPv4Aux_shape (s : List Nat) : ∀ (pos : Nat) (fields : List Nat)
    (pval digLen : Nat) (r : List Nat),
    parseIPv4Aux s pos fields pval digLen = some r →
    fields.length = pos → wf fields → pval ≤ 255 →
    r.length = 4 ∧ wf r := by
  induction s with
  | nil =>
    intro pos fields pval digLen r h hlen hwf hpv
    rw [parseIPv4Aux] at h
    by_cases h3 : pos = 3
    · rw [if_pos h3] at h
      injection h with h
      subst h
      constructor
      · rw [List.length_append, hlen, h3]
        rfl
      · intro b hb
        rcases List.mem_append.1 hb with hb | hb
        · exact hwf b hb
        · rw [List.mem_singleton.1 hb]
          omega
    · rw [if_neg h3] at h
      exact absurd h (by simp)
  | cons c rest ih =>
    intro pos fields pval digLen r h hlen hwf hpv
    rw [parseIPv4Aux] at h
    by_cases hd : 48 ≤ c ∧ c ≤ 57
    · rw [if_pos hd] at h
      by_cases h1 : digLen = 1 ∧ pval = 0
      · rw [if_pos h1] at h
        exact absurd h (by simp)
      · rw [if_neg h1] at h
        by_cases h2 : 255 < pval * 10 + (c - 48)
        · rw [if_pos h2] at h
          exact absurd h (by simp)
        · rw [if_neg h2] at h
          exact ih _ _ _ _ _ h hlen hwf (by omega)
    · rw [if_neg hd] at h
      by_cases hdot : c = 46
      · rw [if_pos hdot] at h
        by_cases h1 : digLen = 0
        · rw [if_pos h1] at h
          exact absurd h (by simp)
        · rw [if_neg h1] at h
          by_cases h2 : rest = []
          · rw [if_pos h2] at h
            exact absurd h (by simp)
          · rw [if_neg h2] at h
            by_cases h3 : pos = 3
            · rw [if_pos h3] at h
              exact absurd h (by simp)
            · rw [if_neg h3] at h
              refine ih _ _ _ _ _ h ?_ ?_ (by omega)
              · rw [List.length_append, hlen]
                rfl
              · intro b hb
                rcases List.mem_append.1 hb with hb | hb
                · exact hwf b hb
                · rw [List.mem_singleton.1 hb]
                  omega
      · rw [if_neg hdot] at h
        exact absurd h (by simp)

theorem parseIPv4_no47 (s b : List Nat) (h : parseIPv4 s = some b) : 47 ∉ s :=
  parseIPv4Aux_no47 s 0 [] 0 0 b h

theorem parseIPv4_shape (s b : List Nat) (h : parseIPv4 s = some b) :
    b.length = 4 ∧ wf b :=
  parseIPv4Aux_shape s 0 [] 0 0 b h rfl (fun x hx => absurd hx (List.not_mem_nil x))
    (by omega)

end SSHScan

namespace SSHScan

theorem hexDigit_lt (c d : Nat) (h : hexDigit c = some d) : d < 16 := by
  unfold hexDigit at h
  by_cases h1 : 48 ≤ c ∧ c ≤ 57
  · rw [if_pos h1] at h
    injection h with h
    omega
  · rw [if_neg h1] at h
    by_cases h2 : 97 ≤ c ∧ c ≤ 102
    · rw [if_pos h2] at h
      injection h with h
      omega
    · rw [if_neg h2] at h
      by_cases h3 : 65 ≤ c ∧ c ≤ 70
      · rw [if_pos h3] at h
        injection h with h
        omega
      · rw [if_neg h3] at h
        exact absurd h (by simp)

theorem hexAccAux_lt (s : List Nat) : ∀ acc : Nat,
    hexAccAux s acc < (acc + 1) * 16 ^ leadHex s := by
  induction s with
  | nil =>
    intro acc
    simp [hexAccAux, leadHex]
  | cons c rest ih =>
    intro acc
    cases hc : hexDigit c with
    | none =>
      simp only [hexAccAux, leadHex, hc, pow_zero, mul_one]
      omega
    | some d =>
      have hd := hexDigit_lt c d hc
      simp only [hexAccAux, leadHex, hc]
      calc hexAccAux rest (acc * 16 + d)
          < (acc * 16 + d + 1) * 16 ^ leadHex rest := ih _
        _ ≤ (acc + 1) * 16 * 16 ^ leadHex rest := by
            apply Nat.mul_le_mul_right
            omega
        _ = (acc + 1) * 16 ^ (leadHex rest + 1) := by ring

theorem hexAcc_lt (s : List Nat) : hexAcc s < 16 ^ leadHex s := by
  have h := hexAccAux_lt s 0
  simpa [hexAcc] using h

theorem mem_take_leadHex (s : List Nat) : ∀ c ∈ s.take (leadHex s), hexDigit c ≠ none := by
  induction s with
  | nil =>
    intro c hc
    exact absurd hc (List.not_mem_nil c)
  | cons b rest ih =>
    intro c hc
    cases hb : hexDigit b with
    | none =>
      rw [leadHex, hb] at hc
      exact absurd hc (List.not_mem_nil c)
    | some d =>
      rw [leadHex, hb, List.take_succ_cons] at hc
      rcases List.mem_cons.1 hc with rfl | hc2
      · rw [hb]
        simp
      · exact ih c hc2

theorem parseIPv6Post_nil (ip : List Nat) (i : Nat) (ell : Option Nat) (s : List Nat)
    (r : List Nat) (h : parseIPv6Post ip i ell s = some r) : s = [] := by
  unfold parseIPv6Post at h
  by_cases hs : s ≠ []
  · rw [if_pos hs] at h
    exact absurd h (by simp)
  · exact not_not.1 hs

theorem parseIPv6Post_shape (ip : List Nat) (i : Nat) (ell : Option Nat) (s : List Nat)
    (r : List Nat) (h : parseIPv6Post ip i ell s = some r)
    (hlen : ip.length = i) (hwf : wf ip) (hle : i ≤ 16) :
    r.length = 16 ∧ wf r := by
  unfold parseIPv6Post at h
  by_cases hs : s ≠ []
  · rw [if_pos hs] at h
    exact absurd h (by simp)
  · rw [if_neg hs] at h
    by_cases hi : i < 16
    · rw [if_pos hi] at h
      cases ell with
      | none => exact absurd h (by simp)
      | some e =>
        injection h with h
        subst h
        constructor
        · rw [List.length_append, List.length_append, List.length_take,
            List.length_drop, List.length_replicate, hlen]
          omega
        · intro b hb
          rcases List.mem_append.1 hb with hb | hb
          · rcases List.mem_append.1 hb with hb | hb
            · exact hwf b (List.mem_of_mem_take hb)
            · rw [List.eq_of_mem_replicate hb]
              omega
          · exact hwf b (List.mem_of_mem_drop hb)
    · rw [if_neg hi] at h
      cases ell with
      | some e => exact absurd h (by simp)
      | none =>
        injection h with h
        subst h
        exact ⟨by omega, hwf⟩

end SSHScan

namespace SSHScan

theorem wf_pair_of_acc (acc : Nat) (hacc : acc < 65536) :
    wf [acc / 256, acc % 256] := by
  intro b hb
  rcases List.mem_cons.1 hb with rfl | hb
  · omega
  · rw [List.mem_singleton.1 hb]
    omega

theorem parseIPv6Loop_shape (fuel : Nat) : ∀ (s : List Nat) (i : Nat)
    (ell : Option Nat) (ip : List Nat) (r : List Nat),
    parseIPv6Loop fuel s i ell ip = some r →
    ip.length = i → wf ip → i ≤ 16 → 2 ∣ i →
    r.length = 16 ∧ wf r := by
  induction fuel with
  | zero =>
    intro s i ell ip r h _ _ _ _
    exact absurd h (by rw [parseIPv6Loop]; simp)
  | succ fuel ih =>
    intro s i ell ip r h hlen hwf hle hdvd
    rw [parseIPv6Loop] at h
    by_cases hi : i < 16
    · rw [if_pos hi] at h
      by_cases h0 : leadHex s = 0
      · rw [if_pos h0] at h
        exact absurd h (by simp)
      · rw [if_neg h0] at h
        by_cases h4 : 4 < leadHex s
        · rw [if_pos h4] at h
          exact absurd h (by simp)
        · rw [if_neg h4] at h
          have haccw : wf [hexAcc s / 256, hexAcc s % 256] := by
            apply wf_pair_of_acc
            have h1 := hexAcc_lt s
            have h2 : (16 : Nat) ^ leadHex s ≤ 16 ^ 4 :=
              Nat.pow_le_pow_right (by omega) (by omega)
            omega
          have hlen2 : (ip ++ [hexAcc s / 256, hexAcc s % 256]).length = i + 2 := by
            rw [List.length_append, hlen]
            rfl
          have hwf2 : wf (ip ++ [hexAcc s / 256, hexAcc s % 256]) := by
            intro b hb
            rcases List.mem_append.1 hb with hb | hb
            · exact hwf b hb
            · exact haccw b hb
          by_cases hv4 : s.drop (leadHex s) ≠ [] ∧ (s.drop (leadHex s)).headD 0 = 46
          · rw [if_pos hv4] at h
            by_cases he : ell = none ∧ i ≠ 12
            · rw [if_pos he] at h
              exact absurd h (by simp)
            · rw [if_neg he] at h
              by_cases h16 : 16 < i + 4
              · rw [if_pos h16] at h
                exact absurd h (by simp)
              · rw [if_neg h16] at h
                cases hp4 : parseIPv4 s with
                | none =>
                  rw [hp4] at h
                  exact absurd h (by simp)
                | some b4 =>
                  rw [hp4] at h
                  obtain ⟨hb4l, hb4w⟩ := parseIPv4_shape s b4 hp4
                  refine parseIPv6Post_shape _ _ _ _ _ h ?_ ?_ (by omega)
                  · rw [List.length_append, hlen, hb4l]
                  · intro b hb
                    rcases List.mem_append.1 hb with hb | hb
                    · exact hwf b hb
                    · exact hb4w b hb
          · rw [if_neg hv4] at h
            by_cases hs2 : s.drop (leadHex s) = []
            · rw [if_pos hs2] at h
              exact parseIPv6Post_shape _ _ _ _ _ h hlen2 hwf2 (by omega)
            · rw [if_neg hs2] at h
              by_cases h58 : (s.drop (leadHex s)).headD 0 ≠ 58
              · rw [if_pos h58] at h
                exact absurd h (by simp)
              · rw [if_neg h58] at h
                by_cases hl1 : (s.drop (leadHex s)).length = 1
                · rw [if_pos hl1] at h
                  exact absurd h (by simp)
                · rw [if_neg hl1] at h
                  by_cases hdc : ((s.drop (leadHex s)).drop 1).headD 0 = 58
                  · rw [if_pos hdc] at h
                    by_cases hell : ell ≠ none
                    · rw [if_pos hell] at h
                      exact absurd h (by simp)
                    · rw [if_neg hell] at h
                      by_cases hs4 : ((s.drop (leadHex s)).drop 1).drop 1 = []
                      · rw [if_pos hs4] at h
                        exact parseIPv6Post_shape _ _ _ _ _ h hlen2 hwf2 (by omega)
                      · rw [if_neg hs4] at h
                        exact ih _ _ _ _ _ h hlen2 hwf2 (by omega) (by omega)
                  · rw [if_neg hdc] at h
                    exact ih _ _ _ _ _ h hlen2 hwf2 (by omega) (by omega)
    · rw [if_neg hi] at h
      exact parseIPv6Post_shape _ _ _ _ _ h hlen hwf hle

end SSHScan

namespace SSHScan

theorem not_mem47_take_leadHex (s : List Nat) : 47 ∉ s.take (leadHex s) := by
  intro hmem
  exact absurd (by decide : hexDigit 47 = none) (mem_take_leadHex s 47 hmem)

theorem cons_headD_drop (l : List Nat) (h : l ≠ []) : l = l.headD 0 :: l.drop 1 := by
  cases l with
  | nil => exact absurd rfl h
  | cons b rest => rfl

theorem parseIPv6Loop_no47 (fuel : Nat) : ∀ (s : List Nat) (i : Nat)
    (ell : Option Nat) (ip : List Nat) (r : List Nat),
    parseIPv6Loop fuel s i ell ip = some r → 47 ∉ s := by
  induction fuel with
  | zero =>
    intro s i ell ip r h
    exact absurd h (by rw [parseIPv6Loop]; simp)
  | succ fuel ih =>
    intro s i ell ip r h
    rw [parseIPv6Loop] at h
    by_cases hi : i < 16
    · rw [if_pos hi] at h
      by_cases h0 : leadHex s = 0
      · rw [if_pos h0] at h
        exact absurd h (by simp)
      · rw [if_neg h0] at h
        by_cases h4 : 4 < leadHex s
        · rw [if_pos h4] at h
          exact absurd h (by simp)
        · rw [if_neg h4] at h
          have hsplit : s = s.take (leadHex s) ++ s.drop (leadHex s) :=
            (List.take_append_drop _ s).symm
          have htk := not_mem47_take_leadHex s
          by_cases hv4 : s.drop (leadHex s) ≠ [] ∧ (s.drop (leadHex s)).headD 0 = 46
          · rw [if_pos hv4] at h
            by_cases he : ell = none ∧ i ≠ 12
            · rw [if_pos he] at h
              exact absurd h (by simp)
            · rw [if_neg he] at h
              by_cases h16 : 16 < i + 4
              · rw [if_pos h16] at h
                exact absurd h (by simp)
              · rw [if_neg h16] at h
                cases hp4 : parseIPv4 s with
                | none =>
                  rw [hp4] at h
                  exact absurd h (by simp)
                | some b4 => exact parseIPv4Aux_no47 s 0 [] 0 0 b4 hp4
          · rw [if_neg hv4] at h
            have hdone : 47 ∉ s.drop (leadHex s) → 47 ∉ s := by
              intro hdr hmem
              rw [hsplit] at hmem
              rcases List.mem_append.1 hmem with hmem | hmem
              · exact htk hmem
              · exact hdr hmem
            by_cases hs2 : s.drop (leadHex s) = []
            · rw [if_pos hs2] at h
              refine hdone ?_
              rw [hs2]
              exact List.not_mem_nil 47
            · rw [if_neg hs2] at h
              by_cases h58 : (s.drop (leadHex s)).headD 0 ≠ 58
              · rw [if_pos h58] at h
                exact absurd h (by simp)
              · rw [if_neg h58] at h
                have hh58 : (s.drop (leadHex s)).headD 0 = 58 := not_not.1 h58
                have hs2eq : s.drop (leadHex s) = 58 :: (s.drop (leadHex s)).drop 1 := by
                  conv_lhs => rw [cons_headD_drop _ hs2]
                  rw [hh58]
                by_cases hl1 : (s.drop (leadHex s)).length = 1
                · rw [if_pos hl1] at h
                  exact absurd h (by simp)
                · rw [if_neg hl1] at h
                  by_cases hdc : ((s.drop (leadHex s)).drop 1).headD 0 = 58
                  · rw [if_pos hdc] at h
                    have hs3ne : (s.drop (leadHex s)).drop 1 ≠ [] := by
                      intro hnil
                      rw [hnil] at hdc
                      exact absurd hdc (by decide)
                    have hs3eq : (s.drop (leadHex s)).drop 1
                        = 58 :: ((s.drop (leadHex s)).drop 1).drop 1 := by
                      conv_lhs => rw [cons_headD_drop _ hs3ne]
                      rw [hdc]
                    by_cases hell : ell ≠ none
                    · rw [if_pos hell] at h
                      exact absurd h (by simp)
                    · rw [if_neg hell] at h
                      have h47s4 : 47 ∉ ((s.drop (leadHex s)).drop 1).drop 1 := by
                        by_cases hs4 : ((s.drop (leadHex s)).drop 1).drop 1 = []
                        · rw [hs4]
                          exact List.not_mem_nil 47
                        · rw [if_neg hs4] at h
                          exact ih _ _ _ _ _ h
                      refine hdone ?_
                      rw [hs2eq, hs3eq]
                      intro hmem
                      rcases List.mem_cons.1 hmem with h58' | hmem
                      · exact absurd h58' (by decide)
                      · rcases List.mem_cons.1 hmem with h58' | hmem
                        · exact absurd h58' (by decide)
                        · exact h47s4 hmem
                  · rw [if_neg hdc] at h
                    have h47s3 : 47 ∉ (s.drop (leadHex s)).drop 1 := ih _ _ _ _ _ h
                    refine hdone ?_
                    rw [hs2eq]
                    intro hmem
                    rcases List.mem_cons.1 hmem with h58' | hmem
                    · exact absurd h58' (by decide)
                    · exact h47s3 hmem
    · rw [if_neg hi] at h
      have hs := parseIPv6Post_nil _ _ _ _ _ h
      rw [hs]
      exact List.not_mem_nil 47

theorem parseIPv6_no47 (s b : List Nat) (h : parseIPv6 s = some b) : 47 ∉ s := by
  unfold parseIPv6 at h
  by_cases hz : s.contains 37
  · rw [if_pos hz] at h
    exact absurd h (by simp)
  · rw [if_neg hz] at h
    by_cases hdd : 2 ≤ s.length ∧ s.headD 0 = 58 ∧ (s.drop 1).headD 0 = 58
    · rw [if_pos hdd] at h
      dsimp only at h
      have hne : s ≠ [] := by
        intro hnil
        rw [hnil] at hdd
        exact absurd hdd.1 (by decide)
      have hs1 : s = 58 :: s.drop 1 := by
        conv_lhs => rw [cons_headD_drop _ hne]
        rw [hdd.2.1]
      have hne2 : s.drop 1 ≠ [] := by
        intro hnil
        have := hdd.1
        rw [hs1, hnil] at this
        exact absurd this (by decide)
      have hs2 : s.drop 1 = 58 :: (s.drop 1).drop 1 := by
        conv_lhs => rw [cons_headD_drop _ hne2]
        rw [hdd.2.2]
      have hsd2 : s.drop 2 = (s.drop 1).drop 1 := (List.drop_drop 1 1 s).symm
      have h47 : 47 ∉ s.drop 2 := by
        by_cases hnil : s.drop 2 = []
        · rw [hnil]
          exact List.not_mem_nil 47
        · rw [if_neg hnil] at h
          exact parseIPv6Loop_no47 _ _ _ _ _ _ h
      rw [hs1, hs2]
      intro hmem
      rcases List.mem_cons.1 hmem with h58 | hmem
      · exact absurd h58 (by decide)
      · rcases List.mem_cons.1 hmem with h58 | hmem
        · exact absurd h58 (by decide)
        · rw [hsd2] at h47
          exact h47 hmem
    · rw [if_neg hdd] at h
      exact parseIPv6Loop_no47 _ _ _ _ _ _ h

theorem parseIPv6_shape (s b : List Nat) (h : parseIPv6 s = some b) :
    b.length = 16 ∧ wf b := by
  unfold parseIPv6 at h
  by_cases hz : s.contains 37
  · rw [if_pos hz] at h
    exact absurd h (by simp)
  · rw [if_neg hz] at h
    by_cases hdd : 2 ≤ s.length ∧ s.headD 0 = 58 ∧ (s.drop 1).headD 0 = 58
    · rw [if_pos hdd] at h
      dsimp only at h
      by_cases hnil : s.drop 2 = []
      · rw [if_pos hnil] at h
        injection h with h
        subst h
        refine ⟨by simp, ?_⟩
        intro x hx
        rw [List.eq_of_mem_replicate hx]
        omega
      · rw [if_neg hnil] at h
        exact parseIPv6Loop_shape _ _ _ _ _ _ h rfl
          (fun x hx => absurd hx (List.not_mem_nil x)) (by omega) (by omega)
    · rw [if_neg hdd] at h
      exact parseIPv6Loop_shape _ _ _ _ _ _ h rfl
        (fun x hx => absurd hx (List.not_mem_nil x)) (by omega) (by omega)

end SSHScan

namespace SSHScan

theorem parseAddr_no47 (s : List Nat) (a : Addr) (h : parseAddr s = some a) :
    47 ∉ s := by
  unfold parseAddr at h
  split at h
  · rcases Option.map_eq_some'.1 h with ⟨b, hb, _⟩
    exact parseIPv4_no47 s b hb
  · rcases Option.map_eq_some'.1 h with ⟨b, hb, _⟩
    exact parseIPv6_no47 s b hb
  · exact absurd h (by simp)

theorem parseAddr_shape (s : List Nat) (a : Addr) (h : parseAddr s = some a) :
    (addrSlice a).length = bitLen a / 8 ∧ wf (addrSlice a) := by
  unfold parseAddr at h
  split at h
  · rcases Option.map_eq_some'.1 h with ⟨b, hb, rfl⟩
    obtain ⟨hl, hw⟩ := parseIPv4_shape s b hb
    constructor
    · simp only [addrSlice, bitLen, hl]
    · simpa only [addrSlice] using hw
  · rcases Option.map_eq_some'.1 h with ⟨b, hb, rfl⟩
    obtain ⟨hl, hw⟩ := parseIPv6_shape s b hb
    constructor
    · simp only [addrSlice, bitLen, hl]
    · simpa only [addrSlice] using hw
  · exact absurd h (by simp)

theorem goMask_1616 (ip m : List Nat) (hip : ip.length = 16) (hm : m.length = 16) :
    goMask ip m = some (zipAND ip m) := by
  simp only [goMask]
  have c1 : ¬(m.length = 16 ∧ ip.length = 4 ∧
      (m.take 12).all (fun b => b == 255) = true) := by
    intro hc
    rw [hip] at hc
    exact absurd hc.2.1 (by decide)
  rw [if_neg c1]
  have c2 : ¬(m.length = 4 ∧ ip.length = 16 ∧ ip.take 12 = v4InV6Pfx) := by
    intro hc
    rw [hm] at hc
    exact absurd hc.1 (by decide)
  rw [if_neg c2, if_pos (hip.trans hm.symm)]

theorem bitLen_32 (a : Addr) : 32 ≤ bitLen a := by
  cases a with
  | v4 b => norm_num [bitLen]
  | v6 b => norm_num [bitLen]

theorem parseCIDR_append32 (s : List Nat) (a : Addr) (haddr : parseAddr s = some a) :
    parseCIDR (s ++ [47, 51, 50])
      = some (addrSlice a,
          ⟨zipAND (addrSlice a) (cidrMaskBytes (bitLen a / 8) 32),
            cidrMaskBytes (bitLen a / 8) 32⟩) := by
  have hno := parseAddr_no47 s a haddr
  have hidx : idxOf 47 (s ++ [47, 51, 50]) = some s.length :=
    idxOf_append_self 47 s [51, 50] hno
  have htake : (s ++ [47, 51, 50]).take s.length = s := List.take_left s _
  have hdrop : (s ++ [47, 51, 50]).drop (s.length + 1) = [51, 50] :=
    drop_append_len s [47, 51, 50] 1
  unfold parseCIDR
  rw [hidx]
  dsimp only
  rw [htake, hdrop, haddr]
  dsimp only
  have hcond : (dtoi [51, 50]).2.2 = true ∧ (dtoi [51, 50]).2.1 = ([51, 50] : List Nat).length ∧
      (dtoi [51, 50]).1 ≤ bitLen a := by
    refine ⟨by decide, by decide, ?_⟩
    have h := bitLen_32 a
    have hd : (dtoi [51, 50]).1 = 32 := by decide
    omega
  rw [if_pos hcond]
  have hd32 : (dtoi [51, 50]).1 = 32 := by decide
  rw [hd32]
  obtain ⟨hlen, hwfa⟩ := parseAddr_shape s a haddr
  cases a with
  | v4 b =>
    simp only [addrSlice, bitLen] at hlen hwfa ⊢
    norm_num at hlen
    rw [show (32 : Nat) / 8 = 4 by norm_num,
      goMask_44 _ _ hlen (cidrMaskBytes_length 4 32)]
    rfl
  | v6 b =>
    simp only [addrSlice, bitLen] at hlen hwfa ⊢
    norm_num at hlen
    rw [show (128 : Nat) / 8 = 16 by norm_num,
      goMask_1616 _ _ hlen (cidrMaskBytes_length 16 32)]
    rfl

theorem parseInput_bare (s : List Nat) (a : Addr)
    (hatoi : atoiOk s = false) (hcidr : parseCIDR s = none)
    (haddr : parseAddr s = some a) :
    parseInput s = some (as16 a,
      ⟨zipAND (addrSlice a) (cidrMaskBytes (bitLen a / 8) 32),
        cidrMaskBytes (bitLen a / 8) 32⟩) := by
  unfold parseInput
  rw [if_neg (show ¬(atoiOk s = true) by simp [hatoi])]
  dsimp only
  rw [hcidr]
  dsimp only
  unfold parseIP
  rw [haddr]
  dsimp only [Option.map_some']
  have hs32 : s2b "/32" = [47, 51, 50] := by decide
  rw [hs32, parseCIDR_append32 s a haddr]
  rfl

end SSHScan

namespace SSHScan

theorem and255 (b : Nat) (hb : b < 256) : b &&& 255 = b := by
  have h := and_mask_align (B := 8) (p := 8) hb (le_refl 8)
  norm_num at h
  exact h

theorem andFull32 {v : Nat} (hv : v < 2 ^ 32) : v &&& (2 ^ 32 - 1) = v := by
  have h := and_mask_align hv (le_refl 32)
  norm_num at h
  exact h

theorem zipAND_255 (b : List Nat) : wf b →
    zipAND b (List.replicate b.length 255) = b := by
  induction b with
  | nil => intro _; rfl
  | cons x rest ih =>
    intro hwf
    simp only [List.length_cons, List.replicate_succ, zipAND, List.zipWith_cons_cons]
    rw [and255 x (hwf x (List.mem_cons_self x rest))]
    have := ih (fun y hy => hwf y (List.mem_cons_of_mem x hy))
    rw [zipAND] at this
    rw [this]

theorem containsIP_full4 (b x : List Nat) (hb : b.length = 4) (hwb : wf b)
    (hx : x.length = 4) (hwx : wf x) :
    (containsIP ⟨b, [255, 255, 255, 255]⟩ x = true ↔ x = b) := by
  rw [containsIP_4_val b [255, 255, 255, 255] x hb (by decide) hx hwb (by decide) hwx]
  have hbv : toVal b < 2 ^ 32 := by
    have h := toVal_lt b hwb
    rwa [hb, pow_256_4] at h
  have hxv : toVal x < 2 ^ 32 := by
    have h := toVal_lt x hwx
    rwa [hx, pow_256_4] at h
  have hm : toVal [255, 255, 255, 255] = 2 ^ 32 - 1 := by decide
  rw [hm, andFull32 hbv, andFull32 hxv, decide_eq_true_eq]
  constructor
  · intro h
    exact toVal_inj hwx hwb (hx.trans hb.symm) h.symm
  · intro h
    rw [h]

theorem replicate_getD (n : Nat) (a d : Nat) (i : Nat) (h : i < n) :
    (List.replicate n a).getD i d = a := by
  induction n generalizing i with
  | zero => omega
  | succ n ih =>
    cases i with
    | zero => rfl
    | succ i => exact ih i (by omega)

theorem getD_take_lt (l : List Nat) (n i d : Nat) (h : i < n) :
    (l.take n).getD i d = l.getD i d := by
  induction l generalizing n i with
  | nil => simp
  | cons b rest ih =>
    cases n with
    | zero => omega
    | succ n =>
      cases i with
      | zero => rfl
      | succ i => exact ih n i (by omega)

theorem to4_none_of_byte10 (l : List Nat) (hl : l.length = 16)
    (h10 : l.getD 10 0 ≠ 255) : to4 l = none := by
  unfold to4
  rw [if_neg (by omega : ¬ l.length = 4)]
  rw [if_neg ?_]
  intro hc
  have h := congrArg (fun t => t.getD 10 0) hc.2
  simp only at h
  rw [getD_take_lt l 12 10 0 (by omega)] at h
  have hpfx : v4InV6Pfx.getD 10 0 = 255 := by decide
  rw [hpfx] at h
  exact h10 h

theorem zipAND_zero (l : List Nat) : ∀ n : Nat, l.length = n →
    zipAND l (List.replicate n 0) = List.replicate n 0 := by
  induction l with
  | nil =>
    intro n hn
    rw [← hn]
    rfl
  | cons x rest ih =>
    intro n hn
    cases n with
    | zero => simp at hn
    | succ n =>
      simp only [List.replicate_succ, zipAND, List.zipWith_cons_cons, Nat.and_zero]
      have := ih n (by simpa using hn)
      rw [zipAND] at this
      rw [this]

theorem zipAND_append (a b c d : List Nat) (h : a.length = c.length) :
    zipAND (a ++ b) (c ++ d) = zipAND a c ++ zipAND b d := by
  simp only [zipAND]
  exact List.zipWith_append _ a b c d h

/-- `IPNet.Contains` on a 16-byte network and candidate, neither v4-mapped:
masked byte-string comparison. -/
theorem containsIP_16 (b m x : List Nat) (hb : b.length = 16) (hm : m.length = 16)
    (hx : x.length = 16) (hb4 : to4 b = none) (hx4 : to4 x = none) :
    containsIP ⟨b, m⟩ x = decide (zipAND b m = zipAND x m) := by
  simp [containsIP, nnAndMask, hb4, hx4, hb, hm, hx]

/-- Membership in a 16-byte `/32` network whose base has its last 12 bytes
zero: any candidate agreeing on the first 4 bytes and not v4-mapped is
contained. -/
theorem containsIP_v6pfx32 (F t : List Nat) (hF : F.length = 4) (ht : t.length = 12)
    (ht6 : t.getD 6 0 ≠ 255) :
    containsIP ⟨F ++ List.replicate 12 0, [255, 255, 255, 255] ++ List.replicate 12 0⟩
      (F ++ t) = true := by
  have hBlen : (F ++ List.replicate 12 0).length = 16 := by
    rw [List.length_append, hF, List.length_replicate]
  have hxlen : (F ++ t).length = 16 := by
    rw [List.length_append, hF, ht]
  have hMlen : ([255, 255, 255, 255] ++ List.replicate 12 0 : List Nat).length = 16 := by
    rw [List.length_append, List.length_replicate]
    rfl
  have hB10 : (F ++ List.replicate 12 0).getD 10 0 ≠ 255 := by
    rw [List.getD_append_right _ _ _ _ (by omega), hF]
    decide
  have hx10 : (F ++ t).getD 10 0 ≠ 255 := by
    rw [List.getD_append_right _ _ _ _ (by omega), hF]
    have h6 : (10 : Nat) - 4 = 6 := by norm_num
    rw [h6]
    exact ht6
  have hto4B := to4_none_of_byte10 _ hBlen hB10
  have hto4x := to4_none_of_byte10 _ hxlen hx10
  have hz : zipAND (F ++ List.replicate 12 0)
        ([255, 255, 255, 255] ++ List.replicate 12 0)
      = zipAND (F ++ t) ([255, 255, 255, 255] ++ List.replicate 12 0) := by
    rw [zipAND_append _ _ _ _ (by rw [hF]; rfl),
      zipAND_append _ _ _ _ (by rw [hF]; rfl),
      zipAND_zero _ 12 (List.length_replicate 12 0), zipAND_zero _ 12 ht]
  rw [containsIP_16 _ _ _ hBlen hMlen hxlen hto4B hto4x, hz]
  simp

end SSHScan

namespace SSHScan

/-- C5 counterexample: the bare IPv6 address "::1" is accepted on the
bare-address path, but the appended "/32" does not cover the full 128-bit
width: the returned mask covers only the first 4 of 16 bytes, and the
returned range contains (at least) two distinct addresses. -/
theorem C5_cex :
    parseInput (s2b "::1")
      = some ([0, 0, 0, 0, 0, 0, 0, 0, 0, 0, 0, 0, 0, 0, 0, 1],
          ⟨[0, 0, 0, 0, 0, 0, 0, 0, 0, 0, 0, 0, 0, 0, 0, 0],
           [255, 255, 255, 255, 0, 0, 0, 0, 0, 0, 0, 0, 0, 0, 0, 0]⟩) ∧
    ([255, 255, 255, 255, 0, 0, 0, 0, 0, 0, 0, 0, 0, 0, 0, 0] : List Nat)
      ≠ List.replicate 16 255 ∧
    containsIP ⟨[0, 0, 0, 0, 0, 0, 0, 0, 0, 0, 0, 0, 0, 0, 0, 0],
        [255, 255, 255, 255, 0, 0, 0, 0, 0, 0, 0, 0, 0, 0, 0, 0]⟩
      [0, 0, 0, 0, 0, 0, 0, 0, 0, 0, 0, 0, 0, 0, 0, 0] = true ∧
    containsIP ⟨[0, 0, 0, 0, 0, 0, 0, 0, 0, 0, 0, 0, 0, 0, 0, 0],
        [255, 255, 255, 255, 0, 0, 0, 0, 0, 0, 0, 0, 0, 0, 0, 0]⟩
      [0, 0, 0, 0, 0, 0, 0, 0, 0, 0, 0, 0, 0, 0, 0, 1] = true ∧
    ([0, 0, 0, 0, 0, 0, 0, 0, 0, 0, 0, 0, 0, 0, 0, 1] : List Nat)
      ≠ [0, 0, 0, 0, 0, 0, 0, 0, 0, 0, 0, 0, 0, 0, 0, 0] := by
  exact ⟨by decide, by decide, by decide, by decide, by decide⟩

/-- C5 amended: a bare-address input (integer shorthand inapplicable, CIDR
parse fails, address parse succeeds) yields the parsed address with the
network of `input + "/32"`: for a 4-byte parse the mask covers the full
width and the range contains exactly that one address; for a 16-byte parse
the appended /32 covers only the first 4 of 16 bytes, so the range is not a
single address. -/
theorem C5_amended_bare (s : List Nat) (a : Addr)
    (hatoi : atoiOk s = false) (hcidr : parseCIDR s = none)
    (haddr : parseAddr s = some a) :
    parseInput s = some (as16 a,
      ⟨zipAND (addrSlice a) (cidrMaskBytes (bitLen a / 8) 32),
        cidrMaskBytes (bitLen a / 8) 32⟩) ∧
    (∀ b, a = Addr.v4 b →
      cidrMaskBytes (bitLen a / 8) 32 = List.replicate 4 255 ∧
      (∀ x, x.length = 4 → wf x →
        (containsIP ⟨zipAND (addrSlice a) (cidrMaskBytes (bitLen a / 8) 32),
            cidrMaskBytes (bitLen a / 8) 32⟩ x = true ↔ x = b))) ∧
    (∀ b, a = Addr.v6 b →
      cidrMaskBytes (bitLen a / 8) 32 ≠ List.replicate 16 255 ∧
      ∃ x y : List Nat, x ≠ y ∧
        containsIP ⟨zipAND (addrSlice a) (cidrMaskBytes (bitLen a / 8) 32),
          cidrMaskBytes (bitLen a / 8) 32⟩ x = true ∧
        containsIP ⟨zipAND (addrSlice a) (cidrMaskBytes (bitLen a / 8) 32),
          cidrMaskBytes (bitLen a / 8) 32⟩ y = true) := by
  obtain ⟨hlen, hwfa⟩ := parseAddr_shape s a haddr
  refine ⟨parseInput_bare s a hatoi hcidr haddr, ?_, ?_⟩
  · rintro b rfl
    simp only [addrSlice, bitLen] at hlen hwfa ⊢
    norm_num at hlen
    rw [show (32 : Nat) / 8 = 4 by norm_num]
    have hmask : cidrMaskBytes 4 32 = List.replicate 4 255 := by decide
    refine ⟨hmask, ?_⟩
    intro x hx hwx
    have hz : zipAND b (cidrMaskBytes 4 32) = b := by
      rw [hmask, ← hlen, zipAND_255 b hwfa]
    rw [hz, show cidrMaskBytes 4 32 = [255, 255, 255, 255] by decide]
    exact containsIP_full4 b x hlen hwfa hx hwx
  · rintro b rfl
    simp only [addrSlice, bitLen] at hlen hwfa ⊢
    norm_num at hlen
    rw [show (128 : Nat) / 8 = 16 by norm_num]
    refine ⟨by decide, ?_⟩
    have hFlen : (zipAND (b.take 4) [255, 255, 255, 255]).length = 4 := by
      rw [zipAND_length, List.length_take, hlen]
      rfl
    have hB : zipAND b (cidrMaskBytes 16 32)
        = zipAND (b.take 4) [255, 255, 255, 255] ++ List.replicate 12 0 := by
      rw [show cidrMaskBytes 16 32
          = [255, 255, 255, 255] ++ List.replicate 12 0 by decide]
      conv_lhs => rw [← List.take_append_drop 4 b]
      rw [zipAND_append _ _ _ _ (by rw [List.length_take, hlen]; rfl)]
      rw [zipAND_zero (b.drop 4) 12 (by rw [List.length_drop, hlen])]
    rw [hB]
    refine ⟨zipAND (b.take 4) [255, 255, 255, 255] ++ List.replicate 12 0,
      zipAND (b.take 4) [255, 255, 255, 255] ++ (List.replicate 11 0 ++ [1]),
      ?_, ?_, ?_⟩
    · intro heq
      have htl := List.append_cancel_left heq
      exact absurd htl (by decide)
    · exact containsIP_v6pfx32 _ _ hFlen (List.length_replicate 12 0) (by decide)
    · exact containsIP_v6pfx32 _ _ hFlen (by decide) (by decide)

/-- Witness for the amended C5 at the bare IPv4 address "9.9.9.9". -/
theorem C5_amended_bare_witness :
    parseInput (s2b "9.9.9.9") = some (as16 (Addr.v4 [9, 9, 9, 9]),
      ⟨zipAND (addrSlice (Addr.v4 [9, 9, 9, 9]))
          (cidrMaskBytes (bitLen (Addr.v4 [9, 9, 9, 9]) / 8) 32),
        cidrMaskBytes (bitLen (Addr.v4 [9, 9, 9, 9]) / 8) 32⟩) ∧
    (∀ b, Addr.v4 [9, 9, 9, 9] = Addr.v4 b →
      cidrMaskBytes (bitLen (Addr.v4 [9, 9, 9, 9]) / 8) 32 = List.replicate 4 255 ∧
      (∀ x, x.length = 4 → wf x →
        (containsIP ⟨zipAND (addrSlice (Addr.v4 [9, 9, 9, 9]))
            (cidrMaskBytes (bitLen (Addr.v4 [9, 9, 9, 9]) / 8) 32),
            cidrMaskBytes (bitLen (Addr.v4 [9, 9, 9, 9]) / 8) 32⟩ x = true ↔ x = b))) ∧
    (∀ b, Addr.v4 [9, 9, 9, 9] = Addr.v6 b →
      cidrMaskBytes (bitLen (Addr.v4 [9, 9, 9, 9]) / 8) 32 ≠ List.replicate 16 255 ∧
      ∃ x y : List Nat, x ≠ y ∧
        containsIP ⟨zipAND (addrSlice (Addr.v4 [9, 9, 9, 9]))
          (cidrMaskBytes (bitLen (Addr.v4 [9, 9, 9, 9]) / 8) 32),
          cidrMaskBytes (bitLen (Addr.v4 [9, 9, 9, 9]) / 8) 32⟩ x = true ∧
        containsIP ⟨zipAND (addrSlice (Addr.v4 [9, 9, 9, 9]))
          (cidrMaskBytes (bitLen (Addr.v4 [9, 9, 9, 9]) / 8) 32),
          cidrMaskBytes (bitLen (Addr.v4 [9, 9, 9, 9]) / 8) 32⟩ y = true) :=
  C5_amended_bare (s2b "9.9.9.9") (Addr.v4 [9, 9, 9, 9]) (by decide) (by decide)
    (by decide)

end SSHScan

namespace SSHScan

/-! Round-trip facts for the printers: digit strings of `uitoa` and
`appendHex`, and the parsers' behaviour on them. -/

theorem foldl10_ge (ds : List Nat) : ∀ a : Nat,
    a ≤ ds.foldl (fun x d => x * 10 + d) a := by
  induction ds with
  | nil => intro a; exact le_refl a
  | cons d ds ih =>
    intro a
    have h1 : a ≤ a * 10 + d := by omega
    exact le_trans h1 (ih (a * 10 + d))

theorem headD_append_left (l r : List Nat) (h : l ≠ []) :
    (l ++ r).headD 0 = l.headD 0 := by
  cases l with
  | nil => exact absurd rfl h
  | cons b rest => rfl

theorem uitoaAux_spec (fuel : Nat) : ∀ v acc, v < fuel →
    ∃ ds : List Nat, uitoaAux fuel v acc = ds.map (fun d => d + 48) ++ acc ∧
      ds ≠ [] ∧ (∀ d ∈ ds, d < 10) ∧
      ds.foldl (fun a d => a * 10 + d) 0 = v ∧
      (ds.headD 0 = 0 → v = 0) := by
  induction fuel with
  | zero => intro v acc h; omega
  | succ fuel ih =>
    intro v acc h
    rw [uitoaAux]
    by_cases hv : v < 10
    · rw [if_pos hv]
      refine ⟨[v], rfl, by simp, ?_, by simp, ?_⟩
      · intro d hd
        rw [List.mem_singleton.1 hd]
        exact hv
      · intro h0
        simpa using h0
    · rw [if_neg hv]
      have hlt : v / 10 < fuel := by
        have hd : v / 10 < v := Nat.div_lt_self (by omega) (by omega)
        omega
      obtain ⟨ds, heq, hne, hall, hfold, hhead⟩ := ih (v / 10) ((v % 10 + 48) :: acc) hlt
      refine ⟨ds ++ [v % 10], ?_, by simp, ?_, ?_, ?_⟩
      · rw [heq, List.map_append]
        simp
      · intro d hd
        rcases List.mem_append.1 hd with hd | hd
        · exact hall d hd
        · rw [List.mem_singleton.1 hd]
          omega
      · rw [List.foldl_append, hfold]
        simp only [List.foldl_cons, List.foldl_nil]
        omega
      · intro h0
        rw [headD_append_left ds [v % 10] hne] at h0
        have := hhead h0
        omega

theorem appendHexAux_spec (fuel : Nat) : ∀ v acc, v < fuel →
    ∃ ds : List Nat, appendHexAux fuel v acc = ds.map hexChar ++ acc ∧
      ds ≠ [] ∧ (∀ d ∈ ds, d < 16) ∧
      ds.foldl (fun a d => a * 16 + d) 0 = v ∧
      (ds.length = 1 ∨ 16 ^ (ds.length - 1) ≤ v) := by
  induction fuel with
  | zero => intro v acc h; omega
  | succ fuel ih =>
    intro v acc h
    rw [appendHexAux]
    by_cases hv : v < 16
    · rw [if_pos hv]
      refine ⟨[v], rfl, by simp, ?_, by simp, Or.inl rfl⟩
      intro d hd
      rw [List.mem_singleton.1 hd]
      exact hv
    · rw [if_neg hv]
      have hlt : v / 16 < fuel := by
        have hd : v / 16 < v := Nat.div_lt_self (by omega) (by omega)
        omega
      obtain ⟨ds, heq, hne, hall, hfold, hlen⟩ := ih (v / 16) (hexChar (v % 16) :: acc) hlt
      refine ⟨ds ++ [v % 16], ?_, by simp, ?_, ?_, ?_⟩
      · rw [heq, List.map_append]
        simp
      · intro d hd
        rcases List.mem_append.1 hd with hd | hd
        · exact hall d hd
        · rw [List.mem_singleton.1 hd]
          omega
      · rw [List.foldl_append, hfold]
        simp only [List.foldl_cons, List.foldl_nil]
        omega
      · right
        rw [List.length_append, List.length_singleton]
        have hdm : v / 16 * 16 ≤ v := Nat.div_mul_le_self v 16
        rcases hlen with h1 | h1
        · rw [h1]
          simpa using hv
        · have hds1 : 1 ≤ ds.length := by
            cases ds with
            | nil => exact absurd rfl hne
            | cons _ _ => simp
          have : 16 ^ (ds.length - 1) * 16 ≤ v / 16 * 16 := Nat.mul_le_mul_right 16 h1
          have hpow : 16 ^ (ds.length - 1) * 16 = 16 ^ ds.length := by
            rw [← pow_succ]
            congr 1
            omega
          have h2 : ds.length + 1 - 1 = ds.length := by omega
          rw [h2]
          omega

theorem uitoa_spec (v : Nat) :
    ∃ ds : List Nat, uitoa v = ds.map (fun d => d + 48) ∧
      ds ≠ [] ∧ (∀ d ∈ ds, d < 10) ∧
      ds.foldl (fun a d => a * 10 + d) 0 = v ∧
      (ds.headD 0 = 0 → v = 0) := by
  obtain ⟨ds, heq, hne, hall, hfold, hhead⟩ :=
    uitoaAux_spec (v + 1) v [] (Nat.lt_succ_self v)
  rw [List.append_nil] at heq
  exact ⟨ds, heq, hne, hall, hfold, hhead⟩

theorem appendHex_spec (v : Nat) :
    ∃ ds : List Nat, appendHex v = ds.map hexChar ∧
      ds ≠ [] ∧ (∀ d ∈ ds, d < 16) ∧
      ds.foldl (fun a d => a * 16 + d) 0 = v ∧
      (v < 65536 → ds.length ≤ 4) := by
  obtain ⟨ds, heq, hne, hall, hfold, hlen⟩ :=
    appendHexAux_spec (v + 1) v [] (Nat.lt_succ_self v)
  rw [List.append_nil] at heq
  refine ⟨ds, heq, hne, hall, hfold, ?_⟩
  intro hv
  rcases hlen with h1 | h1
  · omega
  · by_contra hgt
    have h5 : 4 ≤ ds.length - 1 := by omega
    have : (16 : Nat) ^ 4 ≤ 16 ^ (ds.length - 1) :=
      Nat.pow_le_pow_right (by omega) h5
    have h16 : (16 : Nat) ^ 4 = 65536 := by norm_num
    omega

end SSHScan

namespace SSHScan

theorem hexDigit_hexChar : ∀ d : Nat, d < 16 → hexDigit (hexChar d) = some d := by
  decide

theorem hexChar_not_special : ∀ d : Nat, d < 16 →
    hexChar d ≠ 46 ∧ hexChar d ≠ 47 ∧ hexChar d ≠ 58 ∧ hexChar d ≠ 37 := by
  decide

theorem dtoi_uitoa_le128 : ∀ p : Nat, p ≤ 128 →
    dtoi (uitoa p) = (p, (uitoa p).length, true) := by
  decide

theorem sml_cidr4 : ∀ p : Nat, p ≤ 32 →
    simpleMaskLength (cidrMaskBytes 4 p) = (p : Int) := by
  decide

theorem sml_cidr16 : ∀ p : Nat, p ≤ 128 →
    simpleMaskLength (cidrMaskBytes 16 p) = (p : Int) := by
  decide

theorem drop12_cidr16 : ∀ p : Nat, 96 ≤ p → p ≤ 128 →
    (cidrMaskBytes 16 p).drop 12 = cidrMaskBytes 4 (p - 96) := by
  decide

theorem byte11_cidr16 : ∀ p : Nat, p ≤ 128 →
    (cidrMaskBytes 16 p).getD 11 0 = 255 → 96 ≤ p := by
  decide

theorem hexAccAux_mapHexChar : ∀ ds : List Nat, ∀ (r : List Nat) (acc : Nat),
    (∀ d ∈ ds, d < 16) → (r = [] ∨ hexDigit (r.headD 0) = none) →
    hexAccAux (ds.map hexChar ++ r) acc = ds.foldl (fun a d => a * 16 + d) acc := by
  intro ds
  induction ds with
  | nil =>
    intro r acc _ hr
    rcases hr with rfl | hr
    · rfl
    · cases r with
      | nil => rfl
      | cons c rest =>
        simp only [List.headD_cons] at hr
        simp only [List.map_nil, List.nil_append, hexAccAux, hr, List.foldl_nil]
  | cons d ds ih =>
    intro r acc hall hr
    have hd := hexDigit_hexChar d (hall d (List.mem_cons_self d ds))
    simp only [List.map_cons, List.cons_append, hexAccAux, hd, List.foldl_cons]
    exact ih r (acc * 16 + d) (fun x hx => hall x (List.mem_cons_of_mem d hx)) hr

theorem leadHex_mapHexChar : ∀ ds : List Nat, ∀ r : List Nat,
    (∀ d ∈ ds, d < 16) → (r = [] ∨ hexDigit (r.headD 0) = none) →
    leadHex (ds.map hexChar ++ r) = ds.length := by
  intro ds
  induction ds with
  | nil =>
    intro r _ hr
    rcases hr with rfl | hr
    · rfl
    · cases r with
      | nil => rfl
      | cons c rest =>
        simp only [List.headD_cons] at hr
        simp only [List.map_nil, List.nil_append, leadHex, hr, List.length_nil]
  | cons d ds ih =>
    intro r hall hr
    have hd := hexDigit_hexChar d (hall d (List.mem_cons_self d ds))
    simp only [List.map_cons, List.cons_append, leadHex, hd, List.length_cons,
      List.append_eq]
    rw [ih r (fun x hx => hall x (List.mem_cons_of_mem d hx)) hr]

theorem hexAcc_appendHex (v : Nat) (r : List Nat)
    (hr : r = [] ∨ hexDigit (r.headD 0) = none) :
    hexAcc (appendHex v ++ r) = v := by
  obtain ⟨ds, heq, _, hall, hfold, _⟩ := appendHex_spec v
  rw [hexAcc, heq, hexAccAux_mapHexChar ds r 0 hall hr, hfold]

theorem leadHex_appendHex (v : Nat) (r : List Nat)
    (hr : r = [] ∨ hexDigit (r.headD 0) = none) :
    leadHex (appendHex v ++ r) = (appendHex v).length := by
  obtain ⟨ds, heq, _, hall, _, _⟩ := appendHex_spec v
  rw [heq, leadHex_mapHexChar ds r hall hr, List.length_map]

theorem appendHex_ne_nil (v : Nat) : appendHex v ≠ [] := by
  obtain ⟨ds, heq, hne, _, _, _⟩ := appendHex_spec v
  rw [heq]
  intro hcon
  exact hne (List.map_eq_nil.1 hcon)

theorem appendHex_len_le4 (v : Nat) (hv : v < 65536) : (appendHex v).length ≤ 4 := by
  obtain ⟨ds, heq, _, _, _, hlen⟩ := appendHex_spec v
  rw [heq, List.length_map]
  exact hlen hv

theorem appendHex_pos (v : Nat) : 0 < (appendHex v).length := by
  cases hA : appendHex v with
  | nil => exact absurd hA (appendHex_ne_nil v)
  | cons c rest => simp

theorem appendHex_mem (v : Nat) : ∀ c ∈ appendHex v, ∃ d, d < 16 ∧ c = hexChar d := by
  obtain ⟨ds, heq, _, hall, _, _⟩ := appendHex_spec v
  rw [heq]
  intro c hc
  obtain ⟨d, hd, rfl⟩ := List.mem_map.1 hc
  exact ⟨d, hall d hd, rfl⟩

theorem appendHex_headD_hex (v : Nat) (r : List Nat) :
    hexDigit ((appendHex v ++ r).headD 0) ≠ none := by
  cases hA : appendHex v with
  | nil => exact absurd hA (appendHex_ne_nil v)
  | cons c rest =>
    simp only [List.cons_append, List.headD_cons]
    have hc : c ∈ appendHex v := by
      rw [hA]
      exact List.mem_cons_self c rest
    obtain ⟨d, hd, rfl⟩ := appendHex_mem v c hc
    rw [hexDigit_hexChar d hd]
    simp

end SSHScan

namespace SSHScan

theorem uitoa_ne_nil (v : Nat) : uitoa v ≠ [] := by
  obtain ⟨ds, heq, hne, _, _, _⟩ := uitoa_spec v
  rw [heq]
  intro hcon
  exact hne (List.map_eq_nil.1 hcon)

theorem uitoa_pos (v : Nat) : 0 < (uitoa v).length := by
  cases hA : uitoa v with
  | nil => exact absurd hA (uitoa_ne_nil v)
  | cons c rest => simp

theorem uitoa_mem_digit (v : Nat) : ∀ c ∈ uitoa v, 48 ≤ c ∧ c ≤ 57 := by
  obtain ⟨ds, heq, _, hall, _, _⟩ := uitoa_spec v
  rw [heq]
  intro c hc
  obtain ⟨d, hd, rfl⟩ := List.mem_map.1 hc
  have := hall d hd
  omega

theorem parseIPv4Aux_digits : ∀ ds : List Nat,
    ∀ (r : List Nat) (pos : Nat) (fields : List Nat) (pval digLen : Nat),
    (∀ d ∈ ds, d < 10) → 0 < pval →
    ds.foldl (fun a d => a * 10 + d) pval ≤ 255 →
    parseIPv4Aux (ds.map (fun d => d + 48) ++ r) pos fields pval digLen
      = parseIPv4Aux r pos fields (ds.foldl (fun a d => a * 10 + d) pval)
          (digLen + ds.length) := by
  intro ds
  induction ds with
  | nil =>
    intro r pos fields pval digLen _ _ _
    simp
  | cons d ds ih =>
    intro r pos fields pval digLen hall hpos hle
    have hd : d < 10 := hall d (List.mem_cons_self d ds)
    have hge := foldl10_ge ds (pval * 10 + d)
    rw [List.foldl_cons] at hle
    simp only [List.map_cons, List.cons_append]
    rw [parseIPv4Aux]
    rw [if_pos (by omega : 48 ≤ d + 48 ∧ d + 48 ≤ 57)]
    rw [if_neg (by omega : ¬(digLen = 1 ∧ pval = 0))]
    have hsub : d + 48 - 48 = d := by omega
    rw [hsub]
    rw [if_neg (by omega : ¬ 255 < pval * 10 + d)]
    rw [ih r pos fields (pval * 10 + d) (digLen + 1)
      (fun x hx => hall x (List.mem_cons_of_mem d hx)) (by omega) hle]
    rw [List.foldl_cons, List.length_cons]
    congr 1
    omega

theorem parseIPv4Aux_uitoa (d : Nat) (hd : d ≤ 255) (r : List Nat) (pos : Nat)
    (fields : List Nat) :
    parseIPv4Aux (uitoa d ++ r) pos fields 0 0
      = parseIPv4Aux r pos fields d (uitoa d).length := by
  by_cases h0 : d = 0
  · subst h0
    show parseIPv4Aux (48 :: r) pos fields 0 0 = parseIPv4Aux r pos fields 0 1
    rw [parseIPv4Aux, if_pos (by omega : (48 : Nat) ≤ 48 ∧ (48 : Nat) ≤ 57),
      if_neg (by omega : ¬((0 : Nat) = 1 ∧ (0 : Nat) = 0)),
      if_neg (by omega : ¬(255 < 0 * 10 + (48 - 48)))]
  · obtain ⟨ds, heq, hne, hall, hfold, hhead⟩ := uitoa_spec d
    cases hds : ds with
    | nil => exact absurd hds hne
    | cons d0 ds' =>
      subst hds
      have hd0 : d0 < 10 := hall d0 (List.mem_cons_self d0 ds')
      have hd0pos : 0 < d0 := by
        rcases Nat.eq_zero_or_pos d0 with h | h
        · exact absurd (hhead (by simpa using h)) h0
        · exact h
      rw [heq]
      simp only [List.map_cons, List.cons_append]
      rw [parseIPv4Aux]
      rw [if_pos (by omega : 48 ≤ d0 + 48 ∧ d0 + 48 ≤ 57)]
      rw [if_neg (by omega : ¬((0 : Nat) = 1 ∧ (0 : Nat) = 0))]
      have hsub : 0 * 10 + (d0 + 48 - 48) = d0 := by omega
      rw [hsub]
      rw [List.foldl_cons] at hfold
      have hfold' : ds'.foldl (fun a d => a * 10 + d) d0 = d := by
        have h00 : (0 : Nat) * 10 + d0 = d0 := by omega
        rwa [h00] at hfold
      rw [if_neg (by omega : ¬ 255 < d0)]
      rw [parseIPv4Aux_digits ds' r pos fields d0 1
        (fun x hx => hall x (List.mem_cons_of_mem d0 hx)) hd0pos (by omega)]
      rw [hfold', List.length_cons, List.length_map]
      congr 1
      omega

end SSHScan

namespace SSHScan

theorem append_ne_nil_left (l r : List Nat) (h : l ≠ []) : l ++ r ≠ [] := by
  intro hcon
  exact h (List.append_eq_nil.1 hcon).1

theorem parseIPv4_dotted (q : List Nat) (hq : q.length = 4) (hwq : wf q) :
    parseIPv4 (dottedV4 q) = some q := by
  rcases q with _ | ⟨a, _ | ⟨b, _ | ⟨c, _ | ⟨d, rest⟩⟩⟩⟩ <;>
    simp only [List.length_nil, List.length_cons] at hq
  · omega
  · omega
  · omega
  · omega
  · have hrest : rest = [] := List.length_eq_zero.1 (by omega)
    subst hrest
    have ha : a ≤ 255 := by have := hwq a (by simp); omega
    have hb : b ≤ 255 := by have := hwq b (by simp); omega
    have hc : c ≤ 255 := by have := hwq c (by simp); omega
    have hd : d ≤ 255 := by have := hwq d (by simp); omega
    unfold parseIPv4
    simp only [dottedV4, List.append_assoc, List.cons_append]
    rw [parseIPv4Aux_uitoa a ha _ 0 []]
    rw [parseIPv4Aux,
      if_neg (by omega : ¬(48 ≤ 46 ∧ 46 ≤ 57)),
      if_pos rfl,
      if_neg (by have := uitoa_pos a; omega),
      if_neg (append_ne_nil_left _ _ (uitoa_ne_nil b)),
      if_neg (by omega : ¬(0 : Nat) = 3)]
    rw [parseIPv4Aux_uitoa b hb _ 1 ([] ++ [a])]
    rw [parseIPv4Aux,
      if_neg (by omega : ¬(48 ≤ 46 ∧ 46 ≤ 57)),
      if_pos rfl,
      if_neg (by have := uitoa_pos b; omega),
      if_neg (append_ne_nil_left _ _ (uitoa_ne_nil c)),
      if_neg (by omega : ¬(1 : Nat) = 3)]
    rw [parseIPv4Aux_uitoa c hc _ 2 ([] ++ [a] ++ [b])]
    rw [parseIPv4Aux,
      if_neg (by omega : ¬(48 ≤ 46 ∧ 46 ≤ 57)),
      if_pos rfl,
      if_neg (by have := uitoa_pos c; omega),
      if_neg (uitoa_ne_nil d),
      if_neg (by omega : ¬(2 : Nat) = 3)]
    rw [show uitoa d = uitoa d ++ [] by rw [List.append_nil]]
    rw [parseIPv4Aux_uitoa d hd [] 3 ([] ++ [a] ++ [b] ++ [c])]
    rw [parseIPv4Aux, if_pos rfl]
    simp

theorem firstSpecial_digits (l : List Nat) (r : List Nat)
    (h : ∀ c ∈ l, 48 ≤ c ∧ c ≤ 57) :
    firstSpecial (l ++ r) = firstSpecial r := by
  induction l with
  | nil => rfl
  | cons c rest ih =>
    have hc := h c (List.mem_cons_self c rest)
    simp only [List.cons_append, firstSpecial]
    rw [if_neg (by omega : ¬(c = 46 ∨ c = 58 ∨ c = 37))]
    exact ih (fun x hx => h x (List.mem_cons_of_mem c hx))

theorem firstSpecial_dotted (q : List Nat) (hq : q.length = 4) :
    firstSpecial (dottedV4 q) = some 46 := by
  rcases q with _ | ⟨a, _ | ⟨b, _ | ⟨c, _ | ⟨d, rest⟩⟩⟩⟩ <;>
    simp only [List.length_nil, List.length_cons] at hq
  · omega
  · omega
  · omega
  · omega
  · have hrest : rest = [] := List.length_eq_zero.1 (by omega)
    subst hrest
    simp only [dottedV4, List.append_assoc, List.cons_append]
    rw [firstSpecial_digits _ _ (uitoa_mem_digit a)]
    rw [firstSpecial, if_pos (Or.inl rfl)]

theorem dotted_mem (q : List Nat) (hq : q.length = 4) :
    ∀ c ∈ dottedV4 q, (48 ≤ c ∧ c ≤ 57) ∨ c = 46 := by
  rcases q with _ | ⟨a, _ | ⟨b, _ | ⟨c, _ | ⟨d, rest⟩⟩⟩⟩ <;>
    simp only [List.length_nil, List.length_cons] at hq
  · omega
  · omega
  · omega
  · omega
  · have hrest : rest = [] := List.length_eq_zero.1 (by omega)
    subst hrest
    intro x hx
    simp only [dottedV4, List.append_assoc, List.cons_append] at hx
    rcases List.mem_append.1 hx with h | h
    · exact Or.inl (uitoa_mem_digit a x h)
    · rcases List.mem_cons.1 h with rfl | h
      · exact Or.inr rfl
      · rcases List.mem_append.1 h with h | h
        · exact Or.inl (uitoa_mem_digit b x h)
        · rcases List.mem_cons.1 h with rfl | h
          · exact Or.inr rfl
          · rcases List.mem_append.1 h with h | h
            · exact Or.inl (uitoa_mem_digit c x h)
            · rcases List.mem_cons.1 h with rfl | h
              · exact Or.inr rfl
              · exact Or.inl (uitoa_mem_digit d x h)

theorem parseAddr_dotted (q : List Nat) (hq : q.length = 4) (hwq : wf q) :
    parseAddr (dottedV4 q) = some (Addr.v4 q) := by
  unfold parseAddr
  rw [firstSpecial_dotted q hq]
  dsimp only
  rw [parseIPv4_dotted q hq hwq]
  rfl

end SSHScan

namespace SSHScan

theorem wf_getD (q : List Nat) (hwq : wf q) (k : Nat) : q.getD k 0 < 256 := by
  by_cases hk : k < q.length
  · rw [List.getD_eq_getElem q 0 hk]
    exact hwq _ (List.getElem_mem hk)
  · rw [List.getD_eq_default q 0 (by omega)]
    omega

theorem group16_lt (q : List Nat) (hwq : wf q) (k : Nat) : group16 q k < 65536 := by
  have h1 := wf_getD q hwq k
  have h2 := wf_getD q hwq (k + 1)
  unfold group16
  omega

theorem group16_div (q : List Nat) (hwq : wf q) (k : Nat) :
    group16 q k / 256 = q.getD k 0 ∧ group16 q k % 256 = q.getD (k + 1) 0 := by
  have h2 := wf_getD q hwq (k + 1)
  unfold group16
  omega

theorem drop_cons2 (q : List Nat) (k : Nat) (hk : k + 1 < q.length) :
    q.drop k = q.getD k 0 :: q.getD (k + 1) 0 :: q.drop (k + 2) := by
  rw [List.drop_eq_getElem_cons (by omega : k < q.length),
    List.drop_eq_getElem_cons hk,
    List.getD_eq_getElem q 0 (by omega : k < q.length),
    List.getD_eq_getElem q 0 hk]

theorem take_add_two (q : List Nat) (k : Nat) (hk : k + 1 < q.length) :
    q.take (k + 2) = q.take k ++ [q.getD k 0, q.getD (k + 1) 0] := by
  have h1 : q.take (k + 1) = q.take k ++ [q.getD k 0] := by
    rw [← List.take_concat_get q k (by omega), List.concat_eq_append,
      List.getD_eq_getElem q 0 (by omega : k < q.length)]
  have h2 : q.take (k + 2) = q.take (k + 1) ++ [q.getD (k + 1) 0] := by
    rw [← List.take_concat_get q (k + 1) hk, List.concat_eq_append,
      List.getD_eq_getElem q 0 hk]
  rw [h2, h1, List.append_assoc]
  rfl

theorem drop_eq_replicate_zero (q : List Nat) (m : Nat) (hq16 : q.length = 16)
    (hm : m ≤ 16) (hz : ∀ k, m ≤ k → k < 16 → q.getD k 0 = 0) :
    q.drop m = List.replicate (16 - m) 0 := by
  apply List.eq_replicate.2
  constructor
  · rw [List.length_drop, hq16]
  · intro b hb
    obtain ⟨i, hi, hbi⟩ := List.mem_iff_getElem.1 hb
    rw [List.getElem_drop] at hbi
    have hlen : i < 16 - m := by
      have := List.length_drop m q
      rw [hq16] at this
      omega
    have := hz (m + i) (by omega) (by omega)
    rw [List.getD_eq_getElem q 0 (by omega)] at this
    rw [← hbi]
    exact this

theorem take_replicate_drop (q : List Nat) (m n : Nat) (hq16 : q.length = 16)
    (hmn : m ≤ n) (hn : n ≤ 16) (hz : ∀ k, m ≤ k → k < n → q.getD k 0 = 0) :
    q.take m ++ List.replicate (n - m) 0 ++ q.drop n = q := by
  have hmid : (q.drop m).take (n - m) = List.replicate (n - m) 0 := by
    apply List.eq_replicate.2
    constructor
    · rw [List.length_take, List.length_drop, hq16]
      omega
    · intro b hb
      have hb2 := List.mem_of_mem_take hb
      obtain ⟨i, hi, hbi⟩ := List.mem_iff_getElem.1 hb
      rw [List.length_take, List.length_drop, hq16] at hi
      rw [List.getElem_take, List.getElem_drop] at hbi
      have := hz (m + i) (by omega) (by omega)
      rw [List.getD_eq_getElem q 0 (by omega)] at this
      rw [← hbi]
      exact this
  have hdd : (q.drop m).drop (n - m) = q.drop n := by
    rw [List.drop_drop]
    congr 1
    omega
  conv_rhs => rw [← List.take_append_drop m q, ← List.take_append_drop (n - m) (q.drop m)]
  rw [hmid, hdd, List.append_assoc]

end SSHScan

namespace SSHScan

theorem zrunF_spec (fuel : Nat) : ∀ (p : List Nat) (j : Nat),
    j ≤ zrunF fuel p j ∧
    (2 ∣ j → 2 ∣ zrunF fuel p j) ∧
    (2 ∣ j → j ≤ 16 → zrunF fuel p j ≤ 16) ∧
    (∀ k, j ≤ k → k < zrunF fuel p j → p.getD k 0 = 0) := by
  induction fuel with
  | zero =>
    intro p j
    refine ⟨le_refl j, fun h => h, fun _ h => h, ?_⟩
    intro k h1 h2
    rw [zrunF] at h2
    omega
  | succ fuel ih =>
    intro p j
    rw [zrunF]
    by_cases hc : j < 16 ∧ p.getD j 0 = 0 ∧ p.getD (j + 1) 0 = 0
    · rw [if_pos hc]
      obtain ⟨ha, hb, hd, hz⟩ := ih p (j + 2)
      refine ⟨by omega, fun h2 => hb (by omega), fun hj2 h16 => hd (by omega) (by omega), ?_⟩
      intro k h1 h2
      by_cases hk : k < j + 2
      · rcases Nat.lt_or_ge k (j + 1) with hk1 | hk1
        · have : k = j := by omega
          rw [this]
          exact hc.2.1
        · have : k = j + 1 := by omega
          rw [this]
          exact hc.2.2
      · exact hz k (by omega) h2
    · rw [if_neg hc]
      refine ⟨le_refl j, fun h => h, fun _ h => h, ?_⟩
      intro k h1 h2
      omega

/-- The run bookkeeping of `bestRunF` is valid: the recorded pair is either
the `-1` markers or a genuine zero run with even byte endpoints. -/
def runOK (p : List Nat) (e0 e1 : Int) : Prop :=
  (e0 = -1 ∧ e1 = -1) ∨
    (0 ≤ e0 ∧ e0 < e1 ∧ e1 ≤ 16 ∧ 2 ∣ e0.toNat ∧ 2 ∣ e1.toNat ∧
      ∀ k : Nat, e0.toNat ≤ k → k < e1.toNat → p.getD k 0 = 0)

theorem bestRunF_spec (fuel : Nat) : ∀ (p : List Nat) (i : Nat) (e0 e1 : Int),
    2 ∣ i → runOK p e0 e1 →
    runOK p (bestRunF fuel p i e0 e1).1 (bestRunF fuel p i e0 e1).2 := by
  induction fuel with
  | zero =>
    intro p i e0 e1 _ hok
    rw [bestRunF]
    exact hok
  | succ fuel ih =>
    intro p i e0 e1 hdvd hok
    rw [bestRunF]
    by_cases hi : i < 16
    · rw [if_pos hi]
      obtain ⟨hz1, hz2, hz3, hz4⟩ := zrunF_spec 8 p i
      have hzr : zrunF 8 p i = zrun p i := rfl
      rw [hzr] at hz1 hz2 hz3 hz4
      have hze : 2 ∣ zrun p i := hz2 hdvd
      have h16 : zrun p i ≤ 16 := hz3 hdvd (by omega)
      by_cases hc : i < zrun p i ∧ e1 - e0 < (zrun p i : Int) - (i : Int)
      · rw [if_pos hc]
        apply ih p (zrun p i + 2) i (zrun p i) (by omega)
        right
        refine ⟨by omega, by exact_mod_cast hc.1, ?_, ?_, ?_, ?_⟩
        · exact_mod_cast h16
        · rw [Int.toNat_natCast]
          exact hdvd
        · rw [Int.toNat_natCast]
          exact hz2 hdvd
        · intro k h1 h2
          rw [Int.toNat_natCast] at h1 h2
          exact hz4 k h1 h2
      · rw [if_neg hc]
        exact ih p (i + 2) e0 e1 (by omega) hok
    · rw [if_neg hi]
      exact hok

theorem bestRun_spec (p : List Nat) :
    runOK p (bestRun p).1 (bestRun p).2 ∧
      ((bestRun p).1 ≠ -1 → 2 < (bestRun p).2 - (bestRun p).1) := by
  unfold bestRun
  have h := bestRunF_spec 9 p 0 (-1) (-1) (by omega) (Or.inl ⟨rfl, rfl⟩)
  by_cases hc : (bestRunF 9 p 0 (-1) (-1)).2 - (bestRunF 9 p 0 (-1) (-1)).1 ≤ 2
  · rw [if_pos hc]
    exact ⟨Or.inl ⟨rfl, rfl⟩, fun hne => absurd rfl hne⟩
  · rw [if_neg hc]
    exact ⟨h, fun _ => by omega⟩

end SSHScan

namespace SSHScan

theorem asm_ge16 (fa : Nat) (q : List Nat) (e0 e1 : Int) (i : Nat) (h : 16 ≤ i) :
    v6AssembleF fa q e0 e1 i = [] := by
  cases fa with
  | zero => rfl
  | succ fa => rw [v6AssembleF, if_neg (by omega)]

theorem asm_step_plain (fa : Nat) (q : List Nat) (e0 e1 : Int) (i : Nat)
    (h0 : 0 < i) (h16 : i < 16) (hne : (i : Int) ≠ e0) :
    v6AssembleF (fa + 1) q e0 e1 i
      = 58 :: (appendHex (group16 q i) ++ v6AssembleF fa q e0 e1 (i + 2)) := by
  rw [v6AssembleF, if_pos h16, if_neg hne, if_pos h0]
  rfl

theorem asm_step_zero (fa : Nat) (q : List Nat) (e0 e1 : Int)
    (hne : ((0 : Nat) : Int) ≠ e0) :
    v6AssembleF (fa + 1) q e0 e1 0
      = appendHex (group16 q 0) ++ v6AssembleF fa q e0 e1 2 := by
  rw [v6AssembleF, if_pos (by omega : (0 : Nat) < 16), if_neg hne,
    if_neg (by omega : ¬(0 : Nat) < 0)]
  rfl

theorem asm_at_e0_end (fa : Nat) (q : List Nat) (e0 e1 : Int) (i : Nat)
    (h16 : i < 16) (heq : (i : Int) = e0) (he1 : 16 ≤ e1) :
    v6AssembleF (fa + 1) q e0 e1 i = [58, 58] := by
  rw [v6AssembleF, if_pos h16, if_pos heq, if_pos he1]

theorem asm_at_e0_mid (fa : Nat) (q : List Nat) (e0 e1 : Int) (i : Nat)
    (h16 : i < 16) (heq : (i : Int) = e0) (he1 : e1 < 16) :
    v6AssembleF (fa + 1) q e0 e1 i
      = 58 :: 58 :: (appendHex (group16 q e1.toNat)
          ++ v6AssembleF fa q e0 e1 (e1.toNat + 2)) := by
  rw [v6AssembleF, if_pos h16, if_pos heq, if_neg (by omega : ¬ 16 ≤ e1)]

theorem asm_head58 (fa : Nat) (q : List Nat) (e0 e1 : Int) (i : Nat)
    (h0 : 0 < i) (h16 : i < 16) :
    ∃ rest, v6AssembleF (fa + 1) q e0 e1 i = 58 :: rest := by
  by_cases heq : (i : Int) = e0
  · by_cases he1 : 16 ≤ e1
    · exact ⟨[58], asm_at_e0_end fa q e0 e1 i h16 heq he1⟩
    · exact ⟨_, asm_at_e0_mid fa q e0 e1 i h16 heq (by omega)⟩
  · exact ⟨_, asm_step_plain fa q e0 e1 i h0 h16 heq⟩

theorem asm_mem (q : List Nat) (e0 e1 : Int) : ∀ (fa i : Nat),
    ∀ c ∈ v6AssembleF fa q e0 e1 i, c = 58 ∨ ∃ d, d < 16 ∧ c = hexChar d := by
  intro fa
  induction fa with
  | zero =>
    intro i c hc
    exact absurd hc (List.not_mem_nil c)
  | succ fa ih =>
    intro i c hc
    by_cases h16 : i < 16
    · by_cases heq : (i : Int) = e0
      · by_cases he1 : 16 ≤ e1
        · rw [asm_at_e0_end fa q e0 e1 i h16 heq he1] at hc
          rcases List.mem_cons.1 hc with rfl | hc
          · exact Or.inl rfl
          · rcases List.mem_cons.1 hc with rfl | hc
            · exact Or.inl rfl
            · exact absurd hc (List.not_mem_nil c)
        · rw [asm_at_e0_mid fa q e0 e1 i h16 heq (by omega)] at hc
          rcases List.mem_cons.1 hc with rfl | hc
          · exact Or.inl rfl
          · rcases List.mem_cons.1 hc with rfl | hc
            · exact Or.inl rfl
            · rcases List.mem_append.1 hc with hc | hc
              · exact Or.inr (appendHex_mem _ c hc)
              · exact ih _ c hc
      · by_cases h0 : 0 < i
        · rw [asm_step_plain fa q e0 e1 i h0 h16 heq] at hc
          rcases List.mem_cons.1 hc with rfl | hc
          · exact Or.inl rfl
          · rcases List.mem_append.1 hc with hc | hc
            · exact Or.inr (appendHex_mem _ c hc)
            · exact ih _ c hc
        · have hi0 : i = 0 := by omega
          subst hi0
          rw [asm_step_zero fa q e0 e1 heq] at hc
          rcases List.mem_append.1 hc with hc | hc
          · exact Or.inr (appendHex_mem _ c hc)
          · exact ih _ c hc
    · rw [asm_ge16 _ q e0 e1 i (by omega)] at hc
      exact absurd hc (List.not_mem_nil c)

theorem asm_len_norun (q : List Nat) (e0 e1 : Int) : ∀ (fa i : Nat),
    e0 < (i : Int) → 2 ∣ i → 16 - i ≤ 2 * fa →
    (16 - i) / 2 ≤ (v6AssembleF fa q e0 e1 i).length := by
  intro fa
  induction fa with
  | zero =>
    intro i _ _ hfa
    omega
  | succ fa ih =>
    intro i he hdvd hfa
    by_cases h16 : i < 16
    · have hne : (i : Int) ≠ e0 := by omega
      by_cases h0 : 0 < i
      · rw [asm_step_plain fa q e0 e1 i h0 h16 hne]
        have := ih (i + 2) (by push_cast; omega) (by omega) (by omega)
        have hx := appendHex_pos (group16 q i)
        simp only [List.length_cons, List.length_append]
        omega
      · have hi0 : i = 0 := by omega
        subst hi0
        rw [asm_step_zero fa q e0 e1 (by omega)]
        have := ih 2 (by push_cast; omega) (by omega) (by omega)
        have hx := appendHex_pos (group16 q 0)
        simp only [List.length_append]
        omega
    · omega

theorem asm_len_run (q : List Nat) (e0 e1 : Int) (hv0 : 0 ≤ e0) (hv1 : e0 < e1)
    (hv2 : e1 ≤ 16) (hv3 : 2 ∣ e0.toNat) (hv4 : 2 ∣ e1.toNat) : ∀ (fa i : Nat),
    2 ∣ i → i ≤ e0.toNat → 16 - i ≤ 2 * fa →
    (e0.toNat - i) / 2 + (16 - e1.toNat) / 2 + 2
      ≤ (v6AssembleF fa q e0 e1 i).length := by
  intro fa
  induction fa with
  | zero =>
    intro i _ hie hfa
    omega
  | succ fa ih =>
    intro i hdvd hie hfa
    have h16 : i < 16 := by omega
    by_cases heq : (i : Int) = e0
    · by_cases he1 : 16 ≤ e1
      · rw [asm_at_e0_end fa q e0 e1 i h16 heq he1]
        have : e1.toNat = 16 := by omega
        simp only [List.length_cons, List.length_nil]
        omega
      · rw [asm_at_e0_mid fa q e0 e1 i h16 heq (by omega)]
        have he1n : e1.toNat < 16 := by omega
        have he0n : (i : Nat) = e0.toNat := by omega
        have hnr := asm_len_norun q e0 e1 fa (e1.toNat + 2) (by omega) ?_ (by omega)
        · have hx := appendHex_pos (group16 q e1.toNat)
          simp only [List.length_cons, List.length_append]
          omega
        · omega
    · have hlt : i < e0.toNat := by omega
      by_cases h0 : 0 < i
      · rw [asm_step_plain fa q e0 e1 i h0 h16 heq]
        have := ih (i + 2) (by omega) (by omega) (by omega)
        have hx := appendHex_pos (group16 q i)
        simp only [List.length_cons, List.length_append]
        omega
      · have hi0 : i = 0 := by omega
        subst hi0
        rw [asm_step_zero fa q e0 e1 (by omega)]
        have := ih 2 (by omega) (by omega) (by omega)
        have hx := appendHex_pos (group16 q 0)
        simp only [List.length_append]
        omega

end SSHScan

namespace SSHScan

theorem loop_tail (q : List Nat) (e0 e1 : Int) (hq16 : q.length = 16) (hwq : wf q) :
    ∀ (fp fa j i : Nat) (ell : Option Nat) (ip : List Nat),
    j < 16 → 2 ∣ j → 2 ∣ i → i ≤ j → e0 < (j : Int) →
    16 - j ≤ 2 * fa → (16 - j) / 2 < fp →
    parseIPv6Loop fp (appendHex (group16 q j) ++ v6AssembleF fa q e0 e1 (j + 2))
        i ell ip
      = parseIPv6Post (ip ++ q.drop j) (i + (16 - j)) ell [] := by
  intro fp
  induction fp with
  | zero =>
    intro fa j i ell ip _ _ _ _ _ _ hfp
    omega
  | succ fp ih =>
    intro fa j i ell ip hj16 hjd hid hij he0 hfa hfp
    have hglt := group16_lt q hwq j
    obtain ⟨hdiv, hmod⟩ := group16_div q hwq j
    obtain ⟨fa', rfl⟩ : ∃ fa', fa = fa' + 1 := ⟨fa - 1, by omega⟩
    rw [parseIPv6Loop, if_pos (by omega : i < 16)]
    by_cases hend : j = 14
    · subst hend
      rw [show (14 : Nat) + 2 = 16 from rfl,
        asm_ge16 (fa' + 1) q e0 e1 16 (le_refl 16), List.append_nil]
      have hlead : leadHex (appendHex (group16 q 14))
          = (appendHex (group16 q 14)).length := by
        have h := leadHex_appendHex (group16 q 14) [] (Or.inl rfl)
        rwa [List.append_nil] at h
      have hacc : hexAcc (appendHex (group16 q 14)) = group16 q 14 := by
        have h := hexAcc_appendHex (group16 q 14) [] (Or.inl rfl)
        rwa [List.append_nil] at h
      rw [hlead, hacc]
      rw [if_neg (by have := appendHex_pos (group16 q 14); omega)]
      rw [if_neg (by have := appendHex_len_le4 (group16 q 14) hglt; omega)]
      rw [List.drop_length]
      rw [if_neg (by simp)]
      rw [if_pos rfl]
      rw [hdiv, hmod]
      rw [drop_cons2 q 14 (by omega), List.drop_eq_nil_of_le (by rw [hq16])]
    · have hj2 : j + 2 < 16 := by omega
      have hstep := asm_step_plain fa' q e0 e1 (j + 2) (by omega) hj2
        (by push_cast; omega)
      rw [hstep]
      set R := appendHex (group16 q (j + 2)) ++ v6AssembleF fa' q e0 e1 (j + 2 + 2)
        with hR
      have hhr : (58 :: R : List Nat) = []
          ∨ hexDigit ((58 :: R : List Nat).headD 0) = none := by
        right
        rw [List.headD_cons]
        decide
      have hlead : leadHex (appendHex (group16 q j) ++ 58 :: R)
          = (appendHex (group16 q j)).length :=
        leadHex_appendHex (group16 q j) (58 :: R) hhr
      have hacc : hexAcc (appendHex (group16 q j) ++ 58 :: R) = group16 q j :=
        hexAcc_appendHex (group16 q j) (58 :: R) hhr
      rw [hlead, hacc]
      rw [if_neg (by have := appendHex_pos (group16 q j); omega)]
      rw [if_neg (by have := appendHex_len_le4 (group16 q j) hglt; omega)]
      rw [List.drop_left]
      rw [if_neg (by simp)]
      rw [if_neg (by simp)]
      rw [if_neg (by simp)]
      rw [if_neg (by
        simp only [List.length_cons]
        have hRne : R ≠ [] := append_ne_nil_left _ _ (appendHex_ne_nil _)
        intro hcon
        apply hRne
        cases hRc : R with
        | nil => rfl
        | cons x xs =>
          rw [hRc] at hcon
          simp at hcon)]
      rw [show ((58 :: R : List Nat).drop 1) = R from rfl]
      rw [if_neg (by
        have h1 := appendHex_headD_hex (group16 q (j + 2))
          (v6AssembleF fa' q e0 e1 (j + 2 + 2))
        rw [← hR] at h1
        intro hcon
        rw [hcon] at h1
        exact h1 (by decide))]
      rw [hR, hdiv, hmod]
      rw [ih fa' (j + 2) (i + 2) ell (ip ++ [q.getD j 0, q.getD (j + 1) 0]) hj2
        (by omega) (by omega) (by omega) (by push_cast; omega) (by omega) (by omega)]
      rw [List.append_assoc,
        show ([q.getD j 0, q.getD (j + 1) 0] ++ q.drop (j + 2) : List Nat)
          = q.drop j from (drop_cons2 q j (by omega)).symm]
      have harith : i + 2 + (16 - (j + 2)) = i + (16 - j) := by omega
      rw [harith]

end SSHScan

namespace SSHScan

theorem post_full (ip : List Nat) : parseIPv6Post ip 16 none [] = some ip := by
  unfold parseIPv6Post
  rw [if_neg (by simp), if_neg (by omega : ¬ (16 : Nat) < 16)]

theorem post_ell (ip : List Nat) (i e : Nat) (hi : i < 16) :
    parseIPv6Post ip i (some e) []
      = some (ip.take e ++ List.replicate (16 - i) 0 ++ ip.drop e) := by
  unfold parseIPv6Post
  rw [if_neg (by simp), if_pos hi]

theorem loop_prerun (q : List Nat) (e0 e1 : Int) (hq16 : q.length = 16)
    (hwq : wf q) (hv0 : 0 ≤ e0) (hv1 : e0 < e1) (hv2 : e1 ≤ 16)
    (hv3 : 2 ∣ e0.toNat) (hv4 : 2 ∣ e1.toNat)
    (hz : ∀ k : Nat, e0.toNat ≤ k → k < e1.toNat → q.getD k 0 = 0)
    (hgap : 2 < e1 - e0) :
    ∀ (fp fa j : Nat), 2 ∣ j → j < e0.toNat → 16 - j ≤ 2 * fa →
    (e0.toNat - j) / 2 + (16 - e1.toNat) / 2 + 2 ≤ fp →
    parseIPv6Loop fp (appendHex (group16 q j) ++ v6AssembleF fa q e0 e1 (j + 2))
        j none (q.take j)
      = some q := by
  have he0n : ((e0.toNat : Int)) = e0 := Int.toNat_of_nonneg hv0
  have he1n : ((e1.toNat : Int)) = e1 := Int.toNat_of_nonneg (by omega)
  have he01 : e0.toNat < e1.toNat := by omega
  have he112 : e1.toNat ≤ 16 := by omega
  have he012 : e0.toNat + 2 < e1.toNat := by omega
  intro fp
  induction fp with
  | zero =>
    intro fa j _ _ _ hfp
    omega
  | succ fp ih =>
    intro fa j hjd hje0 hfa hfp
    have hj16 : j < 16 := by omega
    have hglt := group16_lt q hwq j
    obtain ⟨hdiv, hmod⟩ := group16_div q hwq j
    obtain ⟨fa', rfl⟩ : ∃ fa', fa = fa' + 1 := ⟨fa - 1, by omega⟩
    rw [parseIPv6Loop, if_pos hj16]
    have htake2 : q.take j ++ [q.getD j 0, q.getD (j + 1) 0] = q.take (j + 2) :=
      (take_add_two q j (by omega)).symm
    by_cases hhit : j + 2 = e0.toNat
    · have hcast : ((j + 2 : Nat) : Int) = e0 := by
        rw [← he0n, hhit]
      by_cases he116 : 16 ≤ e1
      · have hA := asm_at_e0_end fa' q e0 e1 (j + 2) (by omega) hcast he116
        rw [hA]
        have hhr : ([58, 58] : List Nat) = []
            ∨ hexDigit (([58, 58] : List Nat).headD 0) = none := by
          right
          decide
        rw [leadHex_appendHex (group16 q j) [58, 58] hhr,
          hexAcc_appendHex (group16 q j) [58, 58] hhr]
        rw [if_neg (by have := appendHex_pos (group16 q j); omega)]
        rw [if_neg (by have := appendHex_len_le4 (group16 q j) hglt; omega)]
        rw [List.drop_left]
        rw [if_neg (by simp)]
        rw [if_neg (by simp)]
        rw [if_neg (by simp)]
        rw [if_neg (by simp)]
        rw [show (([58, 58] : List Nat).drop 1) = [58] from rfl]
        rw [if_pos (by simp : ([58] : List Nat).headD 0 = 58)]
        rw [if_neg (by simp : ¬ (none : Option Nat) ≠ none)]
        rw [show (([58] : List Nat).drop 1) = [] from rfl]
        rw [if_pos rfl]
        rw [hdiv, hmod, htake2, hhit]
        rw [post_ell _ _ _ (by omega)]
        have hlen : (q.take e0.toNat).length = e0.toNat := by
          rw [List.length_take, hq16]
          omega
        rw [List.take_take, min_self]
        rw [List.drop_eq_nil_of_le (by omega), List.append_nil]
        have he16 : e1.toNat = 16 := by omega
        have hrec := take_replicate_drop q e0.toNat 16 hq16 (by omega) (le_refl 16)
          (by intro k h1 h2; exact hz k h1 (by omega))
        rw [List.drop_eq_nil_of_le (by rw [hq16]), List.append_nil] at hrec
        rw [hrec]
      · have hA := asm_at_e0_mid fa' q e0 e1 (j + 2) (by omega) hcast (by omega)
        rw [hA]
        set T := appendHex (group16 q e1.toNat)
          ++ v6AssembleF fa' q e0 e1 (e1.toNat + 2) with hT
        have hhr : (58 :: 58 :: T : List Nat) = []
            ∨ hexDigit ((58 :: 58 :: T : List Nat).headD 0) = none := by
          right
          rw [List.headD_cons]
          decide
        rw [leadHex_appendHex (group16 q j) (58 :: 58 :: T) hhr,
          hexAcc_appendHex (group16 q j) (58 :: 58 :: T) hhr]
        rw [if_neg (by have := appendHex_pos (group16 q j); omega)]
        rw [if_neg (by have := appendHex_len_le4 (group16 q j) hglt; omega)]
        rw [List.drop_left]
        rw [if_neg (by simp)]
        rw [if_neg (by simp)]
        rw [if_neg (by simp)]
        rw [if_neg (by simp)]
        rw [show ((58 :: 58 :: T : List Nat).drop 1) = 58 :: T from rfl]
        rw [if_pos (by simp : (58 :: T : List Nat).headD 0 = 58)]
        rw [if_neg (by simp : ¬ (none : Option Nat) ≠ none)]
        rw [show ((58 :: T : List Nat).drop 1) = T from rfl]
        rw [if_neg (append_ne_nil_left _ _ (appendHex_ne_nil _))]
        rw [hdiv, hmod, htake2, hhit, hT]
        rw [loop_tail q e0 e1 hq16 hwq fp fa' e1.toNat e0.toNat (some e0.toNat)
          (q.take e0.toNat) (by omega) hv4 hv3 (by omega) (by omega) (by omega)
          (by omega)]
        rw [post_ell _ _ _ (by omega)]
        have hlen : (q.take e0.toNat).length = e0.toNat := by
          rw [List.length_take, hq16]
          omega
        rw [List.take_left' hlen, List.drop_left' hlen]
        have hcount : 16 - (e0.toNat + (16 - e1.toNat)) = e1.toNat - e0.toNat := by
          omega
        rw [hcount]
        rw [take_replicate_drop q e0.toNat e1.toNat hq16 (by omega) (by omega) hz]
    · have hlt2 : j + 2 < e0.toNat := by omega
      have hstep := asm_step_plain fa' q e0 e1 (j + 2) (by omega) (by omega)
        (by rw [← he0n]; push_cast; omega)
      rw [hstep]
      set R := appendHex (group16 q (j + 2)) ++ v6AssembleF fa' q e0 e1 (j + 2 + 2)
        with hR
      have hhr : (58 :: R : List Nat) = []
          ∨ hexDigit ((58 :: R : List Nat).headD 0) = none := by
        right
        rw [List.headD_cons]
        decide
      rw [leadHex_appendHex (group16 q j) (58 :: R) hhr,
        hexAcc_appendHex (group16 q j) (58 :: R) hhr]
      rw [if_neg (by have := appendHex_pos (group16 q j); omega)]
      rw [if_neg (by have := appendHex_len_le4 (group16 q j) hglt; omega)]
      rw [List.drop_left]
      rw [if_neg (by simp)]
      rw [if_neg (by simp)]
      rw [if_neg (by simp)]
      rw [if_neg (by
        simp only [List.length_cons]
        have hRne : R ≠ [] := append_ne_nil_left _ _ (appendHex_ne_nil _)
        intro hcon
        apply hRne
        cases hRc : R with
        | nil => rfl
        | cons x xs =>
          rw [hRc] at hcon
          simp at hcon)]
      rw [show ((58 :: R : List Nat).drop 1) = R from rfl]
      rw [if_neg (by
        have h1 := appendHex_headD_hex (group16 q (j + 2))
          (v6AssembleF fa' q e0 e1 (j + 2 + 2))
        rw [← hR] at h1
        intro hcon
        rw [hcon] at h1
        exact h1 (by decide))]
      rw [hdiv, hmod, htake2, hR]
      exact ih fa' (j + 2) (by omega) hlt2 (by omega) (by omega)

end SSHScan

namespace SSHScan

theorem appendHex_headD_ne58 (v : Nat) (r : List Nat) :
    (appendHex v ++ r).headD 0 ≠ 58 := by
  intro h
  apply appendHex_headD_hex v r
  rw [h]
  decide

theorem no37_of_inventory (s : List Nat)
    (h : ∀ c ∈ s, c = 58 ∨ ∃ d, d < 16 ∧ c = hexChar d) :
    ¬ s.contains 37 = true := by
  intro hc
  have hm : (37 : Nat) ∈ s := by simpa using hc
  rcases h 37 hm with h58 | ⟨d, hd, hch⟩
  · omega
  · exact absurd hch.symm (hexChar_not_special d hd).2.2.2

theorem parseIPv6_v6String (q : List Nat) (hq16 : q.length = 16) (hwq : wf q) :
    parseIPv6 (v6String q) = some q := by
  obtain ⟨hok, hgap⟩ := bestRun_spec q
  unfold v6String
  rcases hok with ⟨h0, h1⟩ | ⟨hv0, hv1, hv2, hv3, hv4, hz⟩
  · rw [h0, h1]
    rw [show (9 : Nat) = 8 + 1 from rfl,
      asm_step_zero 8 q (-1) (-1) (by norm_num)]
    have hmem : ∀ c ∈ appendHex (group16 q 0) ++ v6AssembleF 8 q (-1) (-1) 2,
        c = 58 ∨ ∃ d, d < 16 ∧ c = hexChar d := by
      intro c hc
      rcases List.mem_append.1 hc with hc | hc
      · exact Or.inr (appendHex_mem _ c hc)
      · exact asm_mem q (-1) (-1) 8 2 c hc
    unfold parseIPv6
    rw [if_neg (no37_of_inventory _ hmem)]
    rw [if_neg (by
      intro hcon
      exact appendHex_headD_ne58 (group16 q 0) _ hcon.2.1)]
    have hlenA := asm_len_norun q (-1) (-1) 8 2 (by norm_num) (by omega) (by omega)
    have hlenH := appendHex_pos (group16 q 0)
    have hloop := loop_tail q (-1) (-1) hq16 hwq
      ((appendHex (group16 q 0) ++ v6AssembleF 8 q (-1) (-1) 2).length + 1)
      8 0 0 none [] (by omega) (dvd_zero 2) (dvd_zero 2) (le_refl 0)
      (by norm_num) (by omega)
      (by rw [List.length_append]; omega)
    simp only [List.nil_append, List.drop_zero, Nat.zero_add, Nat.sub_zero] at hloop
    rw [hloop, post_full]
  · have hne1 : (bestRun q).1 ≠ -1 := by omega
    have hgap2 := hgap hne1
    have he0n : (((bestRun q).1.toNat : Int)) = (bestRun q).1 :=
      Int.toNat_of_nonneg hv0
    have he1n : (((bestRun q).2.toNat : Int)) = (bestRun q).2 :=
      Int.toNat_of_nonneg (by omega)
    by_cases he00 : (bestRun q).1.toNat = 0
    · have he0z : (bestRun q).1 = 0 := by omega
      by_cases he116 : 16 ≤ (bestRun q).2
      · have he1z : (bestRun q).2.toNat = 16 := by omega
        rw [show (9 : Nat) = 8 + 1 from rfl,
          asm_at_e0_end 8 q _ _ 0 (by omega) (by rw [he0z]; norm_num) he116]
        unfold parseIPv6
        rw [if_neg (by decide), if_pos (by decide), if_pos (by decide)]
        have hq0 : q = List.replicate 16 0 := by
          have h := drop_eq_replicate_zero q 0 hq16 (by omega)
            (fun k h1 h2 => hz k (by omega) (by omega))
          rwa [List.drop_zero] at h
        rw [hq0]
      · rw [show (9 : Nat) = 8 + 1 from rfl,
          asm_at_e0_mid 8 q _ _ 0 (by omega) (by rw [he0z]; norm_num) (by omega)]
        have he1pos : 0 < (bestRun q).2.toNat := by omega
        have he1lt : (bestRun q).2.toNat < 16 := by omega
        have hmem : ∀ c ∈ (58 :: 58 :: (appendHex (group16 q (bestRun q).2.toNat)
            ++ v6AssembleF 8 q (bestRun q).1 (bestRun q).2 ((bestRun q).2.toNat + 2))),
            c = 58 ∨ ∃ d, d < 16 ∧ c = hexChar d := by
          intro c hc
          rcases List.mem_cons.1 hc with rfl | hc
          · exact Or.inl rfl
          · rcases List.mem_cons.1 hc with rfl | hc
            · exact Or.inl rfl
            · rcases List.mem_append.1 hc with hc | hc
              · exact Or.inr (appendHex_mem _ c hc)
              · exact asm_mem q _ _ 8 _ c hc
        unfold parseIPv6
        rw [if_neg (no37_of_inventory _ hmem)]
        rw [if_pos (by
          refine ⟨by simp, rfl, rfl⟩)]
        rw [show ((58 :: 58 :: (appendHex (group16 q (bestRun q).2.toNat)
            ++ v6AssembleF 8 q (bestRun q).1 (bestRun q).2
              ((bestRun q).2.toNat + 2)) : List Nat).drop 2)
          = appendHex (group16 q (bestRun q).2.toNat)
            ++ v6AssembleF 8 q (bestRun q).1 (bestRun q).2
              ((bestRun q).2.toNat + 2) from rfl]
        rw [if_neg (append_ne_nil_left _ _ (appendHex_ne_nil _))]
        have hlenA := asm_len_norun q (bestRun q).1 (bestRun q).2 8
          ((bestRun q).2.toNat + 2) (by push_cast; omega) (by omega) (by omega)
        have hlenH := appendHex_pos (group16 q (bestRun q).2.toNat)
        have hloop := loop_tail q (bestRun q).1 (bestRun q).2 hq16 hwq
          ((appendHex (group16 q (bestRun q).2.toNat)
            ++ v6AssembleF 8 q (bestRun q).1 (bestRun q).2
              ((bestRun q).2.toNat + 2)).length + 1)
          8 (bestRun q).2.toNat 0 (some 0) [] he1lt hv4 (dvd_zero 2) (by omega)
          (by push_cast; omega) (by omega)
          (by rw [List.length_append]; omega)
        rw [hloop]
        rw [post_ell _ _ _ (by omega)]
        simp only [List.nil_append, List.take_zero, List.drop_zero]
        have hcount : 16 - (0 + (16 - (bestRun q).2.toNat)) = (bestRun q).2.toNat := by
          omega
        rw [hcount]
        have hrec := take_replicate_drop q 0 (bestRun q).2.toNat hq16 (by omega)
          (by omega) (fun k h1 h2 => hz k (by omega) h2)
        rw [List.take_zero, List.nil_append, Nat.sub_zero] at hrec
        rw [hrec]
    · have he0pos : 0 < (bestRun q).1.toNat := by omega
      have he0ge2 : 2 ≤ (bestRun q).1.toNat := by omega
      rw [show (9 : Nat) = 8 + 1 from rfl,
        asm_step_zero 8 q _ _ (by push_cast; omega)]
      have hmem : ∀ c ∈ appendHex (group16 q 0)
          ++ v6AssembleF 8 q (bestRun q).1 (bestRun q).2 2,
          c = 58 ∨ ∃ d, d < 16 ∧ c = hexChar d := by
        intro c hc
        rcases List.mem_append.1 hc with hc | hc
        · exact Or.inr (appendHex_mem _ c hc)
        · exact asm_mem q _ _ 8 2 c hc
      unfold parseIPv6
      rw [if_neg (no37_of_inventory _ hmem)]
      rw [if_neg (by
        intro hcon
        exact appendHex_headD_ne58 (group16 q 0) _ hcon.2.1)]
      have hlenA := asm_len_run q (bestRun q).1 (bestRun q).2 hv0 hv1 hv2 hv3 hv4
        8 2 (by omega) (by omega) (by omega)
      have hlenH := appendHex_pos (group16 q 0)
      have hloop := loop_prerun q (bestRun q).1 (bestRun q).2 hq16 hwq hv0 hv1
        hv2 hv3 hv4 hz hgap2
        ((appendHex (group16 q 0)
          ++ v6AssembleF 8 q (bestRun q).1 (bestRun q).2 2).length + 1)
        8 0 (dvd_zero 2) he0pos (by omega)
        (by rw [List.length_append]; omega)
      simp only [Nat.zero_add, List.take_zero] at hloop
      rw [hloop]

end SSHScan

namespace SSHScan

theorem mem58_v6String (q : List Nat) : 58 ∈ v6String q := by
  unfold v6String
  by_cases heq : ((0 : Nat) : Int) = (bestRun q).1
  · by_cases he1 : 16 ≤ (bestRun q).2
    · rw [show (9 : Nat) = 8 + 1 from rfl,
        asm_at_e0_end 8 q _ _ 0 (by omega) heq he1]
      simp
    · rw [show (9 : Nat) = 8 + 1 from rfl,
        asm_at_e0_mid 8 q _ _ 0 (by omega) heq (by omega)]
      simp
  · rw [show (9 : Nat) = 8 + 1 from rfl, asm_step_zero 8 q _ _ heq]
    obtain ⟨rest, hrest⟩ := asm_head58 7 q (bestRun q).1 (bestRun q).2 2
      (by omega) (by omega)
    rw [hrest]
    simp

theorem v6String_inventory (q : List Nat) :
    ∀ c ∈ v6String q, c = 58 ∨ ∃ d, d < 16 ∧ c = hexChar d := by
  unfold v6String
  intro c hc
  exact asm_mem q _ _ 9 0 c hc

theorem firstSpecial_hex58 (l : List Nat)
    (hinv : ∀ c ∈ l, c = 58 ∨ ∃ d, d < 16 ∧ c = hexChar d) (hmem : 58 ∈ l) :
    firstSpecial l = some 58 := by
  induction l with
  | nil => exact absurd hmem (List.not_mem_nil 58)
  | cons c rest ih =>
    rcases hinv c (List.mem_cons_self c rest) with rfl | ⟨d, hd, rfl⟩
    · rw [firstSpecial, if_pos (by omega)]
    · have hns := hexChar_not_special d hd
      rw [firstSpecial, if_neg (by
        rintro (h | h | h)
        · exact hns.1 h
        · exact hns.2.2.1 h
        · exact hns.2.2.2 h)]
      apply ih
      · intro x hx
        exact hinv x (List.mem_cons_of_mem _ hx)
      · rcases List.mem_cons.1 hmem with h58 | h
        · exact absurd h58.symm hns.2.2.1
        · exact h

theorem no47_v6String (q : List Nat) : 47 ∉ v6String q := by
  intro h
  rcases v6String_inventory q 47 h with h58 | ⟨d, hd, hch⟩
  · omega
  · exact (hexChar_not_special d hd).2.1 hch.symm

theorem no47_dotted (q : List Nat) (hq : q.length = 4) : 47 ∉ dottedV4 q := by
  intro h
  rcases dotted_mem q hq 47 h with hdig | h46 <;> omega

theorem parseAddr_v6String (q : List Nat) (hq16 : q.length = 16) (hwq : wf q) :
    parseAddr (v6String q) = some (Addr.v6 q) := by
  unfold parseAddr
  rw [firstSpecial_hex58 _ (v6String_inventory q) (mem58_v6String q)]
  dsimp only
  rw [parseIPv6_v6String q hq16 hwq]
  rfl

theorem zipAND_idem (b : List Nat) : ∀ m : List Nat,
    zipAND (zipAND b m) m = zipAND b m := by
  induction b with
  | nil => intro m; rfl
  | cons x bs ih =>
    intro m
    cases m with
    | nil => rfl
    | cons y ms =>
      simp only [zipAND, List.zipWith_cons_cons]
      rw [Nat.and_assoc, Nat.and_self]
      have h := ih ms
      simp only [zipAND] at h
      rw [h]

theorem zipAND_drop (b : List Nat) : ∀ (m : List Nat) (n : Nat),
    (zipAND b m).drop n = zipAND (b.drop n) (m.drop n) := by
  induction b with
  | nil =>
    intro m n
    simp [zipAND]
  | cons x bs ih =>
    intro m n
    cases m with
    | nil => simp [zipAND]
    | cons y ms =>
      cases n with
      | zero => rfl
      | succ n =>
        simp only [zipAND, List.zipWith_cons_cons, List.drop_succ_cons]
        exact ih ms n


theorem atoiOk_false_of_47 (s : List Nat) (h : 47 ∈ s) : atoiOk s = false := by
  unfold atoiOk
  cases s with
  | nil => rfl
  | cons c rest =>
    dsimp only
    by_cases hc : c = 43 ∨ c = 45
    · rw [if_pos hc]
      have h47 : (47 : Nat) ∈ rest := by
        rcases List.mem_cons.1 h with rfl | h2
        · omega
        · exact h2
      have hall : allDigits rest = false :=
        List.all_eq_false.2 ⟨47, h47, by decide⟩
      rw [hall]
      simp
    · rw [if_neg hc]
      have hall : allDigits (c :: rest) = false :=
        List.all_eq_false.2 ⟨47, h, by decide⟩
      rw [hall]
      simp

end SSHScan

namespace SSHScan

theorem parseCIDR_split (s1 s2 : List Nat) (a : Addr) (p : Nat)
    (h47 : 47 ∉ s1) (haddr : parseAddr s1 = some a)
    (hdt : dtoi s2 = (p, s2.length, true)) (hple : p ≤ bitLen a) :
    parseCIDR (s1 ++ 47 :: s2)
      = some (addrSlice a,
          ⟨zipAND (addrSlice a) (cidrMaskBytes (bitLen a / 8) p),
            cidrMaskBytes (bitLen a / 8) p⟩) := by
  have hidx : idxOf 47 (s1 ++ 47 :: s2) = some s1.length :=
    idxOf_append_self 47 s1 s2 h47
  have htake : (s1 ++ 47 :: s2).take s1.length = s1 := List.take_left s1 _
  have hdrop : (s1 ++ 47 :: s2).drop (s1.length + 1) = s2 :=
    drop_append_len s1 (47 :: s2) 1
  unfold parseCIDR
  rw [hidx]
  dsimp only
  rw [htake, hdrop, haddr]
  dsimp only
  have hcond : (dtoi s2).2.2 = true ∧ (dtoi s2).2.1 = s2.length ∧
      (dtoi s2).1 ≤ bitLen a := by
    rw [hdt]
    exact ⟨rfl, rfl, hple⟩
  rw [if_pos hcond, hdt]
  dsimp only
  obtain ⟨hlen, hwfa⟩ := parseAddr_shape s1 a haddr
  cases a with
  | v4 b =>
    simp only [addrSlice, bitLen] at hlen hwfa ⊢
    norm_num at hlen
    rw [show (32 : Nat) / 8 = 4 by norm_num,
      goMask_44 _ _ hlen (cidrMaskBytes_length 4 p)]
    rfl
  | v6 b =>
    simp only [addrSlice, bitLen] at hlen hwfa ⊢
    norm_num at hlen
    rw [show (128 : Nat) / 8 = 16 by norm_num,
      goMask_1616 _ _ hlen (cidrMaskBytes_length 16 p)]
    rfl

theorem parseInput_of_cidr (s : List Nat) (r : List Nat × IPNet)
    (hatoi : atoiOk s = false) (hcidr : parseCIDR s = some r) :
    parseInput s = some r := by
  unfold parseInput
  rw [if_neg (show ¬(atoiOk s = true) by simp [hatoi])]
  dsimp only
  rw [hcidr]

theorem to4_some_4 (b : List Nat) (hb : b.length = 4) : to4 b = some b := by
  unfold to4
  rw [if_pos hb]

theorem to4_16_inv (b ip4 : List Nat) (hb : b.length = 16)
    (h : to4 b = some ip4) : b.take 12 = v4InV6Pfx ∧ ip4 = b.drop 12 := by
  unfold to4 at h
  rw [if_neg (by omega : ¬ b.length = 4)] at h
  by_cases hc : b.length = 16 ∧ b.take 12 = v4InV6Pfx
  · rw [if_pos hc] at h
    injection h with h
    exact ⟨hc.2, h.symm⟩
  · rw [if_neg hc] at h
    exact absurd h (by simp)

theorem nnAndMask_44 (b m : List Nat) (hb : b.length = 4) (hm : m.length = 4) :
    nnAndMask ⟨b, m⟩ = some (b, m) := by
  unfold nnAndMask
  dsimp only
  rw [to4_some_4 b hb]
  dsimp only
  rw [if_pos hm, if_pos hb]

theorem nnAndMask_16none (b m : List Nat) (hb : b.length = 16)
    (hm : m.length = 16) (h4 : to4 b = none) :
    nnAndMask ⟨b, m⟩ = some (b, m) := by
  unfold nnAndMask
  dsimp only
  rw [h4]
  dsimp only
  rw [if_pos hb]
  dsimp only
  rw [if_neg (by omega : ¬ m.length = 4), if_pos hm,
    if_neg (by omega : ¬ b.length = 4)]

theorem nnAndMask_16some (b m ip4 : List Nat) (hm : m.length = 16)
    (h4 : to4 b = some ip4) (hip4 : ip4.length = 4) :
    nnAndMask ⟨b, m⟩ = some (ip4, m.drop 12) := by
  unfold nnAndMask
  dsimp only
  rw [h4]
  dsimp only
  rw [if_neg (by omega : ¬ m.length = 4), if_pos hm, if_pos hip4]

theorem ipString_4 (b : List Nat) (hb : b.length = 4) : ipString b = dottedV4 b := by
  unfold ipString
  rw [if_neg (by
    intro hcon
    rw [hcon] at hb
    simp at hb)]
  rw [to4_some_4 b hb]

theorem ipString_16 (b : List Nat) (hb : b.length = 16) (h4 : to4 b = none) :
    ipString b = v6String b := by
  unfold ipString
  rw [if_neg (by
    intro hcon
    rw [hcon] at hb
    simp at hb)]
  rw [h4]
  dsimp only
  rw [if_neg (by omega)]

theorem ipNetString_eval (net : IPNet) (nn m : List Nat) (p : Nat)
    (hnn : nnAndMask net = some (nn, m)) (hsml : simpleMaskLength m = (p : Int)) :
    ipNetString net = ipString nn ++ 47 :: uitoa p := by
  unfold ipNetString
  rw [hnn]
  dsimp only
  rw [hsml]
  rw [if_neg (by omega : ¬ ((p : Nat) : Int) = -1)]
  rw [Int.toNat_natCast]

theorem zipAND_getD (b m : List Nat) (k : Nat) (hkb : k < b.length)
    (hkm : k < m.length) :
    (zipAND b m).getD k 0 = b.getD k 0 &&& m.getD k 0 := by
  have hkz : k < (zipAND b m).length := by
    rw [zipAND_length]
    omega
  rw [List.getD_eq_getElem _ 0 hkz, List.getD_eq_getElem _ 0 hkb,
    List.getD_eq_getElem _ 0 hkm]
  simp only [zipAND]
  rw [List.getElem_zipWith]

end SSHScan

namespace SSHScan

theorem parseCIDR_net_shape (s : List Nat) (ip : List Nat) (net : IPNet)
    (h : parseCIDR s = some (ip, net)) :
    ∃ (b : List Nat) (L p : Nat), (L = 4 ∨ L = 16) ∧ b.length = L ∧ wf b ∧
      p ≤ 8 * L ∧
      net = ⟨zipAND b (cidrMaskBytes L p), cidrMaskBytes L p⟩ := by
  unfold parseCIDR at h
  split at h
  · exact absurd h (by simp)
  · rename_i i hidx
    dsimp only at h
    split at h
    · exact absurd h (by simp)
    · rename_i a haddr
      split at h
      · rename_i hcond
        rcases Option.map_eq_some'.1 h with ⟨nw, hgo, heq⟩
        obtain ⟨hlen, hwfa⟩ := parseAddr_shape _ a haddr
        injection heq with heq1 heq2
        cases a with
        | v4 b =>
          simp only [addrSlice, bitLen] at hlen hwfa hgo heq2 hcond
          norm_num at hlen
          rw [show (32 : Nat) / 8 = 4 by norm_num] at hgo heq2
          rw [goMask_44 _ _ hlen (cidrMaskBytes_length 4 _)] at hgo
          injection hgo with hgo
          refine ⟨b, 4, (dtoi (s.drop (i + 1))).1, Or.inl rfl, hlen, hwfa,
            by omega, ?_⟩
          rw [← heq2, ← hgo]
        | v6 b =>
          simp only [addrSlice, bitLen] at hlen hwfa hgo heq2 hcond
          norm_num at hlen
          rw [show (128 : Nat) / 8 = 16 by norm_num] at hgo heq2
          rw [goMask_1616 _ _ hlen (cidrMaskBytes_length 16 _)] at hgo
          injection hgo with hgo
          refine ⟨b, 16, (dtoi (s.drop (i + 1))).1, Or.inr rfl, hlen, hwfa,
            by omega, ?_⟩
          rw [← heq2, ← hgo]
      · exact absurd h (by simp)

theorem parseInput_net_shape (s : List Nat) (ip : List Nat) (net : IPNet)
    (h : parseInput s = some (ip, net)) :
    ∃ (s' : List Nat) (ip' : List Nat), parseCIDR s' = some (ip', net) := by
  unfold parseInput at h
  dsimp only at h
  split at h
  · rename_i r hcidr
    obtain ⟨ip0, net0⟩ := r
    injection h with h
    injection h with h1 h2
    subst h2
    exact ⟨_, ip0, hcidr⟩
  · rename_i hcidr
    split at h
    · rename_i ip0 hip
      rcases Option.map_eq_some'.1 h with ⟨r2, hr2, heq⟩
      obtain ⟨ip1, net1⟩ := r2
      injection heq with heq1 heq2
      subst heq2
      exact ⟨_, ip1, hr2⟩
    · exact absurd h (by simp)

theorem mask16_byte11_le : ∀ p : Nat, p ≤ 128 →
    (cidrMaskBytes 16 p).getD 11 0 ≤ 255 := by
  decide

theorem reparse_net (b : List Nat) (L p : Nat) (hL : L = 4 ∨ L = 16)
    (hb : b.length = L) (hwb : wf b) (hp : p ≤ 8 * L) (net : IPNet)
    (hnet : net = ⟨zipAND b (cidrMaskBytes L p), cidrMaskBytes L p⟩) :
    ∃ ip2 net2, parseInput (ipNetString net) = some (ip2, net2) ∧
      nnAndMask net2 = nnAndMask net ∧
      (L = 4 → net2 = net) ∧
      (L = 16 → to4 net.ip = none → net2 = net) := by
  have hMlen : (cidrMaskBytes L p).length = L := cidrMaskBytes_length L p
  have hnnlen : (zipAND b (cidrMaskBytes L p)).length = L := by
    rw [zipAND_length, hb, hMlen, Nat.min_self]
  have hwnn : wf (zipAND b (cidrMaskBytes L p)) := zipAND_wf b _ hwb
  subst hnet
  rcases hL with rfl | rfl
  · have hnm : nnAndMask ⟨zipAND b (cidrMaskBytes 4 p), cidrMaskBytes 4 p⟩
        = some (zipAND b (cidrMaskBytes 4 p), cidrMaskBytes 4 p) :=
      nnAndMask_44 _ _ hnnlen hMlen
    have hps : ipNetString ⟨zipAND b (cidrMaskBytes 4 p), cidrMaskBytes 4 p⟩
        = dottedV4 (zipAND b (cidrMaskBytes 4 p)) ++ 47 :: uitoa p := by
      rw [ipNetString_eval _ _ _ p hnm (sml_cidr4 p (by omega)),
        ipString_4 _ hnnlen]
    have hcidr := parseCIDR_split (dottedV4 (zipAND b (cidrMaskBytes 4 p)))
      (uitoa p) (Addr.v4 (zipAND b (cidrMaskBytes 4 p))) p
      (no47_dotted _ hnnlen)
      (parseAddr_dotted _ hnnlen hwnn)
      (dtoi_uitoa_le128 p (by omega))
      (by simp only [bitLen]; omega)
    simp only [addrSlice, bitLen] at hcidr
    rw [show (32 : Nat) / 8 = 4 by norm_num] at hcidr
    rw [zipAND_idem] at hcidr
    have h47 : (47 : Nat) ∈ dottedV4 (zipAND b (cidrMaskBytes 4 p)) ++ 47 :: uitoa p :=
      List.mem_append.2 (Or.inr (List.mem_cons_self _ _))
    refine ⟨zipAND b (cidrMaskBytes 4 p),
      ⟨zipAND b (cidrMaskBytes 4 p), cidrMaskBytes 4 p⟩, ?_, rfl,
      fun _ => rfl, fun h _ => absurd h (by omega)⟩
    rw [hps]
    exact parseInput_of_cidr _ _ (atoiOk_false_of_47 _ h47) hcidr
  · have hp128 : p ≤ 128 := by omega
    cases h4 : to4 (zipAND b (cidrMaskBytes 16 p)) with
    | none =>
      have hnm : nnAndMask ⟨zipAND b (cidrMaskBytes 16 p), cidrMaskBytes 16 p⟩
          = some (zipAND b (cidrMaskBytes 16 p), cidrMaskBytes 16 p) :=
        nnAndMask_16none _ _ hnnlen hMlen h4
      have hps : ipNetString ⟨zipAND b (cidrMaskBytes 16 p), cidrMaskBytes 16 p⟩
          = v6String (zipAND b (cidrMaskBytes 16 p)) ++ 47 :: uitoa p := by
        rw [ipNetString_eval _ _ _ p hnm (sml_cidr16 p hp128),
          ipString_16 _ hnnlen h4]
      have hcidr := parseCIDR_split (v6String (zipAND b (cidrMaskBytes 16 p)))
        (uitoa p) (Addr.v6 (zipAND b (cidrMaskBytes 16 p))) p
        (no47_v6String _)
        (parseAddr_v6String _ hnnlen hwnn)
        (dtoi_uitoa_le128 p hp128)
        (by simp only [bitLen]; omega)
      simp only [addrSlice, bitLen] at hcidr
      rw [show (128 : Nat) / 8 = 16 by norm_num] at hcidr
      rw [zipAND_idem] at hcidr
      have h47 : (47 : Nat) ∈ v6String (zipAND b (cidrMaskBytes 16 p)) ++ 47 :: uitoa p :=
        List.mem_append.2 (Or.inr (List.mem_cons_self _ _))
      refine ⟨zipAND b (cidrMaskBytes 16 p),
        ⟨zipAND b (cidrMaskBytes 16 p), cidrMaskBytes 16 p⟩, ?_, rfl,
        fun h => absurd h (by omega), fun _ _ => rfl⟩
      rw [hps]
      exact parseInput_of_cidr _ _ (atoiOk_false_of_47 _ h47) hcidr
    | some ip4 =>
      obtain ⟨htake, hip4⟩ := to4_16_inv _ ip4 hnnlen h4
      have hip4len : ip4.length = 4 := by
        rw [hip4, List.length_drop, hnnlen]
      have hsplit : v4InV6Pfx ++ ip4 = zipAND b (cidrMaskBytes 16 p) := by
        rw [← htake, hip4]
        exact List.take_append_drop 12 _
      have h11 : (zipAND b (cidrMaskBytes 16 p)).getD 11 0 = 255 := by
        rw [← hsplit]
        rfl
      have hz11 : (zipAND b (cidrMaskBytes 16 p)).getD 11 0
          = b.getD 11 0 &&& (cidrMaskBytes 16 p).getD 11 0 :=
        zipAND_getD b _ 11 (by omega) (by omega)
      have hle : b.getD 11 0 &&& (cidrMaskBytes 16 p).getD 11 0
          ≤ (cidrMaskBytes 16 p).getD 11 0 := Nat.and_le_right
      have hm11le : (cidrMaskBytes 16 p).getD 11 0 ≤ 255 := mask16_byte11_le p hp128
      have hm11 : (cidrMaskBytes 16 p).getD 11 0 = 255 := by omega
      have hp96 : 96 ≤ p := byte11_cidr16 p hp128 hm11
      have hdrop12 : (cidrMaskBytes 16 p).drop 12 = cidrMaskBytes 4 (p - 96) :=
        drop12_cidr16 p hp96 hp128
      have hnm : nnAndMask ⟨zipAND b (cidrMaskBytes 16 p), cidrMaskBytes 16 p⟩
          = some (ip4, (cidrMaskBytes 16 p).drop 12) :=
        nnAndMask_16some _ _ ip4 hMlen h4 hip4len
      have hps : ipNetString ⟨zipAND b (cidrMaskBytes 16 p), cidrMaskBytes 16 p⟩
          = dottedV4 ip4 ++ 47 :: uitoa (p - 96) := by
        rw [ipNetString_eval _ _ _ (p - 96) hnm
          (by rw [hdrop12]; exact sml_cidr4 (p - 96) (by omega)),
          ipString_4 _ hip4len]
      have hwip4 : wf ip4 := by
        rw [hip4]
        intro x hx
        exact hwnn x (List.mem_of_mem_drop hx)
      have hcidr := parseCIDR_split (dottedV4 ip4) (uitoa (p - 96))
        (Addr.v4 ip4) (p - 96)
        (no47_dotted _ hip4len)
        (parseAddr_dotted _ hip4len hwip4)
        (dtoi_uitoa_le128 _ (by omega))
        (by simp only [bitLen]; omega)
      simp only [addrSlice, bitLen] at hcidr
      rw [show (32 : Nat) / 8 = 4 by norm_num] at hcidr
      have hidem2 : zipAND ip4 (cidrMaskBytes 4 (p - 96)) = ip4 := by
        rw [← hdrop12, hip4, zipAND_drop, zipAND_idem]
      rw [hidem2] at hcidr
      refine ⟨ip4, ⟨ip4, cidrMaskBytes 4 (p - 96)⟩, ?_, ?_,
        fun h => absurd h (by omega), fun _ hnone => ?_⟩
      · rw [hps]
        have h47 : (47 : Nat) ∈ dottedV4 ip4 ++ 47 :: uitoa (p - 96) :=
          List.mem_append.2 (Or.inr (List.mem_cons_self _ _))
        exact parseInput_of_cidr _ _ (atoiOk_false_of_47 _ h47) hcidr
      · rw [nnAndMask_44 ip4 _ hip4len (cidrMaskBytes_length 4 _), hnm, hdrop12]
      · exact absurd hnone (by simp)

/-- C6 counterexample: the input "::ffff:1.2.3.4/120" parses to a
16-byte network (the IPv4-mapped address with a 120-bit mask), but its
canonical string form is "1.2.3.0/24", which re-parses to the 4-byte
network ⟨[1,2,3,0],[255,255,255,0]⟩ — not byte-identical to the
original AddressRange. -/
theorem C6_cex :
    parseInput (s2b "::ffff:1.2.3.4/120")
      = some (v4InV6Pfx ++ [1, 2, 3, 4],
          ⟨v4InV6Pfx ++ [1, 2, 3, 0], List.replicate 15 255 ++ [0]⟩) ∧
    ipNetString ⟨v4InV6Pfx ++ [1, 2, 3, 0], List.replicate 15 255 ++ [0]⟩
      = s2b "1.2.3.0/24" ∧
    parseInput (s2b "1.2.3.0/24")
      = some ([1, 2, 3, 0], ⟨[1, 2, 3, 0], [255, 255, 255, 0]⟩) ∧
    (⟨[1, 2, 3, 0], [255, 255, 255, 0]⟩ : IPNet)
      ≠ ⟨v4InV6Pfx ++ [1, 2, 3, 0], List.replicate 15 255 ++ [0]⟩ := by
  refine ⟨by decide, by decide, by decide, by decide⟩

/-- C6 (amended): for every accepted input, re-running parseInput on the
canonical string form of the parsed range succeeds and yields a range with
the same normalised network/mask pair (hence containing exactly the same
addresses); the result is byte-identical to the original whenever the mask
is 4 bytes, or 16 bytes with a base address that is not IPv4-mapped. -/
theorem C6_amended (s ip : List Nat) (net : IPNet)
    (h : parseInput s = some (ip, net)) :
    ∃ ip2 net2, parseInput (ipNetString net) = some (ip2, net2) ∧
      nnAndMask net2 = nnAndMask net ∧
      (∀ x, containsIP net2 x = containsIP net x) ∧
      (net.mask.length = 4 → net2 = net) ∧
      (net.mask.length = 16 → to4 net.ip = none → net2 = net) := by
  obtain ⟨s2, ip1, hcidr⟩ := parseInput_net_shape s ip net h
  obtain ⟨b, L, p, hL, hb, hwb, hp, hnet⟩ := parseCIDR_net_shape s2 ip1 net hcidr
  obtain ⟨ip2, net2, h1, h2, h3, h4⟩ := reparse_net b L p hL hb hwb hp net hnet
  have hmask : net.mask = cidrMaskBytes L p := by rw [hnet]
  refine ⟨ip2, net2, h1, h2, ?_, ?_, ?_⟩
  · intro x
    unfold containsIP
    rw [h2]
  · intro hm4
    apply h3
    rw [hmask, cidrMaskBytes_length] at hm4
    exact hm4
  · intro hm16 hto4
    apply h4 _ hto4
    rw [hmask, cidrMaskBytes_length] at hm16
    exact hm16

theorem C6_amended_witness :
    ∃ ip2 net2,
      parseInput (ipNetString ⟨[10, 0, 0, 0], [255, 0, 0, 0]⟩)
        = some (ip2, net2) ∧
      nnAndMask net2 = nnAndMask ⟨[10, 0, 0, 0], [255, 0, 0, 0]⟩ ∧
      (∀ x, containsIP net2 x
        = containsIP ⟨[10, 0, 0, 0], [255, 0, 0, 0]⟩ x) ∧
      ((⟨[10, 0, 0, 0], [255, 0, 0, 0]⟩ : IPNet).mask.length = 4 →
        net2 = ⟨[10, 0, 0, 0], [255, 0, 0, 0]⟩) ∧
      ((⟨[10, 0, 0, 0], [255, 0, 0, 0]⟩ : IPNet).mask.length = 16 →
        to4 (⟨[10, 0, 0, 0], [255, 0, 0, 0]⟩ : IPNet).ip = none →
        net2 = ⟨[10, 0, 0, 0], [255, 0, 0, 0]⟩) :=
  C6_amended (s2b "10.0.0.0/8") [10, 0, 0, 0]
    ⟨[10, 0, 0, 0], [255, 0, 0, 0]⟩ (by decide)

end SSHScan
